import Mathlib

/-! # goimapfilter: the streaming copy-and-filter engine

A shallow embedding of `connection.go` (`DoWrite`, `DoWriteReplace`, `CopyProxy`, the idle
monitor started by `Proxy`) and of the rule construction in `main.go` (`Listener`).

* Bytes are natural numbers (values below 256); `ascii` turns ASCII text into bytes.
* The two regular expressions built in `Listener` are abstract syntax trees interpreted by a
  backtracking matcher that lists the possible matches in priority order; its first element is
  the match Go's `regexp` package reports (leftmost, and among the leftmost ones the one a
  backtracking search finds first).  Bytes are matched one at a time; where Go takes one
  character of several bytes (the class `[^"]` that is not repeated), the tree does too.
* `Listener` compiles the text of each configured pattern inside its omit expression.
  `compilePattern` gives the tree for the texts made of literal bytes, escaped punctuation
  and `.*`, for which the compiled expression is the omit expression around the pattern's
  own tree; other texts (such as one with a `|`) are outside the model.
* The upstream connection is a script of `Read` results, the downstream connection a function
  from the number of the `Write` call and its payload to the result of that call.
* `CopyProxy` keeps the 64 KiB array `buf` and the index `wpos` of the source; a Go slice
  expression that is out of range is a run-time panic.
-/

namespace ImapFilter

/-! ## Bytes -/

/-- ASCII text as the byte sequence it denotes (one byte per character). -/
def ascii (s : String) : List Nat := s.toList.map Char.toNat

/-- The line terminator `rn := []byte{'\r', '\n'}` of `CopyProxy`. -/
def rn : List Nat := [13, 10]

/-- Number of positions of `text` at which `pat` occurs. -/
def occurrences (pat : List Nat) : List Nat → Nat
  | [] => if pat.isPrefixOf [] then 1 else 0
  | c :: r => (if pat.isPrefixOf (c :: r) then 1 else 0) + occurrences pat r

/-! ## Regular expressions (the part of Go's `regexp` the program uses) -/

/-- Abstract syntax of the regular expressions compiled in `Listener`. -/
inductive Regex where
  /-- The empty expression. -/
  | empty : Regex
  /-- One literal byte. -/
  | byte (c : Nat) : Regex
  /-- One byte of a character class. -/
  | cls (p : Nat → Bool) : Regex
  /-- The assertion `^` under the flag `(?m)`: start of text or just after a line feed. -/
  | bol : Regex
  /-- Concatenation. -/
  | seq (a b : Regex) : Regex
  /-- Alternation `a|b`, which prefers `a`. -/
  | alt (a b : Regex) : Regex
  /-- Greedy repetition `a*`. -/
  | star (a : Regex) : Regex
  /-- Capturing group number `i`. -/
  | group (i : Nat) (a : Regex) : Regex

/-- A literal byte string. -/
def Regex.lit : List Nat → Regex
  | [] => .empty
  | [c] => .byte c
  | c :: d :: cs => .seq (.byte c) (Regex.lit (d :: cs))

/-- Greedy `a+`. -/
def Regex.plus (a : Regex) : Regex := .seq a (.star a)

/-- Greedy `a?`. -/
def Regex.opt (a : Regex) : Regex := .alt a .empty

/-- Concatenation of a list of expressions. -/
def Regex.seqs : List Regex → Regex
  | [] => .empty
  | [a] => a
  | a :: b :: as => .seq a (Regex.seqs (b :: as))

/-- A position of the matcher: whether `^` holds here, the input still to be read and the
groups captured so far (most recent first). -/
structure MState where
  bol : Bool
  rest : List Nat
  caps : List (Nat × List Nat)

/-- Greedy iteration of `step`: one more round (only rounds that consume input) before the
choice to stop.  `fuel` bounds the number of rounds by the length of the input. -/
def starLoop (step : MState → List MState) : Nat → MState → List MState
  | 0, s => [s]
  | fuel + 1, s =>
    (((step s).filter (fun t => decide (t.rest.length < s.rest.length))).flatMap
      (starLoop step fuel)) ++ [s]

/-- All ways `re` matches at position `s`, in the order a backtracking search tries them. -/
def matchRe : Regex → MState → List MState
  | .empty, s => [s]
  | .byte c, s =>
    match s.rest with
    | [] => []
    | x :: r => if x = c then [{ bol := x == 10, rest := r, caps := s.caps }] else []
  | .cls p, s =>
    match s.rest with
    | [] => []
    | x :: r => if p x then [{ bol := x == 10, rest := r, caps := s.caps }] else []
  | .bol, s => if s.bol then [s] else []
  | .seq a b, s => (matchRe a s).flatMap (matchRe b)
  | .alt a b, s => matchRe a s ++ matchRe b s
  | .star a, s => starLoop (matchRe a) s.rest.length s
  | .group i a, s =>
    (matchRe a s).map (fun t =>
      { t with caps := (i, s.rest.take (s.rest.length - t.rest.length)) :: t.caps })

/-- The match of `re` that starts exactly at the current position, if there is one. -/
def matchAt (re : Regex) (bol : Bool) (text : List Nat) : Option MState :=
  (matchRe re { bol := bol, rest := text, caps := [] }).head?

/-- Search for a match starting at the current position or later. -/
def findFrom (re : Regex) : Bool → List Nat → Bool
  | bol, [] => (matchAt re bol []).isSome
  | bol, c :: r => (matchAt re bol (c :: r)).isSome || findFrom re (c == 10) r

/-- The test `re.Find(b) != nil`. -/
def Find (re : Regex) (b : List Nat) : Bool := findFrom re true b

/-- An item of a replacement template: literal text or a group reference `$i`. -/
inductive TItem where
  | text (b : List Nat)
  | ref (i : Nat)

/-- The text captured by group `i` (empty when the group did not take part). -/
def capture (caps : List (Nat × List Nat)) (i : Nat) : List Nat :=
  match caps.find? (fun e => e.1 == i) with
  | some e => e.2
  | none => []

/-- Expansion of a replacement template for one match. -/
def expand (tmpl : List TItem) (caps : List (Nat × List Nat)) : List Nat :=
  tmpl.flatMap (fun t =>
    match t with
    | .text b => b
    | .ref i => capture caps i)

/-- The scan of `ReplaceAll` from the current position: `skip` counts the bytes of the current
match still to be passed over, `am` tells that a match ended right here (an empty match is not
replaced directly after another match). -/
def replaceFrom (re : Regex) (tmpl : List TItem) : Bool → Nat → Bool → List Nat → List Nat
  | bol, _, am, [] =>
    match matchAt re bol [] with
    | some m => if am then [] else expand tmpl m.caps
    | none => []
  | _, skip + 1, _, c :: r => replaceFrom re tmpl (c == 10) skip true r
  | bol, 0, am, c :: r =>
    match matchAt re bol (c :: r) with
    | none => c :: replaceFrom re tmpl (c == 10) 0 false r
    | some m =>
      if m.rest.length < (c :: r).length then
        expand tmpl m.caps ++ replaceFrom re tmpl (c == 10) (r.length - m.rest.length) true r
      else
        (if am then [] else expand tmpl m.caps) ++ c :: replaceFrom re tmpl (c == 10) 0 false r

/-- The call `re.ReplaceAll(b, tmpl)`: every non-overlapping match, found from left to right,
is replaced by the expansion of the template. -/
def ReplaceAll (re : Regex) (b : List Nat) (tmpl : List TItem) : List Nat :=
  replaceFrom re tmpl true 0 false b

/-- The position reached from `s` once the bytes `w` have been consumed. -/
def adv (s : MState) : List Nat → MState
  | [] => s
  | x :: w => adv { bol := x == 10, rest := s.rest.tail, caps := s.caps } w

/-- The position `t` with group `i` set to the bytes consumed since position `s`. -/
def setCap (i : Nat) (s t : MState) : MState :=
  { t with caps := (i, s.rest.take (s.rest.length - t.rest.length)) :: t.caps }

/-- The first way `re` matches at position `s` ends at position `t`. -/
def First (re : Regex) (s t : MState) : Prop := ∃ tl, matchRe re s = t :: tl

/-- The first way `re` matches at position `s` takes all the input that is left. -/
def Whole (re : Regex) (s : MState) : Prop := ∃ m, First re s m ∧ m.rest = []

/-! ## The rules built in `Listener` -/

/-- The class `[^\r\n]`. -/
def notCRLF (x : Nat) : Bool := !(x == 13 || x == 10)

/-- The class `[*0-9.]`. -/
def tagByte (x : Nat) : Bool := x == 42 || (48 ≤ x && x ≤ 57) || x == 46

/-- The capability expression
`(?m)^([*0-9.]+ OK \[CAPABILITY IMAP4[^\r\n]+) COMPRESS=DEFLATE([^\r\n]*\r\n)`. -/
def capRe : Regex :=
  Regex.seqs [.bol,
    .group 1 (Regex.seqs [Regex.plus (.cls tagByte), Regex.lit (ascii " OK [CAPABILITY IMAP4"),
      Regex.plus (.cls notCRLF)]),
    Regex.lit (ascii " COMPRESS=DEFLATE"),
    .group 2 (Regex.seqs [.star (.cls notCRLF), Regex.lit rn])]

/-- The class of the bytes from `lo` to `hi`. -/
def inRange (lo hi : Nat) : Regex := .cls (fun x => decide (lo ≤ x) && decide (x ≤ hi))

/-- One character of two, three or four bytes, as `utf8.DecodeRune` accepts it: no overlong
form, no surrogate, nothing above U+10FFFF. -/
def utf8Multi : Regex :=
  .alt (.seq (inRange 194 223) (inRange 128 191))
  (.alt (.seq (.byte 224) (.seq (inRange 160 191) (inRange 128 191)))
  (.alt (.seq (inRange 225 236) (.seq (inRange 128 191) (inRange 128 191)))
  (.alt (.seq (.byte 237) (.seq (inRange 128 159) (inRange 128 191)))
  (.alt (.seq (inRange 238 239) (.seq (inRange 128 191) (inRange 128 191)))
  (.alt (.seq (.byte 240) (.seq (inRange 144 191) (.seq (inRange 128 191) (inRange 128 191))))
  (.alt (.seq (inRange 241 243)
          (.seq (inRange 128 191) (.seq (inRange 128 191) (inRange 128 191))))
        (.seq (.byte 244)
          (.seq (inRange 128 143) (.seq (inRange 128 191) (inRange 128 191))))))))))

/-- The class `[^"]` where it stands once: one character other than `"`, which is one byte
(an ASCII byte, or a byte that starts no character and counts as one) or one character of
several bytes. -/
def notQuote : Regex := .alt (.cls (fun x => !(x == 34))) utf8Multi

/-- The omit expression around the tree `v` of a pattern:
`(?m)^\* (LIST|LSUB) (\([^)]*\))? "[^"]" "?`, then `v`, then `[^\r\n]*"?\r\n`.
The source splices the text of the pattern into the text of the expression and compiles the
whole; this is the compiled expression for the pattern texts whose tree `compilePattern`
gives. -/
def omitRe (v : Regex) : Regex :=
  Regex.seqs [.bol, Regex.lit (ascii "* "),
    .group 1 (.alt (Regex.lit (ascii "LIST")) (Regex.lit (ascii "LSUB"))),
    .byte 32,
    Regex.opt (.group 2 (Regex.seqs [.byte 40, .star (.cls (fun x => !(x == 41))), .byte 41])),
    Regex.lit (ascii " \""), notQuote, Regex.lit (ascii "\" "),
    Regex.opt (.byte 34), v, .star (.cls notCRLF), Regex.opt (.byte 34), Regex.lit rn]

/-- The bytes ` OK [CAPABILITY IMAP4` of the capability expression. -/
def capOK : List Nat := ascii " OK [CAPABILITY IMAP4"

/-- The token `COMPRESS=DEFLATE`. -/
def capToken : List Nat := ascii "COMPRESS=DEFLATE"

/-- The 17 bytes the capability rule removes: the token and the space before it. -/
def capCut : List Nat := ascii " COMPRESS=DEFLATE"

/-- The replacement template `$1$2` of the capability rule. -/
def capTemplate : List TItem := [.ref 1, .ref 2]

/-! ## The connection -/

/-- Result of one `Write` on the client socket: bytes accepted and whether an error came back. -/
structure WriteResult where
  nw : Nat
  failed : Bool

/-- The fields of `ImapConnection` that `CopyProxy` reads: the compiled rules and the client
socket, given by the result of its `k`-th `Write` for a payload. -/
structure ImapConnection where
  capRe : Regex
  res : List Regex
  localConn : Nat → List Nat → WriteResult

/-- A client socket on which every `Write` completes fully. -/
def fullWrite : Nat → List Nat → WriteResult := fun _ b => ⟨b.length, false⟩

/-- The connection record `Listener` builds, given the trees `omits` of the configured
patterns (`ListenerOfText` starts from their texts). -/
def Listener (omits : List Regex) (localConn : Nat → List Nat → WriteResult) : ImapConnection :=
  { capRe := capRe, res := omits.map omitRe, localConn := localConn }

/-! ## The text of the configured patterns -/

/-- The bytes with a meaning in the syntax of regular expressions, the ones
`regexp.QuoteMeta` escapes: `\.+*?()|[]{}^$`. -/
def metaBytes : List Nat := ascii "\\.+*?()|[]\x7b\x7d^$"

/-- A printable ASCII byte without a meaning in the syntax: in a pattern it stands for
itself. -/
def plainByte (x : Nat) : Bool := decide (32 ≤ x) && decide (x ≤ 126) && !(metaBytes.contains x)

/-- A pattern text without metacharacters. -/
def plain (v : List Nat) : Bool := v.all plainByte

/-- A printable ASCII byte that is neither a letter nor a digit: behind a backslash it stands
for itself. -/
def punctByte (x : Nat) : Bool :=
  decide (32 ≤ x) && decide (x ≤ 126) &&
    !((decide (48 ≤ x) && decide (x ≤ 57)) || (decide (65 ≤ x) && decide (x ≤ 90)) ||
      (decide (97 ≤ x) && decide (x ≤ 122)))

/-- The items of a pattern text, each with its tree: a byte without a meaning in the syntax,
a backslash with the punctuation byte it escapes, or `.*` (any bytes but LF).  `none` for a
text that is not such a sequence. -/
def compileItems : List Nat → Option (List Regex)
  | [] => some []
  | c :: r =>
    match c, r with
    | 92, e :: r' =>
      if punctByte e then (compileItems r').map (fun ts => Regex.byte e :: ts) else none
    | 46, 42 :: r' =>
      (compileItems r').map (fun ts => Regex.star (.cls (fun x => !(x == 10))) :: ts)
    | c, r => if plainByte c then (compileItems r).map (fun ts => Regex.byte c :: ts) else none

/-- The tree of the pattern text `v`, for the texts that are a sequence of literal bytes,
escaped punctuation and `.*`: spliced into the omit expression, such a text compiles to the
omit expression around this tree.  `none` for every other text: what `regexp.Compile` makes
of the expression then (it may fail, and `Listener` ends the program with `Fatalf`) is not
modelled. -/
def compilePattern (v : List Nat) : Option Regex := (compileItems v).map Regex.seqs

/-- The trees of a list of pattern texts, when each has one. -/
def compileAll : List (List Nat) → Option (List Regex)
  | [] => some []
  | v :: vs =>
    match compilePattern v, compileAll vs with
    | some t, some ts => some (t :: ts)
    | _, _ => none

/-- The connection record `Listener` builds from the configured pattern texts `omits`;
`none` when a text is outside the texts `compilePattern` covers. -/
def ListenerOfText (omits : List (List Nat)) (localConn : Nat → List Nat → WriteResult) :
    Option ImapConnection :=
  (compileAll omits).map (fun ts => Listener ts localConn)

/-- The omit patterns `main` configures when none is given on the command line:
`INBOX\.archive.*` and `archive`. -/
def defaultOmits : List (List Nat) := [ascii "INBOX\\.archive.*", ascii "archive"]

/-- The error value of a `Read`: `nil`, `io.EOF` or another error. -/
inductive ReadErr where
  | nil
  | eof
  | other
  deriving DecidableEq, Repr

/-- One result of `src.Read`: the bytes it stored in the offered slice and its error value. -/
structure ReadResult where
  data : List Nat
  er : ReadErr
  deriving DecidableEq, Repr

/-- The error values `CopyProxy` can return. -/
inductive Err where
  | read
  | write
  | shortWrite
  deriving DecidableEq, Repr

/-- Where the loop of `CopyProxy` stands: about to call `Read`, returned, or stopped by a
slice expression out of range. -/
inductive Status where
  | running
  | returned (err : Option Err)
  | panicked
  deriving DecidableEq, Repr

/-- The three places where `CopyProxy` hands buffered bytes to the client side: the call of
`DoWriteReplace` on complete lines, the unfiltered write of a full buffer without terminator,
and the unfiltered write after the last read. -/
inductive Kind where
  | filtered
  | overflow
  | flush
  deriving DecidableEq, Repr

/-- A record of one hand-over: its kind, the buffered bytes `buf[0:wpos]` at that moment and
the slice handed over. -/
structure Chunk where
  kind : Kind
  held : List Nat
  bytes : List Nat
  deriving DecidableEq, Repr

/-- The client side of the connection as `DoWrite` changes it: the counter `ic.written` and
a record `out` of the bytes the client socket accepted, call by call. -/
structure Sock where
  written : Nat
  out : List (List Nat)
  deriving DecidableEq, Repr

/-- The variables of `CopyProxy` (`buf`, `wpos`), the client side and a record `log` of the
slices the loop handed over, in order. -/
structure CopyState where
  buf : List Nat
  wpos : Nat
  status : Status
  sock : Sock
  log : List Chunk
  deriving DecidableEq, Repr

/-- The buffer size `bufSize := 64 * 1024`. -/
def bufSize : Nat := 64 * 1024

/-- Index of the last occurrence of `sep` in `s` (`bytes.LastIndex`); `none` stands for -1. -/
def LastIndex (s sep : List Nat) : Option Nat :=
  match s with
  | [] => if sep.isPrefixOf [] then some 0 else none
  | c :: r =>
    match LastIndex r sep with
    | some i => some (i + 1)
    | none => if sep.isPrefixOf (c :: r) then some 0 else none

/-- The slice expression `b[lo:hi]` on the buffer, whose capacity is `bufSize`;
`none` is the run-time panic for bounds out of range. -/
def slice (b : List Nat) (lo hi : Nat) : Option (List Nat) :=
  if lo ≤ hi ∧ hi ≤ bufSize then some ((b.take hi).drop lo) else none

/-- The array after `src` has been stored at `b[lo], b[lo+1], ...`. -/
def store (b : List Nat) (lo : Nat) (src : List Nat) : List Nat :=
  b.take lo ++ src ++ b.drop (lo + src.length)

/-- `DoWrite`: one `Write` of `b` on the client socket. -/
def DoWrite (ic : ImapConnection) (k : Sock) (b : List Nat) : Sock × Option Err :=
  let w := ic.localConn k.out.length b
  let written := if w.nw > 0 then k.written + w.nw else k.written
  let err := if w.failed then some Err.write else none
  let err := if w.nw ≠ b.length then some Err.shortWrite else err
  ({ written := written, out := k.out ++ [b.take w.nw] }, err)

/-- One omit rule: replace every match by nothing, when there is a match. -/
def applyRule (b : List Nat) (re : Regex) : List Nat :=
  if Find re b then ReplaceAll re b [] else b

/-- The rewriting done by `DoWriteReplace` before it writes: the capability rule, then every
omit rule in order. -/
def filter (ic : ImapConnection) (b : List Nat) : List Nat :=
  let b1 := if Find ic.capRe b then ReplaceAll ic.capRe b capTemplate else b
  ic.res.foldl applyRule b1

/-- `DoWriteReplace`: rewrite `b` and write the result. -/
def DoWriteReplace (ic : ImapConnection) (k : Sock) (b : List Nat) : Sock × Option Err :=
  DoWrite ic k (filter ic b)

/-- How the block `if nr > 0 { ... }` is left. -/
inductive Flow where
  | continue (st : CopyState)
  | break (st : CopyState)
  | fall (st : CopyState)

/-- The block `if nr > 0 { ... }` of the loop, for a read that returned `data`. -/
def onData (ic : ImapConnection) (st : CopyState) (data : List Nat) : Option Flow := do
  let nr := data.length
  let _ ← slice st.buf st.wpos (st.wpos + nr)
  let st := { st with buf := store st.buf st.wpos data, wpos := st.wpos + nr }
  let held ← slice st.buf 0 st.wpos
  match LastIndex held rn with
  | none =>
    if st.wpos < bufSize - rn.length then
      return .continue st
    else
      let b ← slice st.buf 0 st.wpos
      let st := { st with log := st.log ++ [Chunk.mk .overflow held b] }
      let (sock, err) := DoWrite ic st.sock b
      if err ≠ none then
        return .break { st with sock := sock, status := .returned err }
      else
        return .fall { st with sock := sock, wpos := 0 }
  | some idx =>
    let chunkLen := idx + rn.length
    let b ← slice st.buf 0 chunkLen
    let st := { st with log := st.log ++ [Chunk.mk .filtered held b] }
    let (sock, err) := DoWriteReplace ic st.sock b
    if err ≠ none then
      return .break { st with sock := sock, status := .returned err }
    else if chunkLen < st.wpos then
      let n := st.wpos - chunkLen
      let dst ← slice st.buf 0 n
      let src ← slice st.buf chunkLen st.wpos
      return .fall { st with sock := sock, buf := store st.buf 0 (src.take dst.length), wpos := n }
    else
      return .fall { st with sock := sock, wpos := 0 }

/-- The two tests on `er` that end the loop. -/
def onErr (ic : ImapConnection) (st : CopyState) (er : ReadErr) : Option CopyState := do
  match er with
  | .eof =>
    let b ← slice st.buf 0 st.wpos
    let (sock, ew) := DoWrite ic st.sock b
    return { st with log := st.log ++ [Chunk.mk .flush b b], sock := sock, wpos := 0,
                     status := .returned ew }
  | .other =>
    let b ← slice st.buf 0 st.wpos
    let (sock, ew) := DoWrite ic st.sock b
    return { st with log := st.log ++ [Chunk.mk .flush b b], sock := sock, wpos := 0,
                     status := .returned (if ew ≠ none then ew else some Err.read) }
  | .nil => return st

/-- One pass through the body of the loop, for the result `r` of `src.Read(buf[wpos:])`. -/
def body (ic : ImapConnection) (st : CopyState) (r : ReadResult) : Option CopyState := do
  let _ ← slice st.buf st.wpos bufSize
  if r.data.length > 0 then
    match ← onData ic st r.data with
    | .continue st => return st
    | .break st => return st
    | .fall st => onErr ic st r.er
  else
    onErr ic st r.er

/-- One iteration of the loop; a loop that has ended stays as it is. -/
def iteration (ic : ImapConnection) (st : CopyState) (r : ReadResult) : CopyState :=
  match st.status with
  | .running => (body ic st r).getD { st with status := .panicked }
  | _ => st

/-- The state on entry to the loop. -/
def initState : CopyState :=
  { buf := List.replicate bufSize 0, wpos := 0, status := .running,
    sock := { written := 0, out := [] }, log := [] }

/-- The loop run from `st` against the results of the successive reads. -/
def copyLoop (ic : ImapConnection) (st : CopyState) (reads : List ReadResult) : CopyState :=
  reads.foldl (iteration ic) st

/-- `CopyProxy` run against the results of the successive reads.  Status `running` at the end
means that the loop is calling `Read` again. -/
def CopyProxy (ic : ImapConnection) (reads : List ReadResult) : CopyState :=
  copyLoop ic initState reads


/-! ## The idle monitor started by `Proxy` -/

/-- What the `select` of the idle monitor can receive: a value `rx` from `ic.poke` (taken at
time `now`, in nanoseconds), the expiry of `time.After(*timeout)`, or the closing of
`ic.poke`. -/
inductive MonEvent where
  | pulse (rx : Nat) (now : Int)
  | timeout
  | closed
  deriving DecidableEq, Repr

/-- The idle monitor: whether its goroutine has returned, the variable `last`, and counts of
the calls `ic.localConn.Close()`, `ic.remoteConn.Close()` and of the lines `Sent %d bytes`. -/
structure Monitor where
  exited : Bool
  last : Int
  localCloses : Nat
  remoteCloses : Nat
  sentLines : Nat
  deriving DecidableEq, Repr

/-- One pass through the `select` of the idle monitor. -/
def Monitor.step (m : Monitor) (e : MonEvent) : Monitor :=
  if m.exited then m
  else
    match e with
    | .closed => { m with exited := true }
    | .pulse _ now =>
      if now - m.last > 10 * 1000000000 then { m with last := now, sentLines := m.sentLines + 1 }
      else m
    | .timeout =>
      { m with localCloses := m.localCloses + 1, remoteCloses := m.remoteCloses + 1 }

/-- The idle monitor started at time `start`, run against a sequence of events. -/
def idleMonitor (start : Int) (evs : List MonEvent) : Monitor :=
  evs.foldl Monitor.step
    { exited := false, last := start, localCloses := 0, remoteCloses := 0, sentLines := 0 }

/-- The number of timeouts that elapse before `ic.poke` is closed. -/
def timeoutsBeforeClose : List MonEvent → Nat
  | [] => 0
  | .closed :: _ => 0
  | .timeout :: r => timeoutsBeforeClose r + 1
  | .pulse _ _ :: r => timeoutsBeforeClose r

/-! ## The loop on the buffered bytes alone -/

/-- The buffered bytes `buf[0:wpos]`. -/
def live (st : CopyState) : List Nat := st.buf.take st.wpos

/-- The state with the stale part of the array cut off: `buf` holds the buffered bytes only. -/
def view (st : CopyState) : CopyState := { st with buf := st.buf.take st.wpos }

/-- The two tests on `er`, on a state whose `buf` holds the buffered bytes only. -/
def flushErr (ic : ImapConnection) (v : CopyState) (er : ReadErr) : CopyState :=
  match er with
  | .nil => v
  | .eof =>
    match DoWrite ic v.sock v.buf with
    | (sock, ew) =>
      { v with log := v.log ++ [Chunk.mk .flush v.buf v.buf], sock := sock, buf := [], wpos := 0,
               status := .returned ew }
  | .other =>
    match DoWrite ic v.sock v.buf with
    | (sock, ew) =>
      { v with log := v.log ++ [Chunk.mk .flush v.buf v.buf], sock := sock, buf := [], wpos := 0,
               status := .returned (if ew ≠ none then ew else some Err.read) }

/-- The body of the loop on a state whose `buf` holds the buffered bytes only. -/
def listBody (ic : ImapConnection) (v : CopyState) (r : ReadResult) : CopyState :=
  if r.data = [] then flushErr ic v r.er
  else if bufSize < v.wpos + r.data.length then { v with status := .panicked }
  else
    let held := v.buf ++ r.data
    let v := { v with buf := held, wpos := v.wpos + r.data.length }
    match LastIndex held rn with
    | none =>
      if v.wpos < bufSize - 2 then v
      else
        let v := { v with log := v.log ++ [Chunk.mk .overflow held held] }
        match DoWrite ic v.sock held with
        | (sock, err) =>
          if err ≠ none then { v with sock := sock, status := .returned err }
          else flushErr ic { v with sock := sock, buf := [], wpos := 0 } r.er
    | some idx =>
      let c := held.take (idx + 2)
      let v := { v with log := v.log ++ [Chunk.mk .filtered held c] }
      match DoWriteReplace ic v.sock c with
      | (sock, err) =>
        if err ≠ none then { v with sock := sock, status := .returned err }
        else flushErr ic { v with sock := sock, buf := held.drop (idx + 2),
                                  wpos := v.wpos - (idx + 2) } r.er

/-- One iteration of the loop on a state whose `buf` holds the buffered bytes only. -/
def listStep (ic : ImapConnection) (v : CopyState) (r : ReadResult) : CopyState :=
  match v.status with
  | .running => listBody ic v r
  | _ => v

/-- The loop on states whose `buf` holds the buffered bytes only. -/
def listLoop (ic : ImapConnection) (v : CopyState) (reads : List ReadResult) : CopyState :=
  reads.foldl (listStep ic) v

/-! ## Vocabulary of the statements -/

/-- Every read returned at most as many bytes as the slice `buf[wpos:]` it was offered. -/
def readsFit (ic : ImapConnection) : CopyState → List ReadResult → Bool
  | _, [] => true
  | st, r :: rs =>
    (st.status != .running || decide (r.data.length ≤ bufSize - st.wpos)) &&
      readsFit ic (iteration ic st r) rs

/-- The upstream reads that deliver the fragments `frags` one per read, without error, and
then report end-of-stream. -/
def script (frags : List (List Nat)) : List ReadResult :=
  frags.map (fun d => ⟨d, .nil⟩) ++ [⟨[], .eof⟩]

/-- All bytes the reads returned, in order. -/
def stream (reads : List ReadResult) : List Nat :=
  (reads.map ReadResult.data).flatten

/-- All bytes the client socket accepted, in order. -/
def delivered (st : CopyState) : List Nat := st.sock.out.flatten

/-- The bytes handed over by the entries of a log, in order. -/
def handed (log : List Chunk) : List Nat := (log.map Chunk.bytes).flatten

/-- The slices passed to `DoWriteReplace`, in order. -/
def chunks (st : CopyState) : List (List Nat) :=
  (st.log.filter (fun e => e.kind = .filtered)).map Chunk.bytes

/-- The position after the hand-overs `pre` is the first byte of the stream, or follows a
terminator of the stream, or follows a write of the overflow branch. -/
def AtBoundary (pre : List Chunk) : Prop :=
  handed pre = [] ∨ rn <:+ handed pre ∨ ∃ p o, pre = p ++ [o] ∧ o.kind = .overflow

/-- What holds of the hand-over `e` that follows the hand-overs `pre`, in a run that read
the bytes `S`. -/
def EntryOK (S : List Nat) (pre : List Chunk) (e : Chunk) : Prop :=
  (handed pre ++ e.held) <+: S ∧ AtBoundary pre ∧ e.bytes <+: e.held ∧
  match e.kind with
  | .filtered =>
    e.bytes ≠ [] ∧ rn <:+ e.bytes ∧ LastIndex (e.held.drop e.bytes.length) rn = none
  | .overflow => e.bytes = e.held ∧ LastIndex e.held rn = none ∧ bufSize - 2 ≤ e.held.length
  | .flush => e.bytes = e.held ∧ LastIndex e.held rn = none

/-- Every entry of the log is as `EntryOK` says. -/
def LogOK (S : List Nat) (log : List Chunk) : Prop :=
  ∀ pre e post, log = pre ++ e :: post → EntryOK S pre e

/-- The log is in order and, while the loop runs, the bytes read so far are those handed
over followed by those buffered, and nothing has been flushed. -/
def Traced (S : List Nat) (v : CopyState) : Prop :=
  LogOK S v.log ∧
    (v.status = .running →
      handed v.log ++ v.buf = S ∧ AtBoundary v.log ∧ ∀ e ∈ v.log, e.kind ≠ .flush)

/-- The bytes written for a hand-over: the rewritten slice for a call of `DoWriteReplace`,
the slice itself otherwise. -/
def sentOf (ic : ImapConnection) (e : Chunk) : List Nat :=
  match e.kind with
  | .filtered => filter ic e.bytes
  | _ => e.bytes

/-- On a client socket that accepts every write, the socket received what the log says and
`written` counts it. -/
def SockOK (ic : ImapConnection) (v : CopyState) : Prop :=
  v.sock.out = v.log.map (sentOf ic) ∧ v.sock.written = v.sock.out.flatten.length

/-- No rule of the connection matches anywhere in `b`. -/
def NoRuleMatches (ic : ImapConnection) (b : List Nat) : Prop :=
  Find ic.capRe b = false ∧ ∀ re ∈ ic.res, Find re b = false

instance (ic : ImapConnection) (b : List Nat) : Decidable (NoRuleMatches ic b) := by
  unfold NoRuleMatches
  infer_instance

/-- The complete lines of a stream, each with its CRLF, and the unterminated tail behind the
last CRLF; `cur` holds the bytes of the current line passed so far. -/
def splitLines (cur : List Nat) : List Nat → List (List Nat) × List Nat
  | [] => ([], cur)
  | c :: r =>
    if c = 10 ∧ cur.getLast? = some 13 then
      ((cur ++ [c]) :: (splitLines [] r).1, (splitLines [] r).2)
    else splitLines (cur ++ [c]) r

/-- The complete lines of a stream, each with its CRLF. -/
def lines (S : List Nat) : List (List Nat) := (splitLines [] S).1

/-- The bytes of a stream behind its last CRLF. -/
def tail (S : List Nat) : List Nat := (splitLines [] S).2

/-- The same condition on states whose `buf` holds the buffered bytes only. -/
def listFits (ic : ImapConnection) : CopyState → List ReadResult → Bool
  | _, [] => true
  | v, r :: rs =>
    (v.status != .running || decide (r.data.length ≤ bufSize - v.wpos)) &&
      listFits ic (listStep ic v r) rs

/-- The state on entry to the loop, with `buf` holding the buffered bytes only. -/
def listInit : CopyState := view initState

/-- The bounds the loop keeps: `wpos` counts the buffered bytes and stays within the array;
when the loop is about to read, at least two bytes are free and no terminator is buffered. -/
def WellFormed (v : CopyState) : Prop :=
  v.wpos = v.buf.length ∧ v.buf.length ≤ bufSize ∧
    (v.status = .running → v.buf.length ≤ bufSize - 2 ∧ LastIndex v.buf rn = none)

/-! ## Rules that match line by line -/

/-- The position `t` of a text that goes on with `B`. -/
def ext (B : List Nat) (t : MState) : MState := { t with rest := t.rest ++ B }

/-- The position `t`, in a text that ends with `B`, lies before `B`. -/
def inside (B : List Nat) (t : MState) : Bool := decide (B.length ≤ t.rest.length)

/-- The bytes `w` are one line: bytes other than LF followed by one LF. -/
def oneLine (w : List Nat) : Bool := w.getLast? == some 10 && w.dropLast.all (fun x => x != 10)

/-- The bytes `w` are empty or end with LF. -/
def endsLF (w : List Nat) : Bool := w.isEmpty || w.getLast? == some 10

/-- Every match of `re` in the text starts where `^` holds and takes exactly one line, its
replacement is empty or ends with LF, and there is no match at the end of the text.  The scan
starts at a position where `^` holds iff `bol`. -/
def lineMatches (re : Regex) (tmpl : List TItem) : Bool → List Nat → Bool
  | bol, [] => (matchAt re bol []).isNone
  | bol, c :: r =>
    (match matchAt re bol (c :: r) with
      | none => true
      | some m =>
        bol && oneLine ((c :: r).take ((c :: r).length - m.rest.length)) &&
          endsLF (expand tmpl m.caps)) &&
      lineMatches re tmpl (c == 10) r

/-- The rule matches line by line in `b` and does not match the empty text. -/
def ruleLocal (re : Regex) (tmpl : List TItem) (b : List Nat) : Bool :=
  (matchAt re true []).isNone && lineMatches re tmpl true b

/-- Each omit rule matches line by line in the text it is applied to when `b` is rewritten. -/
def rulesLocal : List Regex → List Nat → Bool
  | [], _ => true
  | re :: rs, b => ruleLocal re [] b && rulesLocal rs (applyRule b re)

/-- Each rule of the connection matches line by line in the text it is applied to when `b` is
rewritten as one chunk: no match of a rule extends over more than one line. -/
def Local (ic : ImapConnection) (b : List Nat) : Bool :=
  ruleLocal ic.capRe capTemplate b &&
    rulesLocal ic.res (if Find ic.capRe b then ReplaceAll ic.capRe b capTemplate else b)

/-! ## The loop keeps the array in bounds and acts on the buffered bytes -/

theorem LastIndex_rn_lt (s : List Nat) (i : Nat) (h : LastIndex s rn = some i) :
    i + 2 ≤ s.length := by
  induction s generalizing i with
  | nil => simp [LastIndex, rn] at h
  | cons c r ih =>
    rw [LastIndex] at h
    cases hr : LastIndex r rn with
    | some j =>
      rw [hr] at h
      simp at h
      have := ih j hr
      simp
      omega
    | none =>
      rw [hr] at h
      simp at h
      obtain ⟨h1, h2⟩ := h
      subst h2
      match r, h1 with
      | [], h1 => simp [rn] at h1
      | x :: r', _ => simp

theorem store_length (b : List Nat) (lo : Nat) (src : List Nat) (h : lo + src.length ≤ b.length) :
    (store b lo src).length = b.length := by
  simp [store]
  omega

theorem take_store (b : List Nat) (lo : Nat) (src : List Nat) (h : lo + src.length ≤ b.length) :
    (store b lo src).take (lo + src.length) = b.take lo ++ src := by
  unfold store
  rw [List.take_append_of_le_length (by simp; omega)]
  rw [List.take_of_length_le (by simp)]

theorem slice_some (b : List Nat) (lo hi : Nat) (h1 : lo ≤ hi) (h2 : hi ≤ bufSize) :
    slice b lo hi = some ((b.take hi).drop lo) := by
  simp [slice, h1, h2]

theorem view_onErr (ic : ImapConnection) (st : CopyState) (er : ReadErr)
    (hlen : st.buf.length = bufSize) (hw : st.wpos ≤ bufSize) :
    ∃ st', onErr ic st er = some st' ∧ view st' = flushErr ic (view st) er ∧
      st'.buf.length = bufSize ∧ st'.wpos ≤ bufSize := by
  cases er with
  | nil => exact ⟨st, rfl, rfl, hlen, hw⟩
  | eof =>
    simp [onErr, slice_some _ 0 st.wpos (Nat.zero_le _) hw, flushErr, view, hlen]
  | other =>
    simp [onErr, slice_some _ 0 st.wpos (Nat.zero_le _) hw, flushErr, view, hlen]

theorem view_fall (ic : ImapConnection) (X V dflt : CopyState) (er : ReadErr)
    (hXl : X.buf.length = bufSize) (hXw : X.wpos ≤ bufSize) (hV : view X = V) :
    view ((onErr ic X er).getD dflt) = flushErr ic V er ∧
    ((onErr ic X er).getD dflt).buf.length = bufSize ∧
    ((onErr ic X er).getD dflt).wpos ≤ bufSize := by
  obtain ⟨st', h1, h2, h3, h4⟩ := view_onErr ic X er hXl hXw
  simp only [h1, Option.getD_some, h2, h3, h4, and_self, and_true, hV]

theorem view_body (ic : ImapConnection) (st : CopyState) (r : ReadResult)
    (hlen : st.buf.length = bufSize) (hw : st.wpos ≤ bufSize) :
    view ((body ic st r).getD { st with status := .panicked }) = listBody ic (view st) r ∧
    ((body ic st r).getD { st with status := .panicked }).buf.length = bufSize ∧
    ((body ic st r).getD { st with status := .panicked }).wpos ≤ bufSize := by
  unfold body listBody
  rw [slice_some _ _ _ hw (le_refl _)]
  by_cases hd : r.data = []
  · obtain ⟨st', h1, h2, h3, h4⟩ := view_onErr ic st r.er hlen hw
    simp [hd, h1, h2, h3, h4]
  · have hpos : r.data.length > 0 := List.length_pos.mpr hd
    simp only [hd, hpos, if_true, if_false, Option.pure_def, Option.bind_eq_bind, Option.some_bind]
    by_cases hfit : bufSize < st.wpos + r.data.length
    · have : slice st.buf st.wpos (st.wpos + r.data.length) = none := by
        simp [slice]; omega
      simp [onData, this, view, hfit, hlen, hw]
    · have hfit2 : st.wpos + r.data.length ≤ bufSize := by omega
      have hl1 : (store st.buf st.wpos r.data).length = bufSize := by
        rw [store_length _ _ _ (by omega)]; exact hlen
      have hheld : (store st.buf st.wpos r.data).take (st.wpos + r.data.length)
          = st.buf.take st.wpos ++ r.data := take_store _ _ _ (by omega)
      have hrn : rn.length = 2 := rfl
      have hw' : st.wpos ≤ st.buf.length := by omega
      rw [show view st = { st with buf := st.buf.take st.wpos } from rfl]
      simp only [onData, slice_some _ _ _ (Nat.le_add_right _ _) hfit2,
        slice_some _ 0 _ (Nat.zero_le _) hfit2, Option.pure_def, Option.bind_eq_bind,
        Option.some_bind, List.drop_zero, hheld, hfit, if_false, hrn]
      cases hidx : LastIndex (st.buf.take st.wpos ++ r.data) rn with
      | none =>
        simp only []
        by_cases hroom : st.wpos + r.data.length < bufSize - 2
        · simp [hroom, hheld, hl1, hfit2, view]
        · simp only [hroom, if_false]
          generalize DoWrite ic st.sock (List.take st.wpos st.buf ++ r.data) = w
          obtain ⟨sock, err⟩ := w
          simp only []
          by_cases herr : err = none
          · simp only [herr, ne_eq, not_true_eq_false, if_false, Option.some_bind]
            refine view_fall ic _ _ _ _ hl1 (Nat.zero_le _) ?_
            simp [view]
          · simp [herr, view, hheld, hl1, hfit2]
      | some idx =>
        have hi : idx + 2 ≤ st.wpos + r.data.length := by
          have := LastIndex_rn_lt _ _ hidx
          simp only [List.length_append, List.length_take, Nat.min_eq_left hw'] at this
          exact this
        have hchunk : (store st.buf st.wpos r.data).take (idx + 2)
            = (st.buf.take st.wpos ++ r.data).take (idx + 2) := by
          rw [← hheld, List.take_take, Nat.min_eq_left hi]
        simp only [slice_some _ 0 _ (Nat.zero_le _) (le_trans hi hfit2), Option.some_bind,
          List.drop_zero, hchunk]
        generalize DoWriteReplace ic st.sock
          (List.take (idx + 2) (List.take st.wpos st.buf ++ r.data)) = w
        obtain ⟨sock, err⟩ := w
        simp only []
        by_cases herr : err = none
        · simp only [herr, ne_eq, not_true_eq_false, if_false]
          by_cases hlt : idx + 2 < st.wpos + r.data.length
          · have hn : st.wpos + r.data.length - (idx + 2) ≤ bufSize := by omega
            simp only [hlt, if_true, slice_some _ 0 _ (Nat.zero_le _) hn,
              slice_some _ _ _ (le_of_lt hlt) hfit2, Option.some_bind, List.drop_zero, hheld]
            have hsl : (List.drop (idx + 2) (List.take st.wpos st.buf ++ r.data)).length
                = st.wpos + r.data.length - (idx + 2) := by
              simp [Nat.min_eq_left hw']
            have htl : (List.take (st.wpos + r.data.length - (idx + 2))
                (store st.buf st.wpos r.data)).length = st.wpos + r.data.length - (idx + 2) := by
              simp [hl1, hn]
            rw [htl, List.take_of_length_le (le_of_eq hsl)]
            refine view_fall ic _ _ _ _ ?_ hn ?_
            · simp only []
              rw [store_length _ _ _ (by rw [hl1, hsl]; omega)]
              exact hl1
            · simp only [view]
              have := take_store (store st.buf st.wpos r.data) 0
                (List.drop (idx + 2) (List.take st.wpos st.buf ++ r.data))
                (by rw [hl1, hsl]; omega)
              rw [hsl, Nat.zero_add] at this
              rw [this]
              simp
          · have heq : idx + 2 = st.wpos + r.data.length := by omega
            simp only [hlt, if_false, Option.some_bind]
            refine view_fall ic _ _ _ _ hl1 (Nat.zero_le _) ?_
            simp [view, heq, Nat.min_eq_left hw']
        · simp [herr, view, hheld, hl1, hfit2]


theorem view_iteration (ic : ImapConnection) (st : CopyState) (r : ReadResult)
    (hlen : st.buf.length = bufSize) (hw : st.wpos ≤ bufSize) :
    view (iteration ic st r) = listStep ic (view st) r ∧
    (iteration ic st r).buf.length = bufSize ∧ (iteration ic st r).wpos ≤ bufSize := by
  unfold iteration listStep
  have hs : (view st).status = st.status := rfl
  rw [hs]
  cases hst : st.status with
  | running => exact view_body ic st r hlen hw
  | returned e => exact ⟨rfl, hlen, hw⟩
  | panicked => exact ⟨rfl, hlen, hw⟩

theorem view_copyLoop (ic : ImapConnection) (reads : List ReadResult) (st : CopyState)
    (hlen : st.buf.length = bufSize) (hw : st.wpos ≤ bufSize) :
    view (copyLoop ic st reads) = listLoop ic (view st) reads ∧
    (copyLoop ic st reads).buf.length = bufSize ∧ (copyLoop ic st reads).wpos ≤ bufSize := by
  induction reads generalizing st with
  | nil => exact ⟨rfl, hlen, hw⟩
  | cons r rs ih =>
    obtain ⟨h1, h2, h3⟩ := view_iteration ic st r hlen hw
    have := ih (iteration ic st r) h2 h3
    simp only [copyLoop, listLoop, List.foldl_cons] at this ⊢
    rw [← h1]
    exact this

theorem readsFit_view (ic : ImapConnection) (reads : List ReadResult) (st : CopyState)
    (hlen : st.buf.length = bufSize) (hw : st.wpos ≤ bufSize) :
    readsFit ic st reads = listFits ic (view st) reads := by
  induction reads generalizing st with
  | nil => rfl
  | cons r rs ih =>
    obtain ⟨h1, h2, h3⟩ := view_iteration ic st r hlen hw
    simp only [readsFit, listFits]
    rw [ih _ h2 h3, h1]
    rfl

theorem initState_length : initState.buf.length = bufSize := by
  simp [initState]

theorem view_CopyProxy (ic : ImapConnection) (reads : List ReadResult) :
    view (CopyProxy ic reads) = listLoop ic listInit reads :=
  (view_copyLoop ic reads initState initState_length (Nat.zero_le _)).1

theorem listLoop_append (ic : ImapConnection) (v : CopyState) (xs ys : List ReadResult) :
    listLoop ic v (xs ++ ys) = listLoop ic (listLoop ic v xs) ys := by
  simp [listLoop, List.foldl_append]

theorem copyLoop_append (ic : ImapConnection) (st : CopyState) (xs ys : List ReadResult) :
    copyLoop ic st (xs ++ ys) = copyLoop ic (copyLoop ic st xs) ys := by
  simp [copyLoop, List.foldl_append]


theorem LastIndex_cons_none (c : Nat) (r : List Nat) (h : LastIndex (c :: r) rn = none) :
    LastIndex r rn = none ∧ rn.isPrefixOf (c :: r) = false := by
  rw [LastIndex] at h
  cases hr : LastIndex r rn with
  | some j => rw [hr] at h; simp at h
  | none =>
    rw [hr] at h
    refine ⟨rfl, ?_⟩
    cases hp : rn.isPrefixOf (c :: r) with
    | false => rfl
    | true => simp [hp] at h

theorem LastIndex_none_drop (s : List Nat) (k : Nat) (h : LastIndex s rn = none) :
    LastIndex (s.drop k) rn = none := by
  induction k generalizing s with
  | zero => simpa using h
  | succ k ih =>
    cases s with
    | nil => simpa using h
    | cons c r => exact ih r (LastIndex_cons_none c r h).1

theorem LastIndex_drop (s : List Nat) (i : Nat) (h : LastIndex s rn = some i) :
    LastIndex (s.drop (i + 2)) rn = none := by
  induction s generalizing i with
  | nil => simp [LastIndex, rn] at h
  | cons c r ih =>
    rw [LastIndex] at h
    cases hr : LastIndex r rn with
    | some j =>
      rw [hr] at h
      simp at h
      subst h
      exact ih j hr
    | none =>
      rw [hr] at h
      simp at h
      obtain ⟨_, h2⟩ := h
      subst h2
      exact LastIndex_none_drop r 1 hr

theorem LastIndex_nil : LastIndex [] rn = none := by
  simp [LastIndex, rn]

theorem wellFormed_flushErr (ic : ImapConnection) (v : CopyState) (er : ReadErr)
    (h1 : v.wpos = v.buf.length) (h2 : v.buf.length ≤ bufSize - 2)
    (h3 : LastIndex v.buf rn = none) : WellFormed (flushErr ic v er) := by
  cases er with
  | nil => exact ⟨h1, le_trans h2 (Nat.sub_le _ _), fun _ => ⟨h2, h3⟩⟩
  | eof => simp [flushErr, WellFormed]
  | other => simp [flushErr, WellFormed]

theorem wellFormed_listStep (ic : ImapConnection) (v : CopyState) (r : ReadResult)
    (h : WellFormed v) : WellFormed (listStep ic v r) := by
  unfold listStep
  cases hst : v.status with
  | returned e => exact h
  | panicked => exact h
  | running =>
    obtain ⟨h1, h2, h3⟩ := h
    obtain ⟨h3, h4⟩ := h3 hst
    simp only [listBody]
    by_cases hd : r.data = []
    · rw [if_pos hd]
      exact wellFormed_flushErr ic v r.er h1 h3 h4
    rw [if_neg hd]
    by_cases hfit : bufSize < v.wpos + r.data.length
    · rw [if_pos hfit]
      exact ⟨h1, h2, by simp⟩
    rw [if_neg hfit]
    have hl : (v.buf ++ r.data).length ≤ bufSize := by simp; omega
    have hwl : v.wpos + r.data.length = (v.buf ++ r.data).length := by simp; omega
    cases hidx : LastIndex (v.buf ++ r.data) rn with
    | none =>
      simp only []
      by_cases hroom : v.wpos + r.data.length < bufSize - 2
      · rw [if_pos hroom]
        refine ⟨hwl, hl, fun _ => ⟨?_, hidx⟩⟩
        show (v.buf ++ r.data).length ≤ bufSize - 2
        omega
      · rw [if_neg hroom]
        generalize DoWrite ic v.sock (v.buf ++ r.data) = w
        obtain ⟨sock, err⟩ := w
        simp only []
        by_cases herr : err = none
        · rw [if_neg (by simp [herr])]
          exact wellFormed_flushErr ic _ r.er rfl (Nat.zero_le _) LastIndex_nil
        · rw [if_pos herr]
          exact ⟨hwl, hl, by simp⟩
    | some idx =>
      simp only []
      generalize DoWriteReplace ic v.sock (List.take (idx + 2) (v.buf ++ r.data)) = w
      obtain ⟨sock, err⟩ := w
      simp only []
      by_cases herr : err = none
      · rw [if_neg (by simp [herr])]
        refine wellFormed_flushErr ic _ r.er ?_ ?_ (LastIndex_drop _ _ hidx)
        · simp; omega
        · simp; omega
      · rw [if_pos herr]
        exact ⟨hwl, hl, by simp⟩

theorem wellFormed_listLoop (ic : ImapConnection) (reads : List ReadResult) (v : CopyState)
    (h : WellFormed v) : WellFormed (listLoop ic v reads) := by
  induction reads generalizing v with
  | nil => exact h
  | cons r rs ih => exact ih _ (wellFormed_listStep ic v r h)

theorem wellFormed_listInit : WellFormed listInit := by
  refine ⟨rfl, ?_, fun _ => ⟨?_, LastIndex_nil⟩⟩
  · show ((List.replicate bufSize 0).take 0).length ≤ bufSize
    simp
  · show ((List.replicate bufSize 0).take 0).length ≤ bufSize - 2
    simp


theorem handed_append (a b : List Chunk) : handed (a ++ b) = handed a ++ handed b := by
  simp [handed]

theorem handed_single (e : Chunk) : handed [e] = e.bytes := by
  simp [handed]

theorem LastIndex_suffix (s : List Nat) (i : Nat) (h : LastIndex s rn = some i) :
    rn <:+ s.take (i + 2) := by
  induction s generalizing i with
  | nil => simp [LastIndex, rn] at h
  | cons c r ih =>
    rw [LastIndex] at h
    cases hr : LastIndex r rn with
    | some j =>
      rw [hr] at h
      simp at h
      subst h
      have := ih j hr
      rw [show j + 1 + 2 = (j + 2) + 1 from rfl, List.take_succ_cons]
      exact this.trans (List.suffix_cons _ _)
    | none =>
      rw [hr] at h
      simp at h
      obtain ⟨h1, h2⟩ := h
      subst h2
      obtain ⟨t, ht⟩ := h1
      rw [← ht]
      simp [rn]

theorem snoc_eq_split {α : Type} (log pre post : List α) (e e' : α)
    (h : log ++ [e'] = pre ++ e :: post) :
    (post = [] ∧ pre = log ∧ e = e') ∨ ∃ post', post = post' ++ [e'] ∧ log = pre ++ e :: post' := by
  rcases List.eq_nil_or_concat post with hp | ⟨post', x, hp⟩
  · subst hp
    left
    have h2 : log ++ [e'] = pre ++ [e] := h
    have := List.append_inj' h2 rfl
    simp at this
    exact ⟨rfl, this.1.symm, this.2.symm⟩
  · rw [List.concat_eq_append] at hp
    subst hp
    right
    have h2 : log ++ [e'] = (pre ++ e :: post') ++ [x] := by simpa using h
    have := List.append_inj' h2 rfl
    simp at this
    obtain ⟨h3, h4⟩ := this
    subst h4
    exact ⟨post', rfl, h3⟩

theorem EntryOK_mono (S d : List Nat) (pre : List Chunk) (e : Chunk) (h : EntryOK S pre e) :
    EntryOK (S ++ d) pre e :=
  ⟨h.1.trans (List.prefix_append _ _), h.2⟩

theorem LogOK_mono (S d : List Nat) (log : List Chunk) (h : LogOK S log) : LogOK (S ++ d) log :=
  fun pre e post hl => EntryOK_mono S d pre e (h pre e post hl)

theorem LogOK_snoc (S : List Nat) (log : List Chunk) (e : Chunk) (h : LogOK S log)
    (he : EntryOK S log e) : LogOK S (log ++ [e]) := by
  intro pre x post hl
  rcases snoc_eq_split log pre post x e hl with ⟨_, h2, h3⟩ | ⟨post', _, h2⟩
  · subst h2 h3
    exact he
  · exact h pre x post' h2

theorem LogOK_nil (S : List Nat) : LogOK S [] := by
  intro pre e post h
  simp at h


theorem traced_flushErr (ic : ImapConnection) (v : CopyState) (er : ReadErr) (S : List Nat)
    (hlog : LogOK S v.log) (hS : handed v.log ++ v.buf = S) (hB : AtBoundary v.log)
    (hnf : ∀ e ∈ v.log, e.kind ≠ .flush)
    (hno : LastIndex v.buf rn = none) : Traced S (flushErr ic v er) := by
  have hflush : LogOK S (v.log ++ [Chunk.mk .flush v.buf v.buf]) := by
    refine LogOK_snoc S _ _ hlog ⟨?_, hB, List.prefix_refl _, rfl, hno⟩
    rw [← hS]
  cases er with
  | nil => exact ⟨hlog, fun _ => ⟨hS, hB, hnf⟩⟩
  | eof =>
    simp only [flushErr]
    generalize DoWrite ic v.sock v.buf = w
    exact ⟨hflush, by simp⟩
  | other =>
    simp only [flushErr]
    generalize DoWrite ic v.sock v.buf = w
    exact ⟨hflush, by simp⟩

theorem traced_listStep (ic : ImapConnection) (v : CopyState) (r : ReadResult) (S : List Nat)
    (hT : Traced S v) (hW : WellFormed v) : Traced (S ++ r.data) (listStep ic v r) := by
  unfold listStep
  have hmono : Traced (S ++ r.data) { v with status := .panicked } :=
    ⟨LogOK_mono S _ _ hT.1, by simp⟩
  cases hst : v.status with
  | returned e => exact ⟨LogOK_mono S _ _ hT.1, by simp [hst]⟩
  | panicked => exact ⟨LogOK_mono S _ _ hT.1, by simp [hst]⟩
  | running =>
    obtain ⟨hlog, hrun⟩ := hT
    obtain ⟨hS, hB, hnf⟩ := hrun hst
    have hnf' : ∀ (k : Kind) (h b : List Nat), k ≠ .flush →
        ∀ e ∈ v.log ++ [Chunk.mk k h b], e.kind ≠ .flush := by
      intro k h b hk e he
      rcases List.mem_append.mp he with h1 | h1
      · exact hnf e h1
      · rw [List.mem_singleton.mp h1]; exact hk
    obtain ⟨h1, h2, h3⟩ := hW
    obtain ⟨h3, h4⟩ := h3 hst
    simp only [listBody]
    by_cases hd : r.data = []
    · rw [if_pos hd, hd, List.append_nil]
      exact traced_flushErr ic v r.er S hlog hS hB hnf h4
    rw [if_neg hd]
    by_cases hfit : bufSize < v.wpos + r.data.length
    · rw [if_pos hfit]
      exact hmono
    rw [if_neg hfit]
    have hS' : handed v.log ++ (v.buf ++ r.data) = S ++ r.data := by
      rw [← List.append_assoc, hS]
    have hlog' := LogOK_mono S r.data _ hlog
    cases hidx : LastIndex (v.buf ++ r.data) rn with
    | none =>
      simp only []
      by_cases hroom : v.wpos + r.data.length < bufSize - 2
      · rw [if_pos hroom]
        exact ⟨hlog', fun _ => ⟨hS', hB, hnf⟩⟩
      · rw [if_neg hroom]
        have hov : LogOK (S ++ r.data) (v.log ++ [Chunk.mk .overflow (v.buf ++ r.data) (v.buf ++ r.data)]) := by
          refine LogOK_snoc _ _ _ hlog' ⟨?_, hB, List.prefix_refl _, rfl, hidx, ?_⟩
          · rw [hS']
          · simp only [List.length_append]
            omega
        generalize DoWrite ic v.sock (v.buf ++ r.data) = w
        obtain ⟨sock, err⟩ := w
        simp only []
        by_cases herr : err = none
        · rw [if_neg (by simp [herr])]
          refine traced_flushErr ic _ r.er _ hov ?_ ?_ (hnf' _ _ _ (by simp)) LastIndex_nil
          · simp [handed_append, handed_single, hS']
          · exact Or.inr (Or.inr ⟨_, _, rfl, rfl⟩)
        · rw [if_pos herr]
          exact ⟨hov, by simp⟩
    | some idx =>
      simp only []
      have hi := LastIndex_rn_lt _ _ hidx
      have hsuf := LastIndex_suffix _ _ hidx
      have hch : LogOK (S ++ r.data) (v.log ++ [Chunk.mk .filtered (v.buf ++ r.data) (List.take (idx + 2) (v.buf ++ r.data))]) := by
        refine LogOK_snoc _ _ _ hlog' ⟨?_, hB, List.take_prefix _ _, ?_, hsuf, ?_⟩
        · rw [hS']
        · intro h0
          have := congrArg List.length h0
          rw [List.length_take, Nat.min_eq_left hi] at this
          simp at this
        · simp only [List.length_take, Nat.min_eq_left hi]
          exact LastIndex_drop _ _ hidx
      generalize DoWriteReplace ic v.sock (List.take (idx + 2) (v.buf ++ r.data)) = w
      obtain ⟨sock, err⟩ := w
      simp only []
      by_cases herr : err = none
      · rw [if_neg (by simp [herr])]
        refine traced_flushErr ic _ r.er _ hch ?_ ?_ (hnf' _ _ _ (by simp))
          (LastIndex_drop _ _ hidx)
        · simp only [handed_append, handed_single, List.append_assoc, List.take_append_drop]
          exact hS'
        · right; left
          rw [handed_append, handed_single]
          exact hsuf.trans (List.suffix_append _ _)
      · rw [if_pos herr]
        exact ⟨hch, by simp⟩

theorem traced_listLoop (ic : ImapConnection) (reads : List ReadResult) (v : CopyState)
    (S : List Nat) (hT : Traced S v) (hW : WellFormed v) :
    Traced (S ++ stream reads) (listLoop ic v reads) := by
  induction reads generalizing v S with
  | nil => simpa [stream, listLoop] using hT
  | cons r rs ih =>
    have := ih _ _ (traced_listStep ic v r S hT hW) (wellFormed_listStep ic v r hW)
    simpa [stream, listLoop, List.append_assoc] using this

theorem traced_listInit : Traced [] listInit := by
  refine ⟨LogOK_nil _, fun _ => ⟨?_, Or.inl rfl, fun e he => ?_⟩⟩
  rotate_left
  · exact absurd he (List.not_mem_nil e)
  show handed [] ++ List.take 0 (List.replicate bufSize 0) = []
  simp [handed]


theorem DoWrite_full (ic : ImapConnection) (hw : ic.localConn = fullWrite) (k : Sock)
    (b : List Nat) :
    DoWrite ic k b = ({ written := k.written + b.length, out := k.out ++ [b] }, none) := by
  simp only [DoWrite, hw, fullWrite, List.take_length, ne_eq, not_true_eq_false, if_false,
    Bool.false_eq_true]
  by_cases h : b.length > 0
  · simp [h]
  · have : b.length = 0 := by omega
    simp [this]

theorem flushErr_nil (ic : ImapConnection) (v : CopyState) : flushErr ic v .nil = v := rfl

theorem flushErr_eof (ic : ImapConnection) (hw : ic.localConn = fullWrite) (v : CopyState) :
    flushErr ic v .eof =
      { v with log := v.log ++ [Chunk.mk .flush v.buf v.buf],
               sock := { written := v.sock.written + v.buf.length, out := v.sock.out ++ [v.buf] },
               buf := [], wpos := 0, status := .returned none } := by
  simp only [flushErr, DoWrite_full ic hw]

/-- What one iteration does for a read without error, on a socket that accepts every write. -/
theorem listStep_nil (ic : ImapConnection) (hw : ic.localConn = fullWrite) (v : CopyState)
    (data : List Nat) (hrun : v.status = .running) (hd : data ≠ [])
    (hfit : v.wpos + data.length ≤ bufSize) :
    listStep ic v ⟨data, .nil⟩ =
      match LastIndex (v.buf ++ data) rn with
      | none =>
        if v.wpos + data.length < bufSize - 2 then
          { v with buf := v.buf ++ data, wpos := v.wpos + data.length }
        else
          { v with buf := [], wpos := 0,
                   log := v.log ++ [Chunk.mk .overflow (v.buf ++ data) (v.buf ++ data)],
                   sock := { written := v.sock.written + (v.buf ++ data).length,
                             out := v.sock.out ++ [v.buf ++ data] } }
      | some idx =>
          { v with buf := (v.buf ++ data).drop (idx + 2), wpos := v.wpos + data.length - (idx + 2),
                   log := v.log ++ [Chunk.mk .filtered (v.buf ++ data)
                                      ((v.buf ++ data).take (idx + 2))],
                   sock := { written := v.sock.written +
                                          (filter ic ((v.buf ++ data).take (idx + 2))).length,
                             out := v.sock.out ++ [filter ic ((v.buf ++ data).take (idx + 2))] } } := by
  have hfit2 : ¬ bufSize < v.wpos + data.length := by omega
  simp only [listStep, hrun, listBody, hd, if_false, hfit2]
  cases hidx : LastIndex (v.buf ++ data) rn with
  | none =>
    simp only []
    by_cases hroom : v.wpos + data.length < bufSize - 2
    · rw [if_pos hroom, if_pos hroom]
    · rw [if_neg hroom, if_neg hroom]
      simp only [DoWrite_full ic hw, ne_eq, not_true_eq_false, if_false, flushErr_nil]
  | some idx =>
    simp only [DoWriteReplace, DoWrite_full ic hw, ne_eq, not_true_eq_false, if_false,
      flushErr_nil]

theorem listStep_empty (ic : ImapConnection) (v : CopyState) :
    listStep ic v ⟨[], .nil⟩ = v := by
  unfold listStep
  cases hst : v.status <;> simp [listBody, flushErr]

theorem listStep_eof (ic : ImapConnection) (hw : ic.localConn = fullWrite) (v : CopyState)
    (hrun : v.status = .running) :
    listStep ic v ⟨[], .eof⟩ =
      { v with log := v.log ++ [Chunk.mk .flush v.buf v.buf],
               sock := { written := v.sock.written + v.buf.length, out := v.sock.out ++ [v.buf] },
               buf := [], wpos := 0, status := .returned none } := by
  simp only [listStep, hrun, listBody, if_true, flushErr_eof ic hw]


theorem listFits_append (ic : ImapConnection) (xs ys : List ReadResult) (v : CopyState) :
    listFits ic v (xs ++ ys) = (listFits ic v xs && listFits ic (listLoop ic v xs) ys) := by
  induction xs generalizing v with
  | nil => simp [listFits, listLoop]
  | cons x xs ih =>
    rw [List.cons_append]
    simp only [listFits, listLoop, List.foldl_cons]
    rw [ih, Bool.and_assoc]
    rfl

theorem sockOK_snoc (ic : ImapConnection) (v : CopyState) (e : Chunk) (h : SockOK ic v) :
    SockOK ic { v with log := v.log ++ [e],
                       sock := { written := v.sock.written + (sentOf ic e).length,
                                 out := v.sock.out ++ [sentOf ic e] } } := by
  obtain ⟨h1, h2⟩ := h
  refine ⟨?_, ?_⟩
  · simp [h1]
  · simp [h2]

/-- Reads without error keep the loop running, on a socket that accepts every write. -/
theorem listLoop_frags (ic : ImapConnection) (hw : ic.localConn = fullWrite)
    (frags : List (List Nat)) (v : CopyState) (hW : WellFormed v) (hrun : v.status = .running)
    (hS : SockOK ic v)
    (hfit : listFits ic v (frags.map (fun d => ⟨d, .nil⟩)) = true) :
    (listLoop ic v (frags.map (fun d => ⟨d, .nil⟩))).status = .running ∧
    SockOK ic (listLoop ic v (frags.map (fun d => ⟨d, .nil⟩))) := by
  induction frags generalizing v with
  | nil => exact ⟨hrun, hS⟩
  | cons d ds ih =>
    simp only [List.map_cons, listFits, Bool.and_eq_true, Bool.or_eq_true, bne_iff_ne,
      decide_eq_true_eq] at hfit
    obtain ⟨hf1, hf2⟩ := hfit
    have hf1 : d.length ≤ bufSize - v.wpos := by
      rcases hf1 with h | h
      · exact absurd hrun h
      · exact h
    have hwb : v.wpos ≤ bufSize := by rw [hW.1]; exact hW.2.1
    simp only [List.map_cons, listLoop, List.foldl_cons]
    refine ih _ (wellFormed_listStep ic v _ hW) ?_ ?_ hf2
    · by_cases hd : d = []
      · rw [hd, listStep_empty]; exact hrun
      · rw [listStep_nil ic hw v d hrun hd (by omega)]
        cases LastIndex (v.buf ++ d) rn with
        | none =>
          simp only []
          split_ifs <;> exact hrun
        | some idx => exact hrun
    · by_cases hd : d = []
      · rw [hd, listStep_empty]; exact hS
      · rw [listStep_nil ic hw v d hrun hd (by omega)]
        cases LastIndex (v.buf ++ d) rn with
        | none =>
          simp only []
          split_ifs
          · exact hS
          · exact sockOK_snoc ic { v with buf := [], wpos := 0 }
              (Chunk.mk .overflow (v.buf ++ d) (v.buf ++ d)) hS
        | some idx =>
          exact sockOK_snoc ic { v with buf := (v.buf ++ d).drop (idx + 2),
                                          wpos := v.wpos + d.length - (idx + 2) }
              (Chunk.mk .filtered (v.buf ++ d) ((v.buf ++ d).take (idx + 2))) hS

theorem sockOK_listInit (ic : ImapConnection) : SockOK ic listInit := by
  exact ⟨rfl, rfl⟩

theorem stream_frags (frags : List (List Nat)) :
    stream (frags.map (fun d => (⟨d, .nil⟩ : ReadResult))) = frags.flatten := by
  simp [stream, Function.comp_def]

theorem stream_script (frags : List (List Nat)) : stream (script frags) = frags.flatten := by
  simp [stream, script, Function.comp_def]

/-- The run against fragments followed by end-of-stream, on a socket that accepts every
write: it returns without error, every byte read has been handed over, and the socket
received what the log says. -/
theorem listLoop_script (ic : ImapConnection) (hw : ic.localConn = fullWrite)
    (frags : List (List Nat)) (hfit : listFits ic listInit (script frags) = true) :
    (listLoop ic listInit (script frags)).status = .returned none ∧
    SockOK ic (listLoop ic listInit (script frags)) ∧
    LogOK frags.flatten (listLoop ic listInit (script frags)).log ∧
    handed (listLoop ic listInit (script frags)).log = frags.flatten ∧
    ∃ l t, (listLoop ic listInit (script frags)).log = l ++ [Chunk.mk .flush t t] ∧
      (∀ e ∈ l, e.kind ≠ .flush) ∧ LastIndex t rn = none := by
  unfold script at hfit ⊢
  rw [listFits_append, Bool.and_eq_true] at hfit
  obtain ⟨hrun, hS⟩ := listLoop_frags ic hw frags listInit wellFormed_listInit rfl
    (sockOK_listInit ic) hfit.1
  have hT := traced_listLoop ic (frags.map (fun d => ⟨d, .nil⟩)) listInit [] traced_listInit
    wellFormed_listInit
  rw [List.nil_append, stream_frags] at hT
  obtain ⟨hlog, hrest⟩ := hT
  obtain ⟨hSeq, hB, hnf⟩ := hrest hrun
  have hW := wellFormed_listLoop ic (frags.map (fun d => ⟨d, .nil⟩)) listInit wellFormed_listInit
  rw [listLoop_append]
  generalize listLoop ic listInit (frags.map (fun d => ⟨d, .nil⟩)) = v
    at hrun hS hlog hSeq hB hW hnf
  simp only [listLoop, List.foldl_cons, List.foldl_nil, listStep_eof ic hw v hrun]
  refine ⟨trivial, ?_, ?_, ?_, v.log, v.buf, rfl, hnf, (hW.2.2 hrun).2⟩
  · have := sockOK_snoc ic { v with buf := [], wpos := 0, status := .returned none }
      (Chunk.mk .flush v.buf v.buf) hS
    exact this
  · refine LogOK_snoc _ _ _ hlog ⟨?_, hB, List.prefix_refl _, rfl, (hW.2.2 hrun).2⟩
    rw [hSeq]
  · simp only [handed_append, handed_single]
    exact hSeq


theorem LastIndex_none_absent (s : List Nat) (h : LastIndex s rn = none) : ¬ rn <:+: s := by
  induction s with
  | nil => simp [rn]
  | cons c r ih =>
    obtain ⟨h1, h2⟩ := LastIndex_cons_none c r h
    rw [List.infix_cons_iff]
    rintro (hp | hi)
    · have : rn.isPrefixOf (c :: r) = true := by
        rw [List.isPrefixOf_iff_prefix]; exact hp
      rw [h2] at this
      exact Bool.false_ne_true this
    · exact ih h1 hi

theorem filter_of_noMatch (ic : ImapConnection) (b : List Nat) (h : NoRuleMatches ic b) :
    filter ic b = b := by
  obtain ⟨h1, h2⟩ := h
  simp only [filter, h1, Bool.false_eq_true, if_false]
  generalize ic.res = res at h2
  induction res with
  | nil => rfl
  | cons re rs ih =>
    have hre : applyRule b re = b := by
      simp [applyRule, h2 re (List.mem_cons_self _ _)]
    rw [List.foldl_cons, hre]
    exact ih (fun x hx => h2 x (List.mem_cons_of_mem _ hx))

theorem mem_split_log (log : List Chunk) (e : Chunk) (h : e ∈ log) :
    ∃ pre post, log = pre ++ e :: post := List.append_of_mem h

theorem sent_eq_handed (ic : ImapConnection) (log : List Chunk)
    (h : ∀ e ∈ log, e.kind = .filtered → filter ic e.bytes = e.bytes) :
    (log.map (sentOf ic)).flatten = handed log := by
  induction log with
  | nil => rfl
  | cons e es ih =>
    have he : sentOf ic e = e.bytes := by
      unfold sentOf
      cases hk : e.kind with
      | filtered => exact h e (List.mem_cons_self _ _) hk
      | overflow => rfl
      | flush => rfl
    simp only [List.map_cons, List.flatten_cons, he, handed] at ih ⊢
    rw [ih (fun x hx => h x (List.mem_cons_of_mem _ hx))]

theorem no_filtered_of_no_rn (S : List Nat) (log : List Chunk) (hlog : LogOK S log)
    (hno : LastIndex S rn = none) : ∀ e ∈ log, e.kind ≠ .filtered := by
  intro e he hk
  obtain ⟨pre, post, hsplit⟩ := mem_split_log log e he
  obtain ⟨h1, _, h3, h4⟩ := hlog pre e post hsplit
  rw [hk] at h4
  obtain ⟨_, h5, _⟩ := h4
  apply LastIndex_none_absent S hno
  have a1 : rn <:+: e.bytes := h5.isInfix
  have a2 : e.bytes <:+: e.held := h3.isInfix
  have a3 : e.held <:+: handed pre ++ e.held := (List.suffix_append _ _).isInfix
  exact ((a1.trans a2).trans a3).trans h1.isInfix

theorem view_fields (st : CopyState) :
    (view st).log = st.log ∧ (view st).sock = st.sock ∧ (view st).status = st.status ∧
    (view st).wpos = st.wpos :=
  ⟨rfl, rfl, rfl, rfl⟩

theorem CopyProxy_fields (ic : ImapConnection) (reads : List ReadResult) :
    (CopyProxy ic reads).log = (listLoop ic listInit reads).log ∧
    (CopyProxy ic reads).sock = (listLoop ic listInit reads).sock ∧
    (CopyProxy ic reads).status = (listLoop ic listInit reads).status ∧
    (CopyProxy ic reads).wpos = (listLoop ic listInit reads).wpos := by
  rw [← view_CopyProxy]
  exact ⟨rfl, rfl, rfl, rfl⟩

theorem readsFit_init (ic : ImapConnection) (reads : List ReadResult) :
    readsFit ic initState reads = listFits ic listInit reads :=
  readsFit_view ic reads initState initState_length (Nat.zero_le _)


theorem flushErr_status (ic : ImapConnection) (v : CopyState) (er : ReadErr)
    (h : v.status ≠ .panicked) : (flushErr ic v er).status ≠ .panicked := by
  cases er with
  | nil => exact h
  | eof => simp [flushErr]
  | other => simp [flushErr]

theorem flushErr_running (ic : ImapConnection) (v : CopyState) (er : ReadErr)
    (h : (flushErr ic v er).status = .running) : flushErr ic v er = v := by
  cases er with
  | nil => rfl
  | eof => simp [flushErr] at h
  | other => simp [flushErr] at h

theorem listStep_status (ic : ImapConnection) (v : CopyState) (r : ReadResult)
    (hrun : v.status = .running) (hfit : r.data.length ≤ bufSize - v.wpos)
    (hwb : v.wpos ≤ bufSize) : (listStep ic v r).status ≠ .panicked := by
  have hv : v.status ≠ .panicked := by rw [hrun]; simp
  simp only [listStep, hrun, listBody]
  by_cases hd : r.data = []
  · rw [if_pos hd]
    exact flushErr_status ic v r.er hv
  rw [if_neg hd, if_neg (by omega)]
  cases hidx : LastIndex (v.buf ++ r.data) rn with
  | none =>
    simp only []
    by_cases hroom : v.wpos + r.data.length < bufSize - 2
    · rw [if_pos hroom]
      simp
    · rw [if_neg hroom]
      generalize DoWrite ic v.sock (v.buf ++ r.data) = w
      obtain ⟨sock, err⟩ := w
      simp only []
      by_cases herr : err = none
      · rw [if_neg (by simp [herr])]
        exact flushErr_status ic _ r.er (by simp)
      · rw [if_pos herr]
        simp
  | some idx =>
    simp only []
    generalize DoWriteReplace ic v.sock (List.take (idx + 2) (v.buf ++ r.data)) = w
    obtain ⟨sock, err⟩ := w
    simp only []
    by_cases herr : err = none
    · rw [if_neg (by simp [herr])]
      exact flushErr_status ic _ r.er (by simp)
    · rw [if_pos herr]
      simp

theorem listStep_idle (ic : ImapConnection) (v : CopyState) (r : ReadResult)
    (h : v.status ≠ .running) : listStep ic v r = v := by
  unfold listStep
  cases hst : v.status with
  | running => exact absurd hst h
  | returned e => rfl
  | panicked => rfl

/-- Reads that fit never make the loop stop on a slice out of range. -/
theorem listLoop_status (ic : ImapConnection) (reads : List ReadResult) (v : CopyState)
    (hW : WellFormed v) (hv : v.status ≠ .panicked) (hfit : listFits ic v reads = true) :
    (listLoop ic v reads).status ≠ .panicked := by
  induction reads generalizing v with
  | nil => exact hv
  | cons r rs ih =>
    simp only [listFits, Bool.and_eq_true, Bool.or_eq_true, bne_iff_ne,
      decide_eq_true_eq] at hfit
    obtain ⟨hf1, hf2⟩ := hfit
    have hwb : v.wpos ≤ bufSize := by rw [hW.1]; exact hW.2.1
    refine ih _ (wellFormed_listStep ic v r hW) ?_ hf2
    by_cases hrun : v.status = .running
    · rcases hf1 with h | h
      · exact absurd hrun h
      · exact listStep_status ic v r hrun h hwb
    · rw [listStep_idle ic v r hrun]
      exact hv

/-- After a chunk has been handed over, the buffered bytes are the bytes behind the chunk. -/
theorem listStep_compact (ic : ImapConnection) (v : CopyState) (r : ReadResult) (idx : Nat)
    (hW : WellFormed v) (hrun : v.status = .running)
    (hidx : LastIndex (v.buf ++ r.data) rn = some idx)
    (hrun' : (listStep ic v r).status = .running) :
    (listStep ic v r).buf = (v.buf ++ r.data).drop (idx + 2) ∧
    (listStep ic v r).wpos = v.wpos + r.data.length - (idx + 2) ∧
    idx + 2 ≤ v.wpos + r.data.length ∧ v.wpos + r.data.length ≤ bufSize := by
  have hi := LastIndex_rn_lt _ _ hidx
  rw [List.length_append, ← hW.1] at hi
  simp only [listStep, hrun, listBody] at hrun' ⊢
  by_cases hd : r.data = []
  · rw [hd, List.append_nil, (hW.2.2 hrun).2] at hidx
    cases hidx
  rw [if_neg hd] at hrun' ⊢
  by_cases hfit : bufSize < v.wpos + r.data.length
  · rw [if_pos hfit] at hrun'
    simp at hrun'
  rw [if_neg hfit] at hrun' ⊢
  rw [hidx] at hrun' ⊢
  simp only [] at hrun' ⊢
  generalize DoWriteReplace ic v.sock (List.take (idx + 2) (v.buf ++ r.data)) = w at hrun' ⊢
  obtain ⟨sock, err⟩ := w
  simp only [] at hrun' ⊢
  by_cases herr : err = none
  · rw [if_neg (by simp [herr])] at hrun' ⊢
    rw [flushErr_running ic _ r.er hrun']
    exact ⟨rfl, rfl, hi, by omega⟩
  · rw [if_pos herr] at hrun'
    simp at hrun'

theorem listFits_take (ic : ImapConnection) (reads : List ReadResult) (v : CopyState) (k : Nat)
    (h : listFits ic v reads = true) : listFits ic v (reads.take k) = true := by
  have := listFits_append ic (reads.take k) (reads.drop k) v
  rw [List.take_append_drop, h] at this
  have := this.symm
  rw [Bool.and_eq_true] at this
  exact this.1


theorem bufSize_eq : bufSize = 65536 := by decide

theorem live_eq_view (st : CopyState) : live st = (view st).buf := rfl

theorem CopyProxy_bounds (ic : ImapConnection) (reads : List ReadResult) :
    (CopyProxy ic reads).buf.length = bufSize ∧ (CopyProxy ic reads).wpos ≤ bufSize :=
  (view_copyLoop ic reads initState initState_length (Nat.zero_le _)).2


theorem LastIndex_of_no_lf (l : List Nat) (h : ∀ x ∈ l, x ≠ 10) : LastIndex l rn = none := by
  induction l with
  | nil => exact LastIndex_nil
  | cons c r ih =>
    rw [LastIndex, ih (fun x hx => h x (List.mem_cons_of_mem _ hx))]
    cases r with
    | nil => simp [rn]
    | cons x r' =>
      have : x ≠ 10 := h x (by simp)
      simp [rn, List.isPrefixOf, this]
      intro _
      exact fun h2 => this h2.symm

theorem listInit_eq : listInit =
    { buf := [], wpos := 0, status := .running, sock := { written := 0, out := [] }, log := [] } := by
  show view initState = _
  simp [view, initState]

/-- The run in which one read of 65534 bytes without line feed fills the buffer: the chunk
of the next read is handed to the filter although it starts in the middle of a line. -/
theorem overflow_run (A : List Nat) (hAl : A.length = 65534) (hA10 : ∀ x ∈ A, x ≠ 10) :
    (listLoop (Listener [] fullWrite) listInit [⟨A, .nil⟩, ⟨ascii "b\r\n", .nil⟩]).log =
    [Chunk.mk .overflow A A, Chunk.mk .filtered (ascii "b\r\n") (ascii "b\r\n")] := by
  have hAn : A ≠ [] := by
    intro h; rw [h] at hAl; simp at hAl
  have hAno : LastIndex ([] ++ A) rn = none := LastIndex_of_no_lf _ hA10
  simp only [listLoop, List.foldl_cons, List.foldl_nil]
  rw [listInit_eq]
  rw [listStep_nil _ rfl _ A rfl hAn (by rw [hAl, bufSize_eq]; exact Nat.le_of_ble_eq_true rfl)]
  simp only [hAno]
  rw [if_neg (by rw [hAl, bufSize_eq]; decide)]
  rw [listStep_nil _ rfl _ (ascii "b\r\n") rfl (by decide)
    (by rw [bufSize_eq]; exact Nat.le_of_ble_eq_true rfl)]
  have h2 : LastIndex (([] : List Nat) ++ ascii "b\r\n") rn = some 1 := by decide
  simp only [h2]
  rfl

theorem replicate_no_lf (n : Nat) : ∀ x ∈ List.replicate n 97, x ≠ 10 := by
  intro x hx
  rw [List.eq_of_mem_replicate hx]
  decide

theorem not_suffix_of_no_lf (A : List Nat) (h : ∀ x ∈ A, x ≠ 10) : ¬ rn <:+ A := by
  rintro ⟨t, ht⟩
  have : (10 : Nat) ∈ A := by
    rw [← ht]
    simp [rn]
  exact h 10 this rfl


theorem LastIndex_eq_none_iff (s : List Nat) : LastIndex s rn = none ↔ ¬ rn <:+: s := by
  refine ⟨LastIndex_none_absent s, ?_⟩
  induction s with
  | nil => intro _; exact LastIndex_nil
  | cons c r ih =>
    intro h
    rw [List.infix_cons_iff, not_or] at h
    rw [LastIndex, ih h.2]
    have : rn.isPrefixOf (c :: r) = false := by
      cases hp : rn.isPrefixOf (c :: r) with
      | false => rfl
      | true => exact absurd (List.isPrefixOf_iff_prefix.mp hp) h.1
    simp [this]

theorem rn_suffix_concat (cur : List Nat) (c : Nat) :
    rn <:+ cur ++ [c] ↔ c = 10 ∧ cur.getLast? = some 13 := by
  rw [List.suffix_concat_iff]
  constructor
  · rintro (h | ⟨t, h1, h2⟩)
    · simp [rn] at h
    · have ht : t = [13] ∧ c = 10 := by
        have : [13, 10] = t ++ [c] := h1
        have h3 : ([13] : List Nat) ++ [10] = t ++ [c] := this
        have := List.append_inj' h3 rfl
        simp at this
        exact ⟨this.1.symm, this.2.symm⟩
      obtain ⟨rfl, rfl⟩ := ht
      refine ⟨rfl, ?_⟩
      obtain ⟨u, hu⟩ := h2
      rw [← hu]
      simp
  · rintro ⟨rfl, h⟩
    right
    obtain ⟨ys, hys⟩ := List.getLast?_eq_some_iff.mp h
    exact ⟨[13], rfl, ⟨ys, hys.symm⟩⟩

theorem no_rn_concat (cur : List Nat) (c : Nat) (h : ¬ rn <:+: cur)
    (hc : ¬ (c = 10 ∧ cur.getLast? = some 13)) : ¬ rn <:+: cur ++ [c] := by
  rw [List.infix_concat_iff, not_or]
  exact ⟨fun h2 => hc ((rn_suffix_concat cur c).mp h2), h⟩

theorem splitLines_flatten (S cur : List Nat) :
    (splitLines cur S).1.flatten ++ (splitLines cur S).2 = cur ++ S := by
  induction S generalizing cur with
  | nil => simp [splitLines]
  | cons c r ih =>
    rw [splitLines]
    split_ifs with h
    · simp only [List.flatten_cons, List.append_assoc]
      rw [ih []]
      simp
    · rw [ih (cur ++ [c])]
      simp

theorem splitLines_tail (S cur : List Nat) (h : ¬ rn <:+: cur) :
    ¬ rn <:+: (splitLines cur S).2 := by
  induction S generalizing cur with
  | nil => simpa [splitLines] using h
  | cons c r ih =>
    rw [splitLines]
    split_ifs with hc
    · exact ih [] (by simp [rn])
    · exact ih (cur ++ [c]) (no_rn_concat cur c h hc)

theorem splitLines_lines (S cur : List Nat) : ∀ l ∈ (splitLines cur S).1, rn <:+ l := by
  induction S generalizing cur with
  | nil => simp [splitLines]
  | cons c r ih =>
    rw [splitLines]
    split_ifs with hc
    · intro l hl
      rcases List.mem_cons.mp hl with h1 | h1
      · rw [h1]; exact (rn_suffix_concat cur c).mpr hc
      · exact ih [] l h1
    · exact ih (cur ++ [c])

theorem flatten_ends (ls : List (List Nat)) (h : ∀ l ∈ ls, rn <:+ l) :
    ls.flatten = [] ∨ rn <:+ ls.flatten := by
  induction ls with
  | nil => left; rfl
  | cons l ls ih =>
    rcases ih (fun x hx => h x (List.mem_cons_of_mem _ hx)) with h1 | h1
    · right
      rw [List.flatten_cons, h1, List.append_nil]
      exact h l (List.mem_cons_self _ _)
    · right
      rw [List.flatten_cons]
      exact h1.trans (List.suffix_append _ _)

/-- A stream splits in one way only into whole lines and a tail without terminator. -/
theorem split_unique (X T X' T' : List Nat) (h : X ++ T = X' ++ T')
    (hX : X = [] ∨ rn <:+ X) (hX' : X' = [] ∨ rn <:+ X')
    (hT : ¬ rn <:+: T) (hT' : ¬ rn <:+: T') : X = X' ∧ T = T' := by
  have key : ∀ (A B A' B' : List Nat), A ++ B = A' ++ B' → (A = [] ∨ rn <:+ A) →
      (A' = [] ∨ rn <:+ A') → ¬ rn <:+: B → A.length ≤ A'.length → A = A' ∧ B = B' := by
    intro A B A' B' hab hA hA' hB hlen
    obtain ⟨D, hD⟩ : ∃ D, A' = A ++ D := by
      have h1 : A <+: A' ++ B' := ⟨B, hab⟩
      obtain ⟨D, hD⟩ := List.prefix_of_prefix_length_le h1 (List.prefix_append _ _) hlen
      exact ⟨D, hD.symm⟩
    subst hD
    rw [List.append_assoc] at hab
    have hB' := List.append_cancel_left hab
    cases D with
    | nil => simp at hB' ⊢; exact hB'
    | cons d D' =>
      exfalso
      rcases hA' with h0 | h1
      · simp at h0
      · cases D' with
        | nil =>
          have := (rn_suffix_concat A d).mp h1
          obtain ⟨_, hl⟩ := this
          rcases hA with ha | ha
          · rw [ha] at hl; simp at hl
          · obtain ⟨u, hu⟩ := ha
            rw [← hu] at hl
            simp [rn] at hl
        | cons d2 D'' =>
          apply hB
          rw [hB']
          have h2 : rn <:+ d :: d2 :: D'' := by
            obtain ⟨u, hu⟩ := h1
            have hlen2 : rn.length ≤ (d :: d2 :: D'').length := by simp [rn]
            exact List.suffix_of_suffix_length_le ⟨u, hu⟩ (List.suffix_append _ _) hlen2
          exact (h2.isInfix).trans (List.prefix_append _ _).isInfix
  rcases Nat.le_total X.length X'.length with hl | hl
  · exact key X T X' T' h hX hX' hT hl
  · have := key X' T' X T h.symm hX' hX hT' hl
    exact ⟨this.1.symm, this.2.symm⟩


theorem cur_bound (M : Nat) (S cur : List Nat)
    (hb : (∀ l ∈ (splitLines cur S).1, l.length ≤ M + 1) ∧ (splitLines cur S).2.length ≤ M) :
    cur.length ≤ M := by
  induction S generalizing cur with
  | nil => simpa [splitLines] using hb.2
  | cons c r ih =>
    rw [splitLines] at hb
    split_ifs at hb with hc
    · have := hb.1 (cur ++ [c]) (List.mem_cons_self _ _)
      simp at this
      exact this
    · have := ih (cur ++ [c]) hb
      simp at this
      omega

/-- A run without terminator that starts where the current line starts is shorter than the
line. -/
theorem open_run_bound (M : Nat) (S cur p b : List Nat)
    (hb : (∀ l ∈ (splitLines cur S).1, l.length ≤ M + 1) ∧ (splitLines cur S).2.length ≤ M)
    (hS : S = p ++ b) (hno : ¬ rn <:+: cur ++ p) : (cur ++ p).length ≤ M := by
  induction p generalizing cur S with
  | nil =>
    rw [List.append_nil]
    exact cur_bound M S cur hb
  | cons c p' ih =>
    subst hS
    rw [List.cons_append, splitLines] at hb
    have hc : ¬ (c = 10 ∧ cur.getLast? = some 13) := by
      intro hc
      apply hno
      have h1 : rn <:+ cur ++ [c] := (rn_suffix_concat cur c).mpr hc
      have h2 : cur ++ [c] <+: cur ++ c :: p' := by
        refine ⟨p', ?_⟩
        simp
      exact h1.isInfix.trans h2.isInfix
    rw [if_neg hc] at hb
    have := ih (p' ++ b) (cur ++ [c]) hb rfl (by simpa using hno)
    simpa using this

/-- A run without terminator that starts right behind a terminator is shorter than a line. -/
theorem boundary_run_bound (M : Nat) (S cur a p b : List Nat)
    (hb : (∀ l ∈ (splitLines cur S).1, l.length ≤ M + 1) ∧ (splitLines cur S).2.length ≤ M)
    (hS : S = a ++ p ++ b) (ha : a ≠ []) (hsuf : rn <:+ cur ++ a) (hno : ¬ rn <:+: p) :
    p.length ≤ M := by
  induction a generalizing cur S with
  | nil => exact absurd rfl ha
  | cons c a' ih =>
    subst hS
    rw [List.cons_append, List.cons_append, splitLines] at hb
    by_cases ha' : a' = []
    · subst ha'
      have hc := (rn_suffix_concat cur c).mp hsuf
      rw [if_pos hc] at hb
      have hb' : (∀ l ∈ (splitLines [] (p ++ b)).1, l.length ≤ M + 1) ∧
          (splitLines [] (p ++ b)).2.length ≤ M :=
        ⟨fun l hl => hb.1 l (List.mem_cons_of_mem _ hl), hb.2⟩
      have := open_run_bound M (p ++ b) [] p b hb' rfl (by simpa using hno)
      simpa using this
    · by_cases hc : c = 10 ∧ cur.getLast? = some 13
      · rw [if_pos hc] at hb
        have hb' : (∀ l ∈ (splitLines [] (a' ++ p ++ b)).1, l.length ≤ M + 1) ∧
            (splitLines [] (a' ++ p ++ b)).2.length ≤ M := by
          refine ⟨fun l hl => hb.1 l (List.mem_cons_of_mem _ ?_), ?_⟩
          · simpa using hl
          · simpa using hb.2
        refine ih (a' ++ p ++ b) [] hb' rfl ha' ?_
        rw [List.nil_append]
        have h2 : 2 ≤ a'.length := by
          rcases a' with _ | ⟨x, _ | ⟨y, t⟩⟩
          · exact absurd rfl ha'
          · exfalso
            have : rn <:+ (cur ++ [c]) ++ [x] := by simpa using hsuf
            have := (rn_suffix_concat (cur ++ [c]) x).mp this
            rw [List.getLast?_concat] at this
            have h3 := this.2
            rw [hc.1] at h3
            simp at h3
          · simp
        have h3 : a' <:+ cur ++ c :: a' := ⟨cur ++ [c], by simp⟩
        exact List.suffix_of_suffix_length_le hsuf h3 (by simpa [rn] using h2)
      · rw [if_neg hc] at hb
        have hb' : (∀ l ∈ (splitLines (cur ++ [c]) (a' ++ p ++ b)).1, l.length ≤ M + 1) ∧
            (splitLines (cur ++ [c]) (a' ++ p ++ b)).2.length ≤ M := by
          simpa using hb
        exact ih (a' ++ p ++ b) (cur ++ [c]) hb' rfl ha' (by simpa using hsuf)

/-- When every line fits, the overflow branch is never taken. -/
theorem no_overflow (S : List Nat) (log : List Chunk) (hlog : LogOK S log)
    (hl : ∀ l ∈ lines S, l.length ≤ bufSize - 2) (ht : (tail S).length ≤ bufSize - 3) :
    ∀ (n : Nat) (pre : List Chunk) (e : Chunk) (post : List Chunk), pre.length = n →
      log = pre ++ e :: post → e.kind ≠ .overflow := by
  have hb : (∀ l ∈ (splitLines [] S).1, l.length ≤ (bufSize - 3) + 1) ∧
      (splitLines [] S).2.length ≤ bufSize - 3 := by
    refine ⟨fun l hl' => ?_, ht⟩
    have := hl l hl'
    rw [bufSize_eq] at this ⊢
    omega
  intro n
  induction n using Nat.strong_induction_on with
  | _ n ih =>
    intro pre e post hn hsplit hk
    obtain ⟨⟨b, hS⟩, hB, _, h4⟩ := hlog pre e post hsplit
    rw [hk] at h4
    obtain ⟨_, hno, hlen⟩ := h4
    have hno' := (LastIndex_eq_none_iff _).mp hno
    have hM : e.held.length ≤ bufSize - 3 := by
      rcases hB with h0 | h1 | ⟨p, o, hp, ho⟩
      · have := open_run_bound (bufSize - 3) S [] e.held b hb (by rw [← hS, h0]; simp)
          (by simpa using hno')
        simpa using this
      · have hne : handed pre ≠ [] := by
          intro h0
          rw [h0] at h1
          simp [rn] at h1
        exact boundary_run_bound (bufSize - 3) S [] (handed pre) e.held b hb hS.symm hne
          (by simpa using h1) hno'
      · exfalso
        subst hp
        refine ih p.length (by rw [← hn]; simp) p o (e :: post) rfl ?_ ho
        rw [hsplit]
        simp
    rw [bufSize_eq] at hM hlen
    omega


/-- The run over lines that fit, on the buffered bytes: no overflow, the chunks are the
lines, the last write is the tail. -/
theorem listLoop_lines (ic : ImapConnection) (hw : ic.localConn = fullWrite)
    (frags : List (List Nat)) (hfit : listFits ic listInit (script frags) = true)
    (hl : ∀ l ∈ lines frags.flatten, l.length ≤ bufSize - 2)
    (ht : (tail frags.flatten).length ≤ bufSize - 3) :
    (∀ e ∈ (listLoop ic listInit (script frags)).log, e.kind ≠ .overflow) ∧
    (((listLoop ic listInit (script frags)).log.filter
        (fun e => e.kind = .filtered)).map Chunk.bytes).flatten = (lines frags.flatten).flatten ∧
    (listLoop ic listInit (script frags)).sock.out =
      (((listLoop ic listInit (script frags)).log.filter
        (fun e => e.kind = .filtered)).map Chunk.bytes).map (filter ic) ++ [tail frags.flatten] ∧
    (listLoop ic listInit (script frags)).status = .returned none := by
  obtain ⟨hst, ⟨hout, _⟩, hlog, hh, l, t, hsplit, hnf, htn⟩ := listLoop_script ic hw frags hfit
  have hno : ∀ e ∈ (listLoop ic listInit (script frags)).log, e.kind ≠ .overflow := by
    intro e he
    obtain ⟨pre, post, hp⟩ := mem_split_log _ e he
    exact no_overflow _ _ hlog hl ht pre.length pre e post rfl hp
  rw [hsplit] at hno hlog hh hout ⊢
  have hfl : ∀ e ∈ l, e.kind = .filtered := by
    intro e he
    have h1 := hno e (List.mem_append_left _ he)
    have h2 := hnf e he
    cases hk : e.kind with
    | filtered => rfl
    | overflow => exact absurd hk h1
    | flush => exact absurd hk h2
  have hfilt : (l ++ [Chunk.mk .flush t t]).filter (fun e => e.kind = .filtered) = l := by
    rw [List.filter_append, List.filter_eq_self.mpr (fun e he => by simp [hfl e he])]
    simp
  rw [hfilt]
  have hends : ∀ b ∈ l.map Chunk.bytes, rn <:+ b := by
    intro b hb
    obtain ⟨e, he, rfl⟩ := List.mem_map.mp hb
    obtain ⟨pre, post, hp⟩ := mem_split_log _ e he
    obtain ⟨_, _, _, h4⟩ := hlog pre e (post ++ [Chunk.mk .flush t t]) (by rw [hp]; simp)
    rw [hfl e he] at h4
    exact h4.2.1
  have hS : (l.map Chunk.bytes).flatten ++ t = (lines frags.flatten).flatten ++ tail frags.flatten := by
    rw [handed_append, handed_single] at hh
    rw [lines, tail, splitLines_flatten, List.nil_append]
    exact hh
  obtain ⟨hX, hT⟩ := split_unique _ _ _ _ hS (flatten_ends _ hends)
    (flatten_ends _ (splitLines_lines _ _)) ((LastIndex_eq_none_iff _).mp htn)
    (splitLines_tail _ _ (by simp [rn]))
  refine ⟨hno, hX, ?_, hst⟩
  rw [hout, List.map_append, List.map_map, ← hT]
  congr 1
  apply List.map_congr_left
  intro e he
  simp [sentOf, hfl e he]


theorem monitor_exited (m : Monitor) (evs : List MonEvent) (h : m.exited = true) :
    evs.foldl Monitor.step m = m := by
  induction evs with
  | nil => rfl
  | cons e es ih =>
    have : m.step e = m := by simp [Monitor.step, h]
    rw [List.foldl_cons, this, ih]

theorem monitor_closes (m : Monitor) (evs : List MonEvent) (h : m.exited = false) :
    (evs.foldl Monitor.step m).localCloses = m.localCloses + timeoutsBeforeClose evs ∧
    (evs.foldl Monitor.step m).remoteCloses = m.remoteCloses + timeoutsBeforeClose evs := by
  induction evs generalizing m with
  | nil => exact ⟨rfl, rfl⟩
  | cons e es ih =>
    rw [List.foldl_cons]
    cases e with
    | closed =>
      have hs : m.step .closed = { m with exited := true } := by simp [Monitor.step, h]
      rw [hs, monitor_exited _ es rfl]
      exact ⟨rfl, rfl⟩
    | timeout =>
      have hs : m.step .timeout =
          { m with localCloses := m.localCloses + 1, remoteCloses := m.remoteCloses + 1 } := by
        simp [Monitor.step, h]
      rw [hs]
      obtain ⟨h1, h2⟩ := ih { m with localCloses := m.localCloses + 1,
                                       remoteCloses := m.remoteCloses + 1 } h
      rw [h1, h2]
      simp only [timeoutsBeforeClose]
      omega
    | pulse rx now =>
      by_cases hc : now - m.last > 10 * 1000000000
      · have hs : m.step (.pulse rx now) =
            { m with last := now, sentLines := m.sentLines + 1 } := by
          simp only [Monitor.step, h, Bool.false_eq_true, if_false, if_pos hc]
        rw [hs]
        exact ih _ h
      · have hs : m.step (.pulse rx now) = m := by
          simp only [Monitor.step, h, Bool.false_eq_true, if_false, if_neg hc]
        rw [hs]
        exact ih _ h


/-! ## Evaluating the matcher -/


theorem adv_append (s : MState) (u w : List Nat) : adv s (u ++ w) = adv (adv s u) w := by
  induction u generalizing s with
  | nil => rfl
  | cons x u ih => exact ih _

theorem adv_rest (s : MState) (w r : List Nat) (h : s.rest = w ++ r) : (adv s w).rest = r := by
  induction w generalizing s with
  | nil => simpa [adv] using h
  | cons x w ih =>
    simp only [adv]
    apply ih
    simp [h]

theorem adv_caps (s : MState) (w : List Nat) : (adv s w).caps = s.caps := by
  induction w generalizing s with
  | nil => rfl
  | cons x w ih => simp only [adv]; rw [ih]

theorem matchRe_group (i : Nat) (a : Regex) (s : MState) :
    matchRe (.group i a) s = (matchRe a s).map (setCap i s) := rfl

theorem matchRe_seq (a b : Regex) (s : MState) :
    matchRe (.seq a b) s = (matchRe a s).flatMap (matchRe b) := rfl

theorem matchRe_alt (a b : Regex) (s : MState) :
    matchRe (.alt a b) s = matchRe a s ++ matchRe b s := rfl

theorem matchRe_bol (s : MState) (h : s.bol = true) : matchRe .bol s = [s] := by
  simp [matchRe, h]

theorem matchRe_bol_false (s : MState) (h : s.bol = false) : matchRe .bol s = [] := by
  simp [matchRe, h]

theorem matchRe_byte (c : Nat) (s : MState) (r : List Nat) (h : s.rest = c :: r) :
    matchRe (.byte c) s = [adv s [c]] := by
  simp [matchRe, h, adv]

theorem matchRe_byte_fail (c : Nat) (s : MState) (h : ∀ r, s.rest ≠ c :: r) :
    matchRe (.byte c) s = [] := by
  unfold matchRe
  cases hr : s.rest with
  | nil => rfl
  | cons x r =>
    have : x ≠ c := fun hx => h r (by rw [hr, hx])
    simp [this]

theorem matchRe_cls (p : Nat → Bool) (s : MState) (x : Nat) (r : List Nat)
    (h : s.rest = x :: r) (hp : p x = true) : matchRe (.cls p) s = [adv s [x]] := by
  simp [matchRe, h, hp, adv]

theorem matchRe_cls_fail (p : Nat → Bool) (s : MState)
    (h : ∀ x r, s.rest = x :: r → p x = false) : matchRe (.cls p) s = [] := by
  unfold matchRe
  cases hr : s.rest with
  | nil => rfl
  | cons x r => simp [h x r hr]

theorem matchRe_lit (w : List Nat) (s : MState) (r : List Nat) (h : s.rest = w ++ r) :
    matchRe (Regex.lit w) s = [adv s w] := by
  induction w generalizing s with
  | nil => rfl
  | cons c w ih =>
    cases w with
    | nil => exact matchRe_byte c s r h
    | cons d w' =>
      rw [Regex.lit, matchRe_seq, matchRe_byte c s _ h]
      simp only [List.flatMap_cons, List.flatMap_nil, List.append_nil]
      rw [ih (adv s [c]) (adv_rest s [c] _ h)]
      rfl

theorem matchRe_lit_fail (w : List Nat) (s : MState) (h : ¬ w <+: s.rest) :
    matchRe (Regex.lit w) s = [] := by
  induction w generalizing s with
  | nil => exact absurd (List.nil_prefix) h
  | cons c w ih =>
    by_cases hc : ∃ r, s.rest = c :: r
    · obtain ⟨r, hr⟩ := hc
      have hw : ¬ w <+: r := by
        intro hw
        apply h
        rw [hr]
        exact (List.prefix_cons_inj c).mpr hw
      cases w with
      | nil => exact absurd List.nil_prefix hw
      | cons d w' =>
        rw [Regex.lit, matchRe_seq, matchRe_byte c s r hr]
        simp only [List.flatMap_cons, List.flatMap_nil, List.append_nil]
        apply ih
        rw [adv_rest s [c] r hr]
        exact hw
    · have hf : matchRe (.byte c) s = [] :=
        matchRe_byte_fail c s (fun r hr => hc ⟨r, hr⟩)
      cases w with
      | nil => exact hf
      | cons d w' =>
        rw [Regex.lit, matchRe_seq, hf]
        rfl


theorem range_succ_reverse (n : Nat) :
    (List.range (n + 1)).reverse = n :: (List.range n).reverse := by
  rw [List.range_succ, List.reverse_append]
  rfl

theorem range_reverse_shift (n : Nat) :
    (List.range (n + 1)).reverse = ((List.range n).reverse.map Nat.succ) ++ [0] := by
  rw [List.range_succ_eq_map, List.reverse_cons, List.map_reverse]

/-- The greedy repetition of a class over a run `w` of bytes of the class that is followed by
a byte outside the class (or by the end): all splits of `w`, the longest first. -/
theorem starLoop_cls (p : Nat → Bool) (w r : List Nat) (hw : ∀ x ∈ w, p x = true)
    (hr : ∀ x r', r = x :: r' → p x = false) (fuel : Nat) (s : MState)
    (hf : w.length ≤ fuel) (hs : s.rest = w ++ r) :
    starLoop (matchRe (.cls p)) fuel s =
      (List.range (w.length + 1)).reverse.map (fun j => adv s (w.take j)) := by
  induction w generalizing s fuel with
  | nil =>
    have h0 : matchRe (.cls p) s = [] :=
      matchRe_cls_fail p s (fun x r' hx => hr x r' (by rw [← hx, hs]; rfl))
    cases fuel with
    | zero => rfl
    | succ f =>
      rw [starLoop, h0]
      rfl
  | cons x w' ih =>
    cases fuel with
    | zero => simp at hf
    | succ f =>
      have h1 : matchRe (.cls p) s = [adv s [x]] :=
        matchRe_cls p s x (w' ++ r) hs (hw x (List.mem_cons_self _ _))
      have hrest : (adv s [x]).rest = w' ++ r := adv_rest s [x] _ hs
      rw [starLoop, h1]
      have hlt : decide ((adv s [x]).rest.length < s.rest.length) = true := by
        rw [hrest, hs]
        simp
      simp only [List.filter_cons, hlt, if_true, List.filter_nil, List.flatMap_cons,
        List.flatMap_nil, List.append_nil]
      rw [ih (fun y hy => hw y (List.mem_cons_of_mem _ hy)) f (adv s [x])
        (by simpa using hf) hrest]
      rw [List.length_cons, range_reverse_shift (w'.length + 1), List.map_append, List.map_map]
      rfl

theorem matchRe_star_cls (p : Nat → Bool) (w r : List Nat) (hw : ∀ x ∈ w, p x = true)
    (hr : ∀ x r', r = x :: r' → p x = false) (s : MState) (hs : s.rest = w ++ r) :
    matchRe (.star (.cls p)) s =
      (List.range (w.length + 1)).reverse.map (fun j => adv s (w.take j)) := by
  show starLoop (matchRe (.cls p)) s.rest.length s = _
  exact starLoop_cls p w r hw hr _ s (by rw [hs]; simp) hs

/-- Of the splits tried in turn, those that fail contribute nothing. -/
theorem flatMap_range_first (g : Nat → MState) (K : MState → List MState) (j0 d : Nat)
    (hz : ∀ j, j0 < j → j ≤ j0 + d → K (g j) = []) :
    ((List.range (j0 + d + 1)).reverse.map g).flatMap K =
      K (g j0) ++ ((List.range j0).reverse.map g).flatMap K := by
  induction d with
  | zero =>
    rw [Nat.add_zero, range_succ_reverse]
    rfl
  | succ d ih =>
    rw [show j0 + (d + 1) + 1 = (j0 + d + 1) + 1 from rfl, range_succ_reverse]
    simp only [List.map_cons, List.flatMap_cons]
    rw [hz (j0 + d + 1) (by omega) (by omega), List.nil_append]
    exact ih (fun j h1 h2 => hz j h1 (by omega))

theorem matchRe_plus (a : Regex) (s : MState) :
    matchRe (Regex.plus a) s = (matchRe a s).flatMap (matchRe (.star a)) := rfl

theorem matchRe_opt (a : Regex) (s : MState) :
    matchRe (Regex.opt a) s = matchRe a s ++ [s] := rfl


theorem capRe_eq : capRe =
    .seq .bol (.seq (.group 1 (.seq (Regex.plus (.cls tagByte))
      (.seq (Regex.lit capOK) (Regex.plus (.cls notCRLF)))))
      (.seq (Regex.lit capCut) (.group 2 (.seq (.star (.cls notCRLF)) (Regex.lit rn))))) := rfl

/-- One or more bytes of a class over a run `w`: all splits that take at least one byte. -/
theorem matchRe_plus_cls (p : Nat → Bool) (w r : List Nat) (hne : w ≠ [])
    (hw : ∀ x ∈ w, p x = true) (hr : ∀ x r', r = x :: r' → p x = false) (s : MState)
    (hs : s.rest = w ++ r) :
    matchRe (Regex.plus (.cls p)) s =
      (List.range w.length).reverse.map (fun j => adv s (w.take (j + 1))) := by
  cases w with
  | nil => exact absurd rfl hne
  | cons x w' =>
    rw [matchRe_plus, matchRe_cls p s x (w' ++ r) hs (hw x (List.mem_cons_self _ _))]
    simp only [List.flatMap_cons, List.flatMap_nil, List.append_nil]
    rw [matchRe_star_cls p w' r (fun y hy => hw y (List.mem_cons_of_mem _ hy)) hr _
      (adv_rest s [x] _ hs)]
    rfl

theorem notCRLF_13 : notCRLF 13 = false := by decide

theorem rn_head (x : Nat) (r' : List Nat) (h : rn = x :: r') : notCRLF x = false := by
  have : x = 13 := by
    have := congrArg List.head? h
    simpa [rn] using this.symm
  rw [this]
  exact notCRLF_13

theorem take_length_append (a b : List Nat) : (a ++ b).take a.length = a := by simp

theorem drop_length_append (a b : List Nat) : (a ++ b).drop a.length = b := by simp

theorem not_prefix_of_head {w l : List Nat} {a b : Nat} {w' l' : List Nat} (hw : w = a :: w')
    (hl : l = b :: l') (hab : a ≠ b) : ¬ w <+: l := by
  subst hw hl
  rintro ⟨t, ht⟩
  simp at ht
  exact hab ht.1


theorem capCut_notCRLF : ∀ x ∈ capCut, notCRLF x = true := by decide

/-- The end of a line: `[^\r\n]*\r\n` over bytes without CR and LF followed by CRLF. -/
theorem matchRe_line_end (t : MState) (rest : List Nat) (hrest : ∀ x ∈ rest, notCRLF x = true)
    (ht : t.rest = rest ++ rn) :
    ∃ tl, matchRe (.seq (.star (.cls notCRLF)) (Regex.lit rn)) t = adv t (rest ++ rn) :: tl := by
  rw [matchRe_seq, matchRe_star_cls notCRLF rest rn hrest rn_head t ht]
  have := flatMap_range_first (fun j => adv t (rest.take j)) (matchRe (Regex.lit rn))
    rest.length 0 (fun j h1 h2 => by omega)
  rw [Nat.add_zero] at this
  rw [this]
  simp only [List.take_length]
  rw [matchRe_lit rn (adv t rest) [] (by rw [adv_rest t rest rn ht]; simp), ← adv_append]
  exact ⟨_, rfl⟩

/-- The capability expression at the start of a capability line: its first match takes the
whole line, group 1 is the line up to the last ` COMPRESS=DEFLATE` and group 2 what follows
it. -/
theorem capRe_match (tag mid rest : List Nat) (htag : tag ≠ [])
    (htagb : ∀ x ∈ tag, tagByte x = true) (hmid : mid ≠ [])
    (hmidb : ∀ x ∈ mid, notCRLF x = true) (hrestb : ∀ x ∈ rest, notCRLF x = true)
    (hlast : ∀ j, mid.length < j → j ≤ (mid ++ (capCut ++ rest)).length →
      ¬ capCut <+: (mid ++ (capCut ++ rest)).drop j ++ rn) :
    ∃ m tl, matchRe capRe ⟨true, tag ++ (capOK ++ ((mid ++ (capCut ++ rest)) ++ rn)), []⟩
        = m :: tl ∧
      m.rest = [] ∧ m.caps = [(2, rest ++ rn), (1, tag ++ (capOK ++ mid))] := by
  generalize hs0 : (⟨true, tag ++ (capOK ++ ((mid ++ (capCut ++ rest)) ++ rn)), []⟩ : MState) = s0
  have hs0r : s0.rest = tag ++ (capOK ++ ((mid ++ (capCut ++ rest)) ++ rn)) := by rw [← hs0]
  have hs0c : s0.caps = [] := by rw [← hs0]
  have hs0b : s0.bol = true := by rw [← hs0]
  have hu : ∀ x ∈ mid ++ (capCut ++ rest), notCRLF x = true := by
    intro x hx
    rcases List.mem_append.mp hx with h | h
    · exact hmidb x h
    · rcases List.mem_append.mp h with h | h
      · exact capCut_notCRLF x h
      · exact hrestb x h
  have hune : mid ++ (capCut ++ rest) ≠ [] := by
    intro h; exact hmid (List.append_eq_nil.mp h).1
  -- the tag
  have htagp := matchRe_plus_cls tagByte tag (capOK ++ ((mid ++ (capCut ++ rest)) ++ rn)) htag
    htagb (fun x r' h => by
      have : x = 32 := by
        have := congrArg List.head? h
        simpa [capOK, ascii] using this.symm
      rw [this]; decide) s0 hs0r
  obtain ⟨n, hn⟩ : ∃ n, tag.length = n + 1 := by
    cases tag with
    | nil => exact absurd rfl htag
    | cons x t => exact ⟨t.length, rfl⟩
  -- group 1
  have hinner : ∃ tl, matchRe (.seq (Regex.plus (.cls tagByte))
      (.seq (Regex.lit capOK) (Regex.plus (.cls notCRLF)))) s0 =
      (List.range (mid ++ (capCut ++ rest)).length).reverse.map
        (fun j => adv (adv s0 (tag ++ capOK)) ((mid ++ (capCut ++ rest)).take (j + 1))) ++ tl := by
    rw [matchRe_seq, htagp, hn]
    have := flatMap_range_first (fun j => adv s0 (tag.take (j + 1)))
      (matchRe (.seq (Regex.lit capOK) (Regex.plus (.cls notCRLF)))) n 0
      (fun j h1 h2 => by omega)
    rw [Nat.add_zero] at this
    rw [this]
    have hK1 : matchRe (.seq (Regex.lit capOK) (Regex.plus (.cls notCRLF)))
        (adv s0 (tag.take (n + 1))) =
        (List.range (mid ++ (capCut ++ rest)).length).reverse.map
          (fun j => adv (adv s0 (tag ++ capOK)) ((mid ++ (capCut ++ rest)).take (j + 1))) := by
      rw [← hn, List.take_length, matchRe_seq,
        matchRe_lit capOK (adv s0 tag) _ (adv_rest s0 tag _ hs0r), ← adv_append]
      simp only [List.flatMap_cons, List.flatMap_nil, List.append_nil]
      exact matchRe_plus_cls notCRLF _ rn hune hu rn_head _
        (adv_rest s0 (tag ++ capOK) _ (by rw [hs0r]; simp))
    exact ⟨_, congrArg (fun z => z ++ _) hK1⟩
  obtain ⟨tl1, hinner⟩ := hinner
  generalize hs2 : adv s0 (tag ++ capOK) = s2 at hinner
  have hs2r : s2.rest = (mid ++ (capCut ++ rest)) ++ rn := by
    rw [← hs2]; exact adv_rest s0 (tag ++ capOK) _ (by rw [hs0r]; simp)
  have hs2c : s2.caps = [] := by rw [← hs2, adv_caps, hs0c]
  -- the continuation behind group 1
  have hrest_of : ∀ j, j ≤ (mid ++ (capCut ++ rest)).length →
      (setCap 1 s0 (adv s2 ((mid ++ (capCut ++ rest)).take j))).rest =
        (mid ++ (capCut ++ rest)).drop j ++ rn := by
    intro j _
    show (adv s2 _).rest = _
    apply adv_rest
    rw [hs2r]
    generalize mid ++ (capCut ++ rest) = u
    rw [← List.append_assoc, List.take_append_drop]
  obtain ⟨j0, hj0⟩ : ∃ j0, mid.length = j0 + 1 := by
    cases mid with
    | nil => exact absurd rfl hmid
    | cons x t => exact ⟨t.length, rfl⟩
  have hlen : (mid ++ (capCut ++ rest)).length = j0 + (capCut.length + rest.length) + 1 := by
    simp only [List.length_append, hj0]; omega
  have hfail : ∀ j, j0 < j → j ≤ j0 + (capCut.length + rest.length) →
      matchRe (.seq (Regex.lit capCut) (.group 2 (.seq (.star (.cls notCRLF)) (Regex.lit rn))))
        (setCap 1 s0 (adv s2 ((mid ++ (capCut ++ rest)).take (j + 1)))) = [] := by
    intro j h1 h2
    rw [matchRe_seq, matchRe_lit_fail]
    · rfl
    · rw [hrest_of (j + 1) (by omega)]
      exact hlast (j + 1) (by omega) (by omega)
  have hfirst := flatMap_range_first
    (fun j => setCap 1 s0 (adv s2 ((mid ++ (capCut ++ rest)).take (j + 1))))
    (matchRe (.seq (Regex.lit capCut) (.group 2 (.seq (.star (.cls notCRLF)) (Regex.lit rn)))))
    j0 (capCut.length + rest.length) hfail
  rw [← hlen] at hfirst
  beta_reduce at hfirst
  have htake : (mid ++ (capCut ++ rest)).take (j0 + 1) = mid := by
    rw [← hj0, take_length_append]
  rw [htake] at hfirst
  -- the match
  have hmidr : (adv s2 mid).rest = capCut ++ (rest ++ rn) := by
    apply adv_rest
    rw [hs2r]
    simp
  generalize ht1 : setCap 1 s0 (adv s2 mid) = t1 at hfirst
  have ht1r : t1.rest = capCut ++ (rest ++ rn) := by
    rw [← ht1]
    exact hmidr
  have ht1c : t1.caps = [(1, tag ++ (capOK ++ mid))] := by
    rw [← ht1]
    show (1, s0.rest.take (s0.rest.length - (adv s2 mid).rest.length)) :: (adv s2 mid).caps = _
    rw [adv_caps, hs2c, hmidr, hs0r]
    have h2 : tag ++ (capOK ++ ((mid ++ (capCut ++ rest)) ++ rn)) =
        (tag ++ (capOK ++ mid)) ++ (capCut ++ (rest ++ rn)) := by simp
    rw [h2]
    have h3 : ((tag ++ (capOK ++ mid)) ++ (capCut ++ (rest ++ rn))).length
        - (capCut ++ (rest ++ rn)).length = (tag ++ (capOK ++ mid)).length := by
      rw [List.length_append]; omega
    rw [h3, take_length_append]
  obtain ⟨tl2, hend⟩ := matchRe_line_end (adv t1 capCut) rest hrestb (adv_rest t1 capCut _ ht1r)
  have hK2 : matchRe (.seq (Regex.lit capCut)
      (.group 2 (.seq (.star (.cls notCRLF)) (Regex.lit rn)))) t1 =
      setCap 2 (adv t1 capCut) (adv (adv t1 capCut) (rest ++ rn)) ::
        tl2.map (setCap 2 (adv t1 capCut)) := by
    rw [matchRe_seq, matchRe_lit capCut t1 _ ht1r]
    simp only [List.flatMap_cons, List.flatMap_nil, List.append_nil]
    rw [matchRe_group, hend]
    rfl
  rw [hK2] at hfirst
  have e : matchRe capRe s0 = matchRe capRe s0 := rfl
  conv at e =>
    rhs
    rw [capRe_eq, matchRe_seq, matchRe_bol s0 hs0b]
    simp only [List.flatMap_cons, List.flatMap_nil, List.append_nil]
    rw [matchRe_seq, matchRe_group, hinner, List.map_append, List.flatMap_append, List.map_map]
    simp only [Function.comp_def]
    rw [hfirst, List.cons_append, List.cons_append]
  refine ⟨setCap 2 (adv t1 capCut) (adv (adv t1 capCut) (rest ++ rn)), _, e, ?_, ?_⟩
  · show (adv (adv t1 capCut) (rest ++ rn)).rest = []
    exact adv_rest _ _ _ (by rw [adv_rest t1 capCut _ ht1r]; simp)
  · show (2, (adv t1 capCut).rest.take ((adv t1 capCut).rest.length
        - (adv (adv t1 capCut) (rest ++ rn)).rest.length)) :: (adv (adv t1 capCut) (rest ++ rn)).caps = _
    rw [adv_rest (adv t1 capCut) (rest ++ rn) [] (by rw [adv_rest t1 capCut _ ht1r]; simp),
      adv_caps, adv_caps, ht1c, adv_rest t1 capCut _ ht1r]
    simp


theorem replaceFrom_skip_all (re : Regex) (tmpl : List TItem) (b : Bool) (l : List Nat) :
    replaceFrom re tmpl b l.length true l = [] := by
  induction l generalizing b with
  | nil =>
    rw [replaceFrom]
    cases matchAt re b [] <;> rfl
  | cons c r ih =>
    rw [List.length_cons, replaceFrom]
    exact ih _

/-- When the first match at the start of a chunk takes the whole chunk, `ReplaceAll` yields
the expansion of the template for that match. -/
theorem replaceAll_whole (re : Regex) (tmpl : List TItem) (line : List Nat) (m : MState)
    (tl : List MState) (hne : line ≠ []) (hm : matchRe re ⟨true, line, []⟩ = m :: tl)
    (hrest : m.rest = []) :
    ReplaceAll re line tmpl = expand tmpl m.caps ∧ Find re line = true := by
  cases line with
  | nil => exact absurd rfl hne
  | cons c r =>
    have hat : matchAt re true (c :: r) = some m := by
      rw [matchAt, hm]; rfl
    constructor
    · rw [ReplaceAll, replaceFrom, hat]
      simp only [hrest, List.length_nil, List.length_cons, Nat.zero_lt_succ, if_true, Nat.sub_zero]
      rw [replaceFrom_skip_all, List.append_nil]
    · rw [Find, findFrom, hat]
      rfl

theorem matchAt_anchored_false (X : Regex) (l : List Nat) :
    matchAt (.seq .bol X) false l = none := by
  rw [matchAt, matchRe_seq, matchRe_bol_false _ rfl]
  rfl

/-- A rule anchored with `^` is only tried at the start of a line and at its end. -/
theorem find_anchored (X : Regex) (c : Nat) (l : List Nat) (hc : c ≠ 10)
    (hl : ∀ x ∈ l, x ≠ 10) :
    Find (.seq .bol X) (c :: (l ++ [10])) =
      ((matchAt (.seq .bol X) true (c :: (l ++ [10]))).isSome ||
        (matchAt (.seq .bol X) true []).isSome) := by
  have inner : ∀ (l : List Nat), (∀ x ∈ l, x ≠ 10) →
      findFrom (.seq .bol X) false (l ++ [10]) = (matchAt (.seq .bol X) true []).isSome := by
    intro l hl
    induction l with
    | nil =>
      show findFrom (.seq .bol X) false [10] = _
      rw [findFrom, matchAt_anchored_false, findFrom]
      rfl
    | cons d l' ih =>
      have hd : (d == 10) = false := by
        simpa using hl d (List.mem_cons_self _ _)
      rw [List.cons_append, findFrom, matchAt_anchored_false, hd,
        ih (fun x hx => hl x (List.mem_cons_of_mem _ hx))]
      rfl
  have hc' : (c == 10) = false := by simpa using hc
  rw [Find, findFrom, hc', inner l hl]

theorem expand_cap (a b : List Nat) : expand capTemplate [(2, b), (1, a)] = a ++ b := by
  simp [expand, capture, capTemplate, List.find?]


theorem adv_rest_drop (s : MState) (w : List Nat) : (adv s w).rest = s.rest.drop w.length := by
  induction w generalizing s with
  | nil => rfl
  | cons x w ih =>
    rw [adv, ih]
    simp [List.drop_succ_cons, List.tail_drop]

theorem setCap_rest (i : Nat) (s t : MState) : (setCap i s t).rest = t.rest := rfl

theorem First.seq {a b : Regex} {s x y : MState} (h1 : First a s x) (h2 : First b x y) :
    First (.seq a b) s y := by
  obtain ⟨t1, h1⟩ := h1
  obtain ⟨t2, h2⟩ := h2
  refine ⟨t2 ++ t1.flatMap (matchRe b), ?_⟩
  rw [matchRe_seq, h1, List.flatMap_cons, h2]
  rfl

theorem First.seqs_cons {a b : Regex} {as : List Regex} {s x y : MState} (h1 : First a s x)
    (h2 : First (Regex.seqs (b :: as)) x y) : First (Regex.seqs (a :: b :: as)) s y :=
  First.seq h1 h2

theorem First.lit (w : List Nat) (s : MState) (r : List Nat) (h : s.rest = w ++ r) :
    First (Regex.lit w) s (adv s w) := ⟨[], matchRe_lit w s r h⟩

theorem First.byte (c : Nat) (s : MState) (r : List Nat) (h : s.rest = c :: r) :
    First (.byte c) s (adv s [c]) := ⟨[], matchRe_byte c s r h⟩

theorem First.cls (p : Nat → Bool) (s : MState) (x : Nat) (r : List Nat) (h : s.rest = x :: r)
    (hp : p x = true) : First (.cls p) s (adv s [x]) := ⟨[], matchRe_cls p s x r h hp⟩

theorem First.bol (s : MState) (h : s.bol = true) : First .bol s s := ⟨[], matchRe_bol s h⟩

theorem First.alt_left {a : Regex} (b : Regex) {s x : MState} (h : First a s x) :
    First (.alt a b) s x := by
  obtain ⟨tl, h⟩ := h
  exact ⟨tl ++ matchRe b s, by rw [matchRe_alt, h]; rfl⟩

theorem First.alt_right {a b : Regex} {s x : MState} (ha : matchRe a s = [])
    (h : First b s x) : First (.alt a b) s x := by
  obtain ⟨tl, h⟩ := h
  exact ⟨tl, by rw [matchRe_alt, ha, h]; rfl⟩

theorem First.opt {a : Regex} {s x : MState} (h : First a s x) : First (Regex.opt a) s x :=
  First.alt_left _ h

theorem First.opt_skip {a : Regex} {s : MState} (ha : matchRe a s = []) :
    First (Regex.opt a) s s := ⟨[], by rw [matchRe_opt, ha]; rfl⟩

theorem First.group (i : Nat) {a : Regex} {s x : MState} (h : First a s x) :
    First (.group i a) s (setCap i s x) := by
  obtain ⟨tl, h⟩ := h
  exact ⟨tl.map (setCap i s), by rw [matchRe_group, h]; rfl⟩

theorem First.star_cls (p : Nat → Bool) (w r : List Nat) (hw : ∀ x ∈ w, p x = true)
    (hr : ∀ x r', r = x :: r' → p x = false) (s : MState) (hs : s.rest = w ++ r) :
    First (.star (.cls p)) s (adv s w) := by
  refine ⟨(List.range w.length).reverse.map (fun j => adv s (w.take j)), ?_⟩
  rw [matchRe_star_cls p w r hw hr s hs, range_succ_reverse]
  simp


theorem First.lit' (w : List Nat) (s : MState) (h : w <+: s.rest) :
    First (Regex.lit w) s (adv s w) := by
  obtain ⟨r, hr⟩ := h
  exact First.lit w s r hr.symm

theorem First.byte' (c : Nat) (s : MState) (h : s.rest.head? = some c) :
    First (.byte c) s (adv s [c]) := by
  cases hr : s.rest with
  | nil => rw [hr] at h; simp at h
  | cons x r =>
    rw [hr] at h
    simp at h
    exact First.byte c s r (by rw [hr, h])

theorem First.cls' (p : Nat → Bool) (s : MState) (x : Nat) (h : s.rest.head? = some x)
    (hp : p x = true) : First (.cls p) s (adv s [x]) := by
  cases hr : s.rest with
  | nil => rw [hr] at h; simp at h
  | cons y r =>
    rw [hr] at h
    simp at h
    exact First.cls p s x r (by rw [hr, h]) hp

theorem First.star_cls' (p : Nat → Bool) (w : List Nat) (s : MState) (h : w <+: s.rest)
    (hw : ∀ x ∈ w, p x = true) (hr : ∀ x, (s.rest.drop w.length).head? = some x → p x = false) :
    First (.star (.cls p)) s (adv s w) := by
  obtain ⟨r, hr'⟩ := h
  refine First.star_cls p w r hw (fun x r' hx => hr x ?_) s hr'.symm
  rw [← hr', List.drop_left, hx]
  rfl

theorem matchRe_byte_fail' (c : Nat) (s : MState) (h : s.rest.head? ≠ some c) :
    matchRe (.byte c) s = [] :=
  matchRe_byte_fail c s (fun r hr => h (by rw [hr]; rfl))

theorem omitRe_eq (v : Regex) : omitRe v =
    Regex.seqs [.bol, Regex.lit (ascii "* "),
      .group 1 (.alt (Regex.lit (ascii "LIST")) (Regex.lit (ascii "LSUB"))),
      .byte 32,
      Regex.opt (.group 2 (Regex.seqs [.byte 40, .star (.cls (fun x => !(x == 41))), .byte 41])),
      Regex.lit (ascii " \""), notQuote, Regex.lit (ascii "\" "),
      Regex.opt (.byte 34), v, .star (.cls notCRLF), Regex.opt (.byte 34), Regex.lit rn] := rfl

theorem First_kw (s : MState) (kw : List Nat) (hkw : kw = ascii "LIST" ∨ kw = ascii "LSUB")
    (h : kw <+: s.rest) :
    First (.group 1 (.alt (Regex.lit (ascii "LIST")) (Regex.lit (ascii "LSUB")))) s
      (setCap 1 s (adv s kw)) := by
  apply First.group
  rcases hkw with hk | hk
  · subst hk
    exact First.alt_left _ (First.lit' _ _ h)
  · subst hk
    refine First.alt_right (matchRe_lit_fail _ _ ?_) (First.lit' _ _ h)
    intro h2
    obtain ⟨r, hr⟩ := h
    rw [← hr] at h2
    obtain ⟨r2, hr2⟩ := h2
    have h3 := congrArg (fun l => l.get? 1) hr2
    have h4 : (ascii "LIST" ++ r2).get? 1 = some 73 := rfl
    have h5 : (ascii "LSUB" ++ r).get? 1 = some 83 := rfl
    simp only [h4, h5] at h3
    exact absurd h3 (by decide)

theorem Whole.cons {a b : Regex} {as : List Regex} {s x : MState} (h1 : First a s x)
    (h2 : Whole (Regex.seqs (b :: as)) x) : Whole (Regex.seqs (a :: b :: as)) s := by
  obtain ⟨m, hm, hr⟩ := h2
  exact ⟨m, First.seqs_cons h1 hm, hr⟩

theorem not_quote_13 : (13 : Nat) ≠ 34 := by decide

/-- The end of a LIST line: `[^\r\n]*"?\r\n`. -/
theorem whole_end (s : MState) (body : List Nat) (hb : ∀ x ∈ body, notCRLF x = true)
    (hs : s.rest = body ++ rn) :
    Whole (Regex.seqs [.star (.cls notCRLF), Regex.opt (.byte 34), Regex.lit rn]) s := by
  refine Whole.cons (First.star_cls notCRLF body rn hb rn_head s hs) ?_
  have h1 : (adv s body).rest = rn := adv_rest s body rn hs
  refine Whole.cons (First.opt_skip (matchRe_byte_fail' 34 _ ?_)) ?_
  · rw [h1]; decide
  · exact ⟨_, First.lit rn _ [] (by rw [h1]; rfl), adv_rest _ rn [] (by rw [h1]; rfl)⟩

/-- The name of the mailbox: an optional quote, the pattern, and the end of the line. -/
theorem whole_name (s : MState) (v body : List Nat) (hb : ∀ x ∈ body, notCRLF x = true)
    (hs : s.rest = 34 :: (v ++ (body ++ rn))) :
    Whole (Regex.seqs [Regex.opt (.byte 34), Regex.lit v, .star (.cls notCRLF),
      Regex.opt (.byte 34), Regex.lit rn]) s := by
  refine Whole.cons (First.opt (First.byte 34 s _ hs)) ?_
  have h1 : (adv s [34]).rest = v ++ (body ++ rn) := adv_rest s [34] _ hs
  refine Whole.cons (First.lit v _ _ h1) ?_
  exact whole_end _ body hb (adv_rest _ v _ h1)

/-- The delimiter: ` "d" `. -/
theorem whole_delim (s : MState) (v body : List Nat) (d : Nat) (hd : d ≠ 34)
    (hb : ∀ x ∈ body, notCRLF x = true)
    (hs : s.rest = ascii " \"" ++ (d :: (ascii "\" " ++ (34 :: (v ++ (body ++ rn)))))) :
    Whole (Regex.seqs [Regex.lit (ascii " \""), notQuote,
      Regex.lit (ascii "\" "), Regex.opt (.byte 34), Regex.lit v, .star (.cls notCRLF),
      Regex.opt (.byte 34), Regex.lit rn]) s := by
  refine Whole.cons (First.lit _ s _ hs) ?_
  have h1 := adv_rest s _ _ hs
  refine Whole.cons (First.alt_left utf8Multi (First.cls _ _ d _ h1 (by simpa using hd))) ?_
  have h2 := adv_rest _ [d] _ h1
  refine Whole.cons (First.lit _ _ _ h2) ?_
  exact whole_name _ v body hb (adv_rest _ _ _ h2)

/-- The flags in parentheses. -/
theorem first_flags (s : MState) (flags r : List Nat) (hflags : ∀ x ∈ flags, x ≠ 41)
    (hs : s.rest = 40 :: (flags ++ (41 :: r))) :
    ∃ x, First (Regex.opt (.group 2
      (Regex.seqs [.byte 40, .star (.cls (fun x => !(x == 41))), .byte 41]))) s x ∧
      x.rest = r := by
  have h1 := adv_rest s [40] _ hs
  have h2 : First (.star (.cls (fun x => !(x == 41)))) (adv s [40]) (adv (adv s [40]) flags) :=
    First.star_cls _ flags (41 :: r) (fun x hx => by simpa using hflags x hx)
      (fun x r' hx => by
        have : x = 41 := by
          have := congrArg List.head? hx
          simpa using this.symm
        rw [this]; rfl) _ h1
  have h3 := adv_rest _ flags _ h1
  refine ⟨_, First.opt (First.group 2 (First.seqs_cons (First.byte 40 s _ hs)
    (First.seqs_cons h2 (First.byte 41 _ _ h3)))), ?_⟩
  rw [setCap_rest]
  exact adv_rest _ [41] _ h3

/-- The omit expression for a literal pattern `v` at the start of a LIST or LSUB line whose
mailbox name begins with `v`: its first match takes the whole line. -/
theorem omitRe_match (v kw flags rest : List Nat) (d : Nat)
    (hkw : kw = ascii "LIST" ∨ kw = ascii "LSUB") (hflags : ∀ x ∈ flags, x ≠ 41)
    (hd : d ≠ 34) (hrest : ∀ x ∈ rest, notCRLF x = true) :
    Whole (omitRe (Regex.lit v))
      ⟨true, ascii "* " ++ (kw ++ (32 :: 40 :: (flags ++ (41 :: (ascii " \"" ++ (d ::
        (ascii "\" " ++ (34 :: (v ++ ((rest ++ [34]) ++ rn)))))))))), []⟩ := by
  have hb : ∀ x ∈ rest ++ [34], notCRLF x = true := by
    intro x hx
    rcases List.mem_append.mp hx with h | h
    · exact hrest x h
    · rw [List.mem_singleton.mp h]; decide
  rw [omitRe_eq]
  refine Whole.cons (First.bol _ rfl) ?_
  refine Whole.cons (First.lit _ _ _ rfl) ?_
  have h1 := adv_rest (⟨true, ascii "* " ++ (kw ++ (32 :: 40 :: (flags ++ (41 :: (ascii " \"" ++
    (d :: (ascii "\" " ++ (34 :: (v ++ ((rest ++ [34]) ++ rn)))))))))), []⟩ : MState)
    (ascii "* ") _ rfl
  generalize adv _ (ascii "* ") = s1 at h1 ⊢
  refine Whole.cons (First_kw s1 kw hkw ⟨_, h1.symm⟩) ?_
  have h2 : (setCap 1 s1 (adv s1 kw)).rest = _ := adv_rest s1 kw _ h1
  generalize setCap 1 s1 (adv s1 kw) = s2 at h2 ⊢
  refine Whole.cons (First.byte 32 s2 _ h2) ?_
  have h3 := adv_rest s2 [32] _ h2
  generalize adv s2 [32] = s3 at h3 ⊢
  obtain ⟨s4, hf, h4⟩ := first_flags s3 flags _ hflags h3
  refine Whole.cons hf ?_
  exact whole_delim s4 v (rest ++ [34]) d hd hb h4


theorem find_anchored_line (X : Regex) (w : List Nat) (hne : w ≠ []) (hw : ∀ x ∈ w, x ≠ 10) :
    Find (.seq .bol X) (w ++ [10]) =
      ((matchAt (.seq .bol X) true (w ++ [10])).isSome ||
        (matchAt (.seq .bol X) true []).isSome) := by
  cases w with
  | nil => exact absurd rfl hne
  | cons c l =>
    exact find_anchored X c l (hw c (List.mem_cons_self _ _))
      (fun x hx => hw x (List.mem_cons_of_mem _ hx))

theorem matchAt_none_of_nil {re : Regex} {b : Bool} {l : List Nat}
    (h : matchRe re ⟨b, l, []⟩ = []) : matchAt re b l = none := by
  rw [matchAt, h]; rfl

/-- The omit expression matches only where `* L` stands. -/
theorem omitRe_no_match (v : Regex) (line : List Nat) (h : ¬ [42, 32, 76] <+: line) :
    matchAt (omitRe v) true line = none := by
  apply matchAt_none_of_nil
  rw [omitRe_eq]
  show matchRe (.seq .bol (.seq (Regex.lit (ascii "* ")) (.seq
    (.group 1 (.alt (Regex.lit (ascii "LIST")) (Regex.lit (ascii "LSUB")))) _))) _ = []
  rw [matchRe_seq, matchRe_bol _ rfl]
  simp only [List.flatMap_cons, List.flatMap_nil, List.append_nil]
  rw [matchRe_seq]
  by_cases hp : ascii "* " <+: line
  · obtain ⟨r, hr⟩ := hp
    rw [matchRe_lit (ascii "* ") _ r hr.symm]
    simp only [List.flatMap_cons, List.flatMap_nil, List.append_nil]
    have hrest : (adv (⟨true, line, []⟩ : MState) (ascii "* ")).rest = r :=
      adv_rest _ _ _ hr.symm
    have hno : ∀ (kw : List Nat), kw.head? = some 76 →
        ¬ kw <+: (adv (⟨true, line, []⟩ : MState) (ascii "* ")).rest := by
      intro kw hkw hpre
      rw [hrest] at hpre
      apply h
      obtain ⟨t, ht⟩ := hpre
      cases kw with
      | nil => simp at hkw
      | cons k kw' =>
        simp at hkw
        subst hkw
        rw [← hr, ← ht]
        exact ⟨kw' ++ t, rfl⟩
    rw [matchRe_seq, matchRe_group, matchRe_alt, matchRe_lit_fail _ _ (hno (ascii "LIST") rfl),
      matchRe_lit_fail _ _ (hno (ascii "LSUB") rfl)]
    rfl
  · rw [matchRe_lit_fail _ _ hp]
    rfl

theorem omitRe_anchored (v : Regex) : ∃ X, omitRe v = .seq .bol X := ⟨_, rfl⟩

/-- An omit rule leaves alone a line that does not begin with `* L`. -/
theorem applyRule_omit_id (v : Regex) (w : List Nat) (hne : w ≠ []) (hw : ∀ x ∈ w, x ≠ 10)
    (h : ¬ [42, 32, 76] <+: w ++ [10]) : applyRule (w ++ [10]) (omitRe v) = w ++ [10] := by
  obtain ⟨X, hX⟩ := omitRe_anchored v
  have hf : Find (omitRe v) (w ++ [10]) = false := by
    rw [hX, find_anchored_line X w hne hw, ← hX, omitRe_no_match v _ h,
      omitRe_no_match v [] (by simp)]
    rfl
  simp [applyRule, hf]

theorem foldl_omit_id (omits : List Regex) (w : List Nat) (hne : w ≠ [])
    (hw : ∀ x ∈ w, x ≠ 10) (h : ¬ [42, 32, 76] <+: w ++ [10]) :
    (omits.map omitRe).foldl applyRule (w ++ [10]) = w ++ [10] := by
  induction omits with
  | nil => rfl
  | cons v vs ih =>
    rw [List.map_cons, List.foldl_cons, applyRule_omit_id v w hne hw h]
    exact ih

/-- The capability expression does not match where `* L` stands, nor at the end. -/
theorem capRe_no_match (r : List Nat) : matchAt capRe true (42 :: 32 :: 76 :: r) = none ∧
    matchAt capRe true [] = none := by
  constructor
  · apply matchAt_none_of_nil
    rw [capRe_eq, matchRe_seq, matchRe_bol _ rfl]
    simp only [List.flatMap_cons, List.flatMap_nil, List.append_nil]
    rw [matchRe_seq, matchRe_group, matchRe_seq,
      matchRe_plus_cls tagByte [42] (32 :: 76 :: r) (by simp) (by decide)
        (fun x r' hx => by
          have : x = 32 := by
            have := congrArg List.head? hx
            simpa using this.symm
          rw [this]; rfl) _ rfl]
    have hr1 : (List.range ([42] : List Nat).length).reverse = [0] := rfl
    rw [hr1]
    simp only [List.map_cons, List.map_nil, List.flatMap_cons,
      List.flatMap_nil, List.append_nil]
    rw [matchRe_seq, matchRe_lit_fail]
    · rfl
    · have ht1 : List.take (0 + 1) ([42] : List Nat) = [42] := rfl
      rw [ht1, adv_rest (⟨true, 42 :: 32 :: 76 :: r, []⟩ : MState) [42] (32 :: 76 :: r) rfl]
      intro hp
      obtain ⟨t, ht⟩ := hp
      have h3 := congrArg (fun l => l.get? 1) ht
      have h4 : (capOK ++ t).get? 1 = some 79 := rfl
      have h5 : (32 :: 76 :: r).get? 1 = some 76 := rfl
      simp only [h4, h5] at h3
      exact absurd h3 (by decide)
  · apply matchAt_none_of_nil
    rw [capRe_eq, matchRe_seq, matchRe_bol _ rfl]
    simp only [List.flatMap_cons, List.flatMap_nil, List.append_nil]
    rw [matchRe_seq, matchRe_group, matchRe_seq, matchRe_plus, matchRe_cls_fail]
    · rfl
    · intro x r h
      simp at h


theorem occ_pos (pat : List Nat) : ∀ (l : List Nat) (j : Nat), pat <+: l.drop j →
    1 ≤ occurrences pat l := by
  intro l
  induction l with
  | nil =>
    intro j h
    rw [List.drop_nil] at h
    simp [occurrences, List.prefix_nil.mp h]
  | cons c r ih =>
    intro j h
    cases j with
    | zero =>
      rw [List.drop_zero] at h
      have : pat.isPrefixOf (c :: r) = true := List.isPrefixOf_iff_prefix.mpr h
      simp [occurrences, this]
    | succ j =>
      rw [List.drop_succ_cons] at h
      have := ih j h
      rw [occurrences]
      omega

theorem occ_two (pat : List Nat) : ∀ (l : List Nat) (i j : Nat), i < j →
    pat <+: l.drop i → pat <+: l.drop j → i < l.length → 2 ≤ occurrences pat l := by
  intro l
  induction l with
  | nil => intro i j _ _ _ hl; simp at hl
  | cons c r ih =>
    intro i j hij hi hj hl
    cases j with
    | zero => omega
    | succ j =>
      rw [List.drop_succ_cons] at hj
      cases i with
      | zero =>
        rw [List.drop_zero] at hi
        have h1 : pat.isPrefixOf (c :: r) = true := List.isPrefixOf_iff_prefix.mpr hi
        have h2 := occ_pos pat r j hj
        rw [occurrences, h1]
        simp only [if_true]
        omega
      | succ i =>
        rw [List.drop_succ_cons] at hi
        have := ih i j (by omega) hi hj (by simpa using hl)
        rw [occurrences]
        omega

theorem occ_zero (pat : List Nat) : ∀ (l : List Nat), (∀ k, ¬ pat <+: l.drop k) →
    occurrences pat l = 0 := by
  intro l
  induction l with
  | nil =>
    intro h
    have h0 := h 0
    rw [List.drop_zero] at h0
    have : pat.isPrefixOf [] = false := by
      cases hp : pat.isPrefixOf [] with
      | false => rfl
      | true => exact absurd (List.isPrefixOf_iff_prefix.mp hp) h0
    simp [occurrences, this]
  | cons c r ih =>
    intro h
    have h0 := h 0
    rw [List.drop_zero] at h0
    have h1 : pat.isPrefixOf (c :: r) = false := by
      cases hp : pat.isPrefixOf (c :: r) with
      | false => rfl
      | true => exact absurd (List.isPrefixOf_iff_prefix.mp hp) h0
    have h2 := ih (fun k => by simpa using h (k + 1))
    simp [occurrences, h1, h2]


theorem capCut_eq : capCut = 32 :: capToken := rfl

theorem capToken_length : capToken.length = 16 := rfl

theorem capCut_length : capCut.length = 17 := rfl

theorem drop_succ_of_cons {l t : List Nat} {x : Nat} {j : Nat} (h : l.drop j = x :: t) :
    l.drop (j + 1) = t := by
  rw [← List.drop_drop, h]
  rfl

/-- When the token occurs once in the line, no later ` COMPRESS=DEFLATE` follows the one
that is cut. -/
theorem hlast_of_occ (P mid rest : List Nat)
    (h : occurrences capToken (P ++ ((mid ++ (capCut ++ rest)) ++ rn)) = 1) :
    ∀ j, mid.length < j → j ≤ (mid ++ (capCut ++ rest)).length →
      ¬ capCut <+: (mid ++ (capCut ++ rest)).drop j ++ rn := by
  intro j hj hj2 hp
  have h1 : capToken <+:
      (P ++ ((mid ++ (capCut ++ rest)) ++ rn)).drop (P.length + (mid.length + 1)) := by
    rw [List.drop_append, List.append_assoc, ← List.drop_drop, List.drop_left, capCut_eq]
    exact ⟨rest ++ rn, by simp⟩
  have h2 : capToken <+:
      (P ++ ((mid ++ (capCut ++ rest)) ++ rn)).drop (P.length + (j + 1)) := by
    rw [List.drop_append]
    obtain ⟨t, ht⟩ := hp
    have h3 : ((mid ++ (capCut ++ rest)) ++ rn).drop j = 32 :: (capToken ++ t) := by
      rw [List.drop_append_of_le_length hj2, ← ht, capCut_eq]
      rfl
    rw [drop_succ_of_cons h3]
    exact ⟨t, rfl⟩
  have := occ_two capToken _ _ _ (by omega) h1 h2 (by
    simp only [List.length_append, capCut_length, rn, List.length_cons, List.length_nil]
    omega)
  omega

/-- Cutting the single ` COMPRESS=DEFLATE` of a text leaves no occurrence of the token, when
the byte behind the cut is not one of the token. -/
theorem occ_removed (P R : List Nat) (x : Nat) (R1 : List Nat) (hR : R = x :: R1)
    (hx : x ∉ capToken) (h : occurrences capToken (P ++ (capCut ++ R)) = 1) :
    occurrences capToken (P ++ R) = 0 := by
  have h1 : capToken <+: (P ++ (capCut ++ R)).drop (P.length + 1) := by
    rw [← List.drop_drop, List.drop_left, capCut_eq]
    exact ⟨R, rfl⟩
  have hlen : (P ++ (capCut ++ R)).length = P.length + 17 + R.length := by
    simp only [List.length_append, capCut_length]
    omega
  apply occ_zero
  intro k hk
  by_cases hkP : P.length ≤ k
  · obtain ⟨d, rfl⟩ := Nat.exists_eq_add_of_le hkP
    rw [List.drop_append] at hk
    have h2 : capToken <+: (P ++ (capCut ++ R)).drop (P.length + (17 + d)) := by
      rw [List.drop_append, ← capCut_length, List.drop_append]
      exact hk
    have := occ_two capToken _ _ _ (by omega) h1 h2 (by rw [hlen]; omega)
    omega
  · have hkP' : k ≤ P.length := by omega
    rw [List.drop_append_of_le_length hkP'] at hk
    by_cases hD : capToken.length ≤ (P.drop k).length
    · have h3 : capToken <+: P.drop k :=
        List.prefix_of_prefix_length_le hk (List.prefix_append _ _) hD
      have h2 : capToken <+: (P ++ (capCut ++ R)).drop k := by
        rw [List.drop_append_of_le_length hkP']
        exact h3.trans (List.prefix_append _ _)
      have := occ_two capToken _ _ _ (by omega) h2 h1 (by rw [hlen]; omega)
      omega
    · have h3 : P.drop k <+: capToken :=
        List.prefix_of_prefix_length_le (List.prefix_append _ _) hk (by omega)
      obtain ⟨e, he⟩ := h3
      obtain ⟨t, ht⟩ := hk
      rw [← he, List.append_assoc] at ht
      have h4 := List.append_cancel_left ht
      have hene : e ≠ [] := by
        intro h0
        rw [h0, List.append_nil] at he
        rw [he] at hD
        exact hD (le_refl _)
      cases e with
      | nil => exact hene rfl
      | cons y e1 =>
        rw [hR] at h4
        have hxy : y = x := by
          have := congrArg List.head? h4
          simpa using this
        apply hx
        rw [← he, ← hxy]
        simp


theorem tagByte_ne (x : Nat) (h : tagByte x = true) : x ≠ 10 ∧ x ≠ 32 ∧ x ≠ 13 := by
  unfold tagByte at h
  refine ⟨?_, ?_, ?_⟩ <;> (rintro rfl; revert h; decide)

theorem notCRLF_ne (x : Nat) (h : notCRLF x = true) : x ≠ 10 ∧ x ≠ 13 := by
  unfold notCRLF at h
  refine ⟨?_, ?_⟩ <;> (rintro rfl; revert h; decide)

theorem capOK_ne : ∀ x ∈ capOK, x ≠ 10 := by decide

/-- The capability rule on a capability line, followed by the omit rules: the bytes
` COMPRESS=DEFLATE` are cut at their last occurrence and nothing else changes. -/
theorem filter_capLine (omits : List Regex) (w : Nat → List Nat → WriteResult)
    (tag mid rest : List Nat) (htag : tag ≠ [])
    (htagb : ∀ x ∈ tag, tagByte x = true) (hmid : mid ≠ [])
    (hmidb : ∀ x ∈ mid, notCRLF x = true) (hrestb : ∀ x ∈ rest, notCRLF x = true)
    (hlast : ∀ j, mid.length < j → j ≤ (mid ++ (capCut ++ rest)).length →
      ¬ capCut <+: (mid ++ (capCut ++ rest)).drop j ++ rn) :
    filter (Listener omits w) (tag ++ (capOK ++ ((mid ++ (capCut ++ rest)) ++ rn))) =
      tag ++ (capOK ++ (mid ++ (rest ++ rn))) := by
  obtain ⟨m, tl, hm, hr, hc⟩ := capRe_match tag mid rest htag htagb hmid hmidb hrestb hlast
  have hne : tag ++ (capOK ++ ((mid ++ (capCut ++ rest)) ++ rn)) ≠ [] := by
    intro h
    exact htag (List.append_eq_nil.mp h).1
  obtain ⟨hrep, hfind⟩ := replaceAll_whole capRe capTemplate _ m tl hne hm hr
  have hout : tag ++ (capOK ++ (mid ++ (rest ++ rn))) =
      (tag ++ (capOK ++ (mid ++ (rest ++ [13])))) ++ [10] := by
    simp [rn]
  have hcap : (Listener omits w).capRe = capRe := rfl
  have hres : (Listener omits w).res = omits.map omitRe := rfl
  rw [filter, hcap, hres]
  simp only [hfind, if_true]
  rw [hrep, hc, expand_cap]
  have e2 : (tag ++ (capOK ++ mid)) ++ (rest ++ rn) =
      (tag ++ (capOK ++ (mid ++ (rest ++ [13])))) ++ [10] := by
    simp [rn]
  rw [e2, hout]
  apply foldl_omit_id
  · intro h
    exact htag (List.append_eq_nil.mp h).1
  · intro x hx
    simp only [List.mem_append, List.mem_singleton] at hx
    rcases hx with h | h | h | h | h
    · exact (tagByte_ne x (htagb x h)).1
    · exact capOK_ne x h
    · exact (notCRLF_ne x (hmidb x h)).1
    · exact (notCRLF_ne x (hrestb x h)).1
    · rw [h]; decide
  · intro hp
    obtain ⟨t, ht⟩ := hp
    cases tag with
    | nil => exact htag rfl
    | cons a tag1 =>
      cases tag1 with
      | nil =>
        have h3 := congrArg (fun l => l.get? 2) ht
        have h4 : (([a] ++ (capOK ++ (mid ++ (rest ++ [13])))) ++ [10]).get? 2 = some 79 := rfl
        have h5 : ([42, 32, 76] ++ t).get? 2 = some 76 := rfl
        simp only [h4, h5] at h3
        exact absurd h3 (by decide)
      | cons b tag2 =>
        have h3 := congrArg (fun l => l.get? 1) ht
        have h4 : (((a :: b :: tag2) ++ (capOK ++ (mid ++ (rest ++ [13])))) ++ [10]).get? 1
            = some b := rfl
        have h5 : ([42, 32, 76] ++ t).get? 1 = some 32 := rfl
        simp only [h4, h5] at h3
        have hb := (tagByte_ne b (htagb b (by simp))).2.1
        exact hb (Option.some.inj h3).symm


/-- The shape `* <kw> (<flags>) "<d>" "<name>"CRLF` of a LIST or LSUB line. -/
theorem listLine_shape (kw flags name : List Nat) (d : Nat) :
    ascii "* " ++ kw ++ ascii " (" ++ flags ++ ascii ") \"" ++ [d] ++ ascii "\" \"" ++ name ++
      ascii "\"\r\n" =
    ascii "* " ++ (kw ++ (32 :: 40 :: (flags ++ (41 :: (ascii " \"" ++ (d ::
        (ascii "\" " ++ (34 :: (name ++ ([34] ++ rn)))))))))) := by
  have h1 : ascii " (" = [32, 40] := rfl
  have h2 : ascii ") \"" = 41 :: ascii " \"" := rfl
  have h3 : ascii "\" \"" = ascii "\" " ++ [34] := rfl
  have h4 : ascii "\"\r\n" = [34] ++ rn := rfl
  rw [h1, h2, h3, h4]
  simp only [List.append_assoc, List.cons_append, List.nil_append, List.singleton_append]

/-- A LIST or LSUB line whose mailbox name begins with the literal pattern is deleted. -/
theorem filter_listLine (w : Nat → List Nat → WriteResult) (v kw flags rest : List Nat)
    (d : Nat) (hkw : kw = ascii "LIST" ∨ kw = ascii "LSUB")
    (hflags : ∀ x ∈ flags, x ≠ 41 ∧ x ≠ 10) (hd : d ≠ 34 ∧ d ≠ 10)
    (hv : ∀ x ∈ v, x ≠ 10) (hrest : ∀ x ∈ rest, notCRLF x = true) :
    filter (Listener [Regex.lit v] w)
      (ascii "* " ++ kw ++ ascii " (" ++ flags ++ ascii ") \"" ++ [d] ++ ascii "\" \"" ++
        (v ++ rest) ++ ascii "\"\r\n") = [] := by
  rw [listLine_shape]
  have hshape : ascii "* " ++ (kw ++ (32 :: 40 :: (flags ++ (41 :: (ascii " \"" ++ (d ::
        (ascii "\" " ++ (34 :: ((v ++ rest) ++ ([34] ++ rn)))))))))) =
      ascii "* " ++ (kw ++ (32 :: 40 :: (flags ++ (41 :: (ascii " \"" ++ (d ::
        (ascii "\" " ++ (34 :: (v ++ ((rest ++ [34]) ++ rn)))))))))) := by
    simp only [List.append_assoc]
  rw [hshape]
  obtain ⟨m, ⟨tl, hm⟩, hr⟩ := omitRe_match v kw flags rest d hkw (fun x hx => (hflags x hx).1)
    hd.1 hrest
  generalize hline : ascii "* " ++ (kw ++ (32 :: 40 :: (flags ++ (41 :: (ascii " \"" ++ (d ::
        (ascii "\" " ++ (34 :: (v ++ ((rest ++ [34]) ++ rn)))))))))) = line at hm ⊢
  have hkw0 : ∀ x ∈ kw, x ≠ 10 := by
    rcases hkw with h | h <;> (rw [h]; decide)
  obtain ⟨r, hr3⟩ : ∃ r, line = 42 :: 32 :: 76 :: r := by
    rw [← hline]
    rcases hkw with h | h <;> (rw [h]; exact ⟨_, rfl⟩)
  obtain ⟨u, hu, hune, hu10⟩ : ∃ u, line = u ++ [10] ∧ u ≠ [] ∧ ∀ x ∈ u, x ≠ 10 := by
    refine ⟨ascii "* " ++ (kw ++ (32 :: 40 :: (flags ++ (41 :: (ascii " \"" ++ (d ::
        (ascii "\" " ++ (34 :: (v ++ ((rest ++ [34]) ++ [13])))))))))), ?_, ?_, ?_⟩
    · rw [← hline]
      simp [rn]
    · intro h
      have := congrArg List.length h
      simp [ascii] at this
    · intro x hx
      simp only [List.mem_append, List.mem_cons, List.mem_singleton, List.not_mem_nil,
        or_false] at hx
      have ha1 : ∀ x ∈ ascii "* ", x ≠ 10 := by decide
      have ha2 : ∀ x ∈ ascii " \"", x ≠ 10 := by decide
      have ha3 : ∀ x ∈ ascii "\" ", x ≠ 10 := by decide
      rcases hx with h | h | h | h | h | h | h | h | h | h | h | (h | h) | h
      · exact ha1 x h
      · exact hkw0 x h
      · rw [h]; decide
      · rw [h]; decide
      · exact (hflags x h).2
      · rw [h]; decide
      · exact ha2 x h
      · rw [h]; exact hd.2
      · exact ha3 x h
      · rw [h]; decide
      · exact hv x h
      · exact (notCRLF_ne x (hrest x h)).1
      · rw [h]; decide
      · rw [h]; decide
  have hne : line ≠ [] := by rw [hr3]; simp
  obtain ⟨hrep, hfind⟩ := replaceAll_whole (omitRe (Regex.lit v)) [] line m tl hne hm hr
  have hcapF : Find capRe line = false := by
    rw [capRe_eq, hu, find_anchored_line _ u hune hu10, ← capRe_eq, ← hu, hr3,
      (capRe_no_match r).1, (capRe_no_match r).2]
    rfl
  have hcap : (Listener [Regex.lit v] w).capRe = capRe := rfl
  have hres : (Listener [Regex.lit v] w).res = [omitRe (Regex.lit v)] := rfl
  rw [filter, hcap, hres]
  simp only [hcapF, Bool.false_eq_true, if_false, List.foldl_cons, List.foldl_nil, applyRule,
    hfind, if_true]
  rw [hrep]
  rfl


/-- The rewriting does not depend on the client socket. -/
theorem filter_conn (omits : List Regex) (w w' : Nat → List Nat → WriteResult) (b : List Nat) :
    filter (Listener omits w) b = filter (Listener omits w') b := rfl

/-- The capability rule with the hypothesis on the token stated by counting. -/
theorem filter_capLine_once (omits : List Regex) (w : Nat → List Nat → WriteResult)
    (tag mid rest : List Nat) (htag : tag ≠ []) (htagb : ∀ x ∈ tag, tagByte x = true)
    (hmid : mid ≠ []) (hmidb : ∀ x ∈ mid, x ≠ 13 ∧ x ≠ 10)
    (hrestb : ∀ x ∈ rest, x ≠ 13 ∧ x ≠ 10)
    (hone : occurrences capToken (tag ++ capOK ++ mid ++ capCut ++ rest ++ rn) = 1) :
    filter (Listener omits w) (tag ++ capOK ++ mid ++ capCut ++ rest ++ rn) =
      tag ++ capOK ++ mid ++ rest ++ rn := by
  have e1 : tag ++ capOK ++ mid ++ capCut ++ rest ++ rn =
      tag ++ (capOK ++ ((mid ++ (capCut ++ rest)) ++ rn)) := by
    simp only [List.append_assoc]
  have e2 : tag ++ capOK ++ mid ++ capCut ++ rest ++ rn =
      (tag ++ capOK) ++ ((mid ++ (capCut ++ rest)) ++ rn) := by
    simp only [List.append_assoc]
  have e3 : tag ++ capOK ++ mid ++ rest ++ rn = tag ++ (capOK ++ (mid ++ (rest ++ rn))) := by
    simp only [List.append_assoc]
  have hn : ∀ x, x ≠ 13 ∧ x ≠ 10 → notCRLF x = true := by
    intro x hx
    simp [notCRLF, hx.1, hx.2]
  rw [e2] at hone
  rw [e1, e3]
  exact filter_capLine omits w tag mid rest htag htagb hmid (fun x hx => hn x (hmidb x hx))
    (fun x hx => hn x (hrestb x hx)) (hlast_of_occ (tag ++ capOK) mid rest hone)


theorem plainByte_ge (x : Nat) (h : plainByte x = true) : 32 ≤ x := by
  unfold plainByte at h
  simp only [Bool.and_eq_true, decide_eq_true_eq] at h
  exact h.1.1

theorem plain_ne_lf (v : List Nat) (h : plain v = true) : ∀ x ∈ v, x ≠ 10 := by
  intro x hx
  have := plainByte_ge x (List.all_eq_true.mp h x hx)
  omega

theorem seqs_bytes (v : List Nat) : Regex.seqs (v.map Regex.byte) = Regex.lit v := by
  induction v with
  | nil => rfl
  | cons c r ih =>
    cases r with
    | nil => rfl
    | cons d r' =>
      rw [List.map_cons, List.map_cons, Regex.seqs, Regex.lit, ← List.map_cons, ih]

theorem compileItems_plain (v : List Nat) (h : plain v = true) :
    compileItems v = some (v.map Regex.byte) := by
  induction v with
  | nil => rfl
  | cons c r ih =>
    have hc : plainByte c = true := List.all_eq_true.mp h c (List.mem_cons_self _ _)
    have hr : plain r = true :=
      List.all_eq_true.mpr (fun x hx => List.all_eq_true.mp h x (List.mem_cons_of_mem _ hx))
    have h92 : c ≠ 92 := by rintro rfl; revert hc; decide
    have h46 : c ≠ 46 := by rintro rfl; revert hc; decide
    unfold compileItems
    split
    · exact absurd rfl h92
    · exact absurd rfl h46
    · rw [if_pos hc, ih hr]
      rfl

/-- A pattern text without metacharacters compiles to the literal. -/
theorem compilePattern_plain (v : List Nat) (h : plain v = true) :
    compilePattern v = some (Regex.lit v) := by
  rw [compilePattern, compileItems_plain v h, Option.map_some', seqs_bytes]

theorem ListenerOfText_plain (w : Nat → List Nat → WriteResult) (v : List Nat)
    (h : plain v = true) : ListenerOfText [v] w = some (Listener [Regex.lit v] w) := by
  simp only [ListenerOfText, compileAll, compilePattern_plain v h, Option.map_some']

/-- A record built from pattern texts is the record of their trees. -/
theorem ListenerOfText_some (texts : List (List Nat)) (w : Nat → List Nat → WriteResult)
    (ic : ImapConnection) (h : ListenerOfText texts w = some ic) :
    ∃ omits, compileAll texts = some omits ∧ ic = Listener omits w := by
  unfold ListenerOfText at h
  cases hc : compileAll texts with
  | none => rw [hc] at h; simp at h
  | some ts =>
    rw [hc, Option.map_some'] at h
    exact ⟨ts, rfl, (Option.some.inj h).symm⟩

theorem filter_flatMap' {α β : Type} (l : List α) (f : α → List β) (p : β → Bool) :
    (l.flatMap f).filter p = l.flatMap (fun a => (f a).filter p) := by
  induction l with
  | nil => rfl
  | cons a l ih => simp only [List.flatMap_cons, List.filter_append, ih]

theorem flatMap_filter_drop {α β : Type} (l : List α) (g : α → List β) (q : α → Bool)
    (h : ∀ a ∈ l, q a = false → g a = []) : l.flatMap g = (l.filter q).flatMap g := by
  induction l with
  | nil => rfl
  | cons a l ih =>
    have ih' := ih (fun b hb => h b (List.mem_cons_of_mem _ hb))
    cases hq : q a with
    | true => simp only [List.flatMap_cons, List.filter_cons, hq, if_true, ih']
    | false =>
      simp only [List.flatMap_cons, List.filter_cons, hq, Bool.false_eq_true, if_false,
        h a (List.mem_cons_self _ _) hq, List.nil_append, ih']

theorem flatMap_map' {α β γ : Type} (l : List α) (f : α → β) (g : β → List γ) :
    (l.map f).flatMap g = l.flatMap (fun a => g (f a)) := by
  induction l with
  | nil => rfl
  | cons a l ih => simp only [List.map_cons, List.flatMap_cons, ih]

theorem map_flatMap' {α β γ : Type} (l : List α) (g : α → List β) (f : β → γ) :
    (l.flatMap g).map f = l.flatMap (fun a => (g a).map f) := by
  induction l with
  | nil => rfl
  | cons a l ih => simp only [List.flatMap_cons, List.map_append, ih]

theorem flatMap_congr_mem {α β : Type} (l : List α) (f g : α → List β)
    (h : ∀ a ∈ l, f a = g a) : l.flatMap f = l.flatMap g := by
  induction l with
  | nil => rfl
  | cons a l ih =>
    simp only [List.flatMap_cons, h a (List.mem_cons_self _ _),
      ih (fun b hb => h b (List.mem_cons_of_mem _ hb))]

theorem starLoop_rest_le (step : MState → List MState) : ∀ (n : Nat) (s t : MState),
    t ∈ starLoop step n s → t.rest.length ≤ s.rest.length := by
  intro n
  induction n with
  | zero =>
    intro s t h
    rw [starLoop, List.mem_singleton] at h
    rw [h]
  | succ n ih =>
    intro s t h
    rw [starLoop] at h
    rcases List.mem_append.mp h with h | h
    · obtain ⟨u, hu, ht⟩ := List.mem_flatMap.mp h
      have h1 := ih u t ht
      have h2 := (List.mem_filter.mp hu).2
      have h3 : u.rest.length < s.rest.length := of_decide_eq_true h2
      omega
    · rw [List.mem_singleton] at h
      rw [h]

/-- A match never gives input back. -/
theorem matchRe_rest_le (re : Regex) : ∀ (s t : MState), t ∈ matchRe re s →
    t.rest.length ≤ s.rest.length := by
  induction re with
  | empty =>
    intro s t h
    rw [matchRe, List.mem_singleton] at h
    rw [h]
  | byte c =>
    intro s t h
    obtain ⟨b, r, cp⟩ := s
    cases r with
    | nil => simp [matchRe] at h
    | cons x r =>
      simp only [matchRe] at h
      split at h
      · rw [List.mem_singleton] at h
        rw [h]
        simp
      · simp at h
  | cls p =>
    intro s t h
    obtain ⟨b, r, cp⟩ := s
    cases r with
    | nil => simp [matchRe] at h
    | cons x r =>
      simp only [matchRe] at h
      split at h
      · rw [List.mem_singleton] at h
        rw [h]
        simp
      · simp at h
  | bol =>
    intro s t h
    simp only [matchRe] at h
    split at h
    · rw [List.mem_singleton] at h
      rw [h]
    · simp at h
  | seq a b iha ihb =>
    intro s t h
    rw [matchRe] at h
    obtain ⟨u, hu, ht⟩ := List.mem_flatMap.mp h
    exact le_trans (ihb u t ht) (iha s u hu)
  | alt a b iha ihb =>
    intro s t h
    rw [matchRe] at h
    rcases List.mem_append.mp h with h | h
    · exact iha s t h
    · exact ihb s t h
  | star a _ =>
    intro s t h
    rw [matchRe] at h
    exact starLoop_rest_le _ _ s t h
  | group i a ih =>
    intro s t h
    rw [matchRe] at h
    obtain ⟨u, hu, rfl⟩ := List.mem_map.mp h
    exact ih s u hu


theorem inside_ext (B : List Nat) (s : MState) : inside B (ext B s) = true := by
  simp [inside, ext]

theorem filter_inside_nil (B : List Nat) (l : List MState)
    (h : ∀ t ∈ l, t.rest.length < B.length) : l.filter (inside B) = [] := by
  rw [List.filter_eq_nil_iff]
  intro t ht
  have := h t ht
  simp only [inside, decide_eq_true_eq]
  omega

theorem shorter_ext (B : List Nat) (s : MState) (l : List MState) :
    (l.map (ext B)).filter (fun t => decide (t.rest.length < (ext B s).rest.length)) =
      (l.filter (fun t => decide (t.rest.length < s.rest.length))).map (ext B) := by
  induction l with
  | nil => rfl
  | cons a l ih =>
    have : decide ((ext B a).rest.length < (ext B s).rest.length) =
        decide (a.rest.length < s.rest.length) := by
      simp [ext]
    simp only [List.map_cons, List.filter_cons, this, ih]
    split <;> rfl

/-- The iteration on a text that goes on: the rounds that stay before the continuation are
those on the text alone, whatever the fuel. -/
theorem starLoop_ext (B : List Nat) (step : MState → List MState)
    (hstep : ∀ s, (step (ext B s)).filter (inside B) = (step s).map (ext B)) :
    ∀ (n m : Nat) (s : MState), s.rest.length ≤ n → s.rest.length + B.length ≤ m →
      (starLoop step m (ext B s)).filter (inside B) = (starLoop step n s).map (ext B) := by
  have hdrop : ∀ (m : Nat) (l : List MState) (bound : Nat),
      ((l.filter (fun t => decide (t.rest.length < bound))).flatMap (starLoop step m)).filter
        (inside B) =
      ((l.filter (inside B)).filter (fun t => decide (t.rest.length < bound))).flatMap
        (fun u => (starLoop step m u).filter (inside B)) := by
    intro m l bound
    rw [filter_flatMap', flatMap_filter_drop _ _ (inside B), List.filter_filter,
      List.filter_filter]
    · congr 1
      apply List.filter_congr
      intro x _
      exact Bool.and_comm _ _
    · intro u _ hu
      apply filter_inside_nil
      intro t ht
      have h1 := starLoop_rest_le step m u t ht
      simp only [inside, decide_eq_false_iff_not, not_le] at hu
      omega
  intro n
  induction n with
  | zero =>
    intro m s hn hm
    have hs : s.rest = [] := List.length_eq_zero.mp (Nat.le_zero.mp hn)
    cases m with
    | zero =>
      simp only [starLoop, List.filter_cons, inside_ext, if_true, List.filter_nil, List.map_cons,
        List.map_nil]
    | succ m =>
      simp only [starLoop, List.filter_append]
      rw [filter_inside_nil]
      · simp only [List.nil_append, List.filter_cons, inside_ext, if_true, List.filter_nil,
          List.map_cons, List.map_nil]
      · intro t ht
        obtain ⟨u, hu, ht⟩ := List.mem_flatMap.mp ht
        have h1 := starLoop_rest_le step m u t ht
        have h2 : u.rest.length < (ext B s).rest.length :=
          of_decide_eq_true (List.mem_filter.mp hu).2
        simp only [ext, hs, List.nil_append] at h2
        omega
  | succ n ih =>
    intro m s hn hm
    cases m with
    | zero =>
      have hs : s.rest = [] := List.length_eq_zero.mp (by omega)
      have hnone : (step s).filter (fun t => decide (t.rest.length < s.rest.length)) = [] := by
        rw [List.filter_eq_nil_iff]
        intro t _
        simp [hs]
      simp only [starLoop, hnone, List.flatMap_nil, List.nil_append, List.filter_cons,
        inside_ext, if_true, List.filter_nil, List.map_cons, List.map_nil]
    | succ m =>
      simp only [starLoop, List.filter_append]
      rw [hdrop, hstep, shorter_ext, flatMap_map', List.map_append, map_flatMap']
      congr 1
      · apply flatMap_congr_mem
        intro u hu
        have h2 : u.rest.length < s.rest.length :=
          of_decide_eq_true (List.mem_filter.mp hu).2
        exact ih m u (by omega) (by omega)
      · simp only [List.filter_cons, inside_ext, if_true, List.filter_nil, List.map_cons,
          List.map_nil]

/-- Matching on a text that goes on with `B`: the matches that end before `B` are the matches
on the text alone, in the same order. -/
theorem matchRe_ext (B : List Nat) (re : Regex) : ∀ (s : MState),
    (matchRe re (ext B s)).filter (inside B) = (matchRe re s).map (ext B) := by
  induction re with
  | empty =>
    intro s
    simp only [matchRe, List.filter_cons, inside_ext, if_true, List.filter_nil, List.map_cons,
      List.map_nil]
  | byte c =>
    intro s
    obtain ⟨b, r, cp⟩ := s
    cases r with
    | nil =>
      cases B with
      | nil => rfl
      | cons x B =>
        simp only [matchRe, ext, List.nil_append, List.map_nil]
        split
        · simp [inside]
        · rfl
    | cons x r =>
      simp only [matchRe, ext, List.cons_append]
      split
      · simp [inside, ext]
      · rfl
  | cls p =>
    intro s
    obtain ⟨b, r, cp⟩ := s
    cases r with
    | nil =>
      cases B with
      | nil => rfl
      | cons x B =>
        simp only [matchRe, ext, List.nil_append, List.map_nil]
        split
        · simp [inside]
        · rfl
    | cons x r =>
      simp only [matchRe, ext, List.cons_append]
      split
      · simp [inside, ext]
      · rfl
  | bol =>
    intro s
    have hb : (ext B s).bol = s.bol := rfl
    simp only [matchRe, hb]
    split
    · simp only [List.filter_cons, inside_ext, if_true, List.filter_nil, List.map_cons,
        List.map_nil]
    · rfl
  | seq a b iha ihb =>
    intro s
    rw [matchRe, filter_flatMap', flatMap_filter_drop _ _ (inside B), iha, flatMap_map', matchRe,
      map_flatMap']
    · apply flatMap_congr_mem
      intro u _
      exact ihb u
    · intro u _ hu
      apply filter_inside_nil
      intro t ht
      have h1 := matchRe_rest_le b u t ht
      simp only [inside, decide_eq_false_iff_not, not_le] at hu
      omega
  | alt a b iha ihb =>
    intro s
    rw [matchRe, List.filter_append, iha, ihb, matchRe, List.map_append]
  | star a ih =>
    intro s
    rw [matchRe, matchRe]
    exact starLoop_ext B (matchRe a) ih s.rest.length (ext B s).rest.length s (le_refl _)
      (by simp [ext])
  | group i a ih =>
    intro s
    rw [matchRe, matchRe, List.filter_map]
    have hcomp : (inside B ∘ fun t : MState =>
        { t with caps := (i, (ext B s).rest.take ((ext B s).rest.length - t.rest.length)) ::
          t.caps }) = inside B := by
      funext t
      rfl
    rw [hcomp, ih, List.map_map, List.map_map]
    apply List.map_congr_left
    intro t _
    have hle : t.rest.length ≤ s.rest.length := by
      have := matchRe_rest_le a s t (by assumption)
      exact this
    simp only [Function.comp, ext, List.length_append]
    have h1 : s.rest.length + B.length - (t.rest.length + B.length) =
        s.rest.length - t.rest.length := by omega
    rw [h1, List.take_append_of_le_length (by omega)]


theorem matchAt_ext_none (re : Regex) (b : Bool) (X B : List Nat)
    (h : matchAt re b (X ++ B) = none) : matchAt re b X = none := by
  have key := matchRe_ext B re ⟨b, X, []⟩
  have hL : matchRe re ⟨b, X ++ B, []⟩ = [] := by
    unfold matchAt at h
    exact List.head?_eq_none_iff.mp h
  have e : ext B ⟨b, X, []⟩ = ⟨b, X ++ B, []⟩ := rfl
  rw [e, hL, List.filter_nil] at key
  have := List.map_eq_nil_iff.mp key.symm
  unfold matchAt
  rw [this]
  rfl

theorem matchAt_ext_some (re : Regex) (b : Bool) (X B : List Nat) (m : MState)
    (h : matchAt re b (X ++ B) = some m) (hin : B.length ≤ m.rest.length) :
    ∃ m', matchAt re b X = some m' ∧ m = ext B m' := by
  have key := matchRe_ext B re ⟨b, X, []⟩
  have e : ext B ⟨b, X, []⟩ = ⟨b, X ++ B, []⟩ := rfl
  unfold matchAt at h
  obtain ⟨tl, hL⟩ : ∃ tl, matchRe re ⟨b, X ++ B, []⟩ = m :: tl := by
    cases hc : matchRe re ⟨b, X ++ B, []⟩ with
    | nil => rw [hc] at h; simp at h
    | cons a tl =>
      rw [hc] at h
      simp only [List.head?_cons, Option.some.injEq] at h
      exact ⟨tl, by rw [h]⟩
  have hi : inside B m = true := by simp [inside, hin]
  rw [e, hL, List.filter_cons, hi] at key
  simp only [if_true] at key
  cases hc : matchRe re ⟨b, X, []⟩ with
  | nil => rw [hc] at key; simp at key
  | cons m' tl' =>
    rw [hc, List.map_cons] at key
    refine ⟨m', ?_, ?_⟩
    · unfold matchAt
      rw [hc]
      rfl
    · exact (List.cons.inj key).1

theorem matchAt_rest_le (re : Regex) (b : Bool) (X : List Nat) (m : MState)
    (h : matchAt re b X = some m) : m.rest.length ≤ X.length := by
  unfold matchAt at h
  have := matchRe_rest_le re ⟨b, X, []⟩ m (List.mem_of_mem_head? h)
  exact this

theorem oneLine_iff (w : List Nat) (h : oneLine w = true) :
    ∃ u, w = u ++ [10] ∧ ∀ x ∈ u, x ≠ 10 := by
  unfold oneLine at h
  rw [Bool.and_eq_true] at h
  obtain ⟨h1, h2⟩ := h
  rcases List.eq_nil_or_concat w with h0 | ⟨u, x, hu⟩
  · rw [h0] at h1
    simp at h1
  · rw [List.concat_eq_append] at hu
    subst hu
    simp at h1 h2
    exact ⟨u, by rw [h1], h2⟩

/-- A match of one line, in a text whose part `X` ends with LF, ends within `X`. -/
theorem oneLine_inside (X B : List Nat) (k : Nat) (hX : X.getLast? = some 10)
    (hk2 : k ≤ (X ++ B).length) (h : oneLine ((X ++ B).take k) = true) : k ≤ X.length := by
  obtain ⟨u, hu, hno⟩ := oneLine_iff _ h
  by_contra hk
  have hk' : X.length < k := by omega
  have hlen : ((X ++ B).take k).length = u.length + 1 := by rw [hu]; simp
  have hXu : X.length ≤ u.length := by
    have h2 : ((X ++ B).take k).length = min k (X ++ B).length := List.length_take _ _
    rw [Nat.min_eq_left hk2] at h2
    omega
  have p1 : u <+: X ++ B := by
    have : (X ++ B).take k <+: X ++ B := List.take_prefix _ _
    rw [hu] at this
    exact (List.prefix_append u [10]).trans this
  have p2 : X <+: u := List.prefix_of_prefix_length_le (List.prefix_append X B) p1 hXu
  have : (10 : Nat) ∈ X := List.mem_of_mem_getLast? hX
  exact hno 10 (p2.subset this) rfl


theorem endsLF_append (a b : List Nat) (ha : endsLF a = true) (hb : endsLF b = true) :
    endsLF (a ++ b) = true := by
  unfold endsLF at *
  cases b with
  | nil => simpa using ha
  | cons x b =>
    simp only [List.isEmpty_cons, Bool.false_or, beq_iff_eq] at hb
    simp [List.getLast?_append, hb]

theorem endsLF_of_getLast (a : List Nat) (h : a.getLast? = some 10) : endsLF a = true := by
  simp [endsLF, h]

theorem getLast?_cons_ne (a : Nat) (l : List Nat) (h : l ≠ []) :
    (a :: l).getLast? = l.getLast? := by
  cases l with
  | nil => exact absurd rfl h
  | cons b l => rw [List.getLast?_cons_cons]

theorem lineMatches_cons (re : Regex) (tmpl : List TItem) (bol : Bool) (c : Nat) (r : List Nat)
    (h : lineMatches re tmpl bol (c :: r) = true) : lineMatches re tmpl (c == 10) r = true := by
  rw [lineMatches, Bool.and_eq_true] at h
  exact h.2

theorem lineMatches_none (re : Regex) (tmpl : List TItem) (c : Nat) (r : List Nat)
    (h : lineMatches re tmpl false (c :: r) = true) : matchAt re false (c :: r) = none := by
  rw [lineMatches, Bool.and_eq_true] at h
  cases hm : matchAt re false (c :: r) with
  | none => rfl
  | some m =>
    rw [hm] at h
    simp at h

theorem lineMatches_some (re : Regex) (tmpl : List TItem) (bol : Bool) (c : Nat) (r : List Nat)
    (m : MState) (h : lineMatches re tmpl bol (c :: r) = true)
    (hm : matchAt re bol (c :: r) = some m) :
    bol = true ∧ oneLine ((c :: r).take ((c :: r).length - m.rest.length)) = true ∧
      endsLF (expand tmpl m.caps) = true ∧ m.rest.length < (c :: r).length := by
  rw [lineMatches, Bool.and_eq_true, hm] at h
  have h1 := h.1
  simp only [Bool.and_eq_true] at h1
  refine ⟨h1.1.1, h1.1.2, h1.2, ?_⟩
  obtain ⟨u, hu, _⟩ := oneLine_iff _ h1.1.2
  have hl := congrArg List.length hu
  rw [List.length_take] at hl
  simp only [List.length_append, List.length_singleton] at hl
  have := matchAt_rest_le re bol (c :: r) m hm
  omega

/-- The scan does not look at `am` where every match takes a line. -/
theorem replaceFrom_am (re : Regex) (tmpl : List TItem) (T : List Nat) (bol am : Bool)
    (h : lineMatches re tmpl bol T = true) :
    replaceFrom re tmpl bol 0 am T = replaceFrom re tmpl bol 0 false T := by
  cases T with
  | nil =>
    rw [lineMatches, Option.isNone_iff_eq_none] at h
    simp only [replaceFrom, h]
  | cons c r =>
    cases hm : matchAt re bol (c :: r) with
    | none => simp only [replaceFrom, hm]
    | some m =>
      obtain ⟨_, _, _, hlt⟩ := lineMatches_some re tmpl bol c r m h hm
      simp only [replaceFrom, hm, if_pos hlt]

/-- The scan of a text whose first part `X` is empty or ends with LF, where every match takes
one line: it is the scan of `X` followed by the scan of the rest; the scan of `X` gives bytes
that are empty or end with LF. -/
theorem replaceFrom_split (re : Regex) (tmpl : List TItem) (hE : matchAt re true [] = none)
    (B : List Nat) : ∀ (X : List Nat) (bol : Bool) (skip : Nat) (am : Bool),
    (X = [] → bol = true ∧ skip = 0) → (X ≠ [] → X.getLast? = some 10) → skip ≤ X.length →
    lineMatches re tmpl bol (X ++ B) = true →
    replaceFrom re tmpl bol skip am (X ++ B) =
        replaceFrom re tmpl bol skip am X ++ replaceFrom re tmpl true 0 false B ∧
      endsLF (replaceFrom re tmpl bol skip am X) = true ∧
      (bol = false → skip = 0 → X ≠ [] → replaceFrom re tmpl bol skip am X ≠ []) ∧
      lineMatches re tmpl true B = true := by
  intro X
  induction X with
  | nil =>
    intro bol skip am h0 _ _ hl
    obtain ⟨hb, hs⟩ := h0 rfl
    subst hb hs
    rw [List.nil_append] at hl ⊢
    have e0 : replaceFrom re tmpl true 0 am [] = [] := by simp only [replaceFrom, hE]
    rw [e0, List.nil_append]
    exact ⟨replaceFrom_am re tmpl B true am hl, rfl, fun _ _ h => absurd rfl h, hl⟩
  | cons c X ih =>
    intro bol skip am _ hlast hskip hl
    have hlast := hlast (List.cons_ne_nil _ _)
    have hX1 : X = [] → (c == 10) = true := by
      intro h
      rw [h] at hlast
      simpa using hlast
    have hX2 : X ≠ [] → X.getLast? = some 10 := by
      intro h
      rw [getLast?_cons_ne _ _ h] at hlast
      exact hlast
    have hl' := lineMatches_cons re tmpl bol c (X ++ B) hl
    cases skip with
    | succ s =>
      have hs : s ≤ X.length := by simpa using hskip
      obtain ⟨d1, d2, _, d4⟩ := ih (c == 10) s true
        (fun h => ⟨hX1 h, by rw [h] at hs; simpa using hs⟩) hX2 hs hl'
      have eL : replaceFrom re tmpl bol (s + 1) am (c :: (X ++ B)) =
          replaceFrom re tmpl (c == 10) s true (X ++ B) := by rw [replaceFrom]
      have eR : replaceFrom re tmpl bol (s + 1) am (c :: X) =
          replaceFrom re tmpl (c == 10) s true X := by rw [replaceFrom]
      rw [List.cons_append, eL, eR]
      exact ⟨d1, d2, fun _ h => absurd h (Nat.succ_ne_zero s), d4⟩
    | zero =>
      cases hm : matchAt re bol (c :: (X ++ B)) with
      | none =>
        have hm' : matchAt re bol (c :: X) = none := matchAt_ext_none re bol (c :: X) B hm
        obtain ⟨d1, d2, d3, d4⟩ := ih (c == 10) 0 false (fun h => ⟨hX1 h, rfl⟩) hX2
          (Nat.zero_le _) hl'
        have eL : replaceFrom re tmpl bol 0 am (c :: (X ++ B)) =
            c :: replaceFrom re tmpl (c == 10) 0 false (X ++ B) := by
          simp only [replaceFrom, hm]
        have eR : replaceFrom re tmpl bol 0 am (c :: X) =
            c :: replaceFrom re tmpl (c == 10) 0 false X := by
          simp only [replaceFrom, hm']
        rw [List.cons_append, eL, eR]
        refine ⟨by rw [d1]; rfl, ?_, fun _ _ _ => List.cons_ne_nil _ _, d4⟩
        by_cases hr : replaceFrom re tmpl (c == 10) 0 false X = []
        · rw [hr]
          by_cases hc : c = 10
          · rw [hc]; rfl
          · have hcb : (c == 10) = false := by simpa using hc
            have hXne : X ≠ [] := by
              intro h
              have := hX1 h
              rw [hcb] at this
              exact absurd this (by decide)
            rw [hcb] at d3 hr
            exact absurd hr (d3 rfl rfl hXne)
        · apply endsLF_of_getLast
          rw [getLast?_cons_ne _ _ hr]
          unfold endsLF at d2
          simpa [hr] using d2
      | some m =>
        obtain ⟨hb, h1, h2, hlt⟩ := lineMatches_some re tmpl bol c (X ++ B) m hl hm
        have hk := oneLine_inside (c :: X) B _ hlast (Nat.sub_le _ _) h1
        have hle := matchAt_rest_le re bol (c :: (X ++ B)) m hm
        simp only [List.length_cons, List.length_append] at hk hle hlt
        obtain ⟨m', hm', hmm⟩ := matchAt_ext_some re bol (c :: X) B m hm (by omega)
        have hrest : m.rest = m'.rest ++ B := by rw [hmm]; rfl
        have hcaps : m.caps = m'.caps := by rw [hmm]; rfl
        have hrl : m.rest.length = m'.rest.length + B.length := by rw [hrest]; simp
        have hlt' : m'.rest.length < (c :: X).length := by
          simp only [List.length_cons]
          omega
        have hsk : (X ++ B).length - m.rest.length = X.length - m'.rest.length := by
          simp only [List.length_append]
          omega
        obtain ⟨d1, d2, _, d4⟩ := ih (c == 10) (X.length - m'.rest.length) true
          (fun h => ⟨hX1 h, by rw [h]; simp⟩) hX2 (Nat.sub_le _ _) hl'
        have hltL : m.rest.length < (c :: (X ++ B)).length := by
          simp only [List.length_cons, List.length_append]
          omega
        have eL : replaceFrom re tmpl bol 0 am (c :: (X ++ B)) =
            expand tmpl m.caps ++
              replaceFrom re tmpl (c == 10) (X.length - m'.rest.length) true (X ++ B) := by
          simp only [replaceFrom, hm, if_pos hltL, hsk]
        have eR : replaceFrom re tmpl bol 0 am (c :: X) =
            expand tmpl m.caps ++
              replaceFrom re tmpl (c == 10) (X.length - m'.rest.length) true X := by
          simp only [replaceFrom, hm', if_pos hlt', hcaps]
        rw [List.cons_append, eL, eR]
        refine ⟨by rw [d1, List.append_assoc], endsLF_append _ _ h2 d2, ?_, d4⟩
        intro hf
        rw [hb] at hf
        exact absurd hf (by decide)


/-- Where the expression is not found, the scan copies the text. -/
theorem replaceFrom_noFind (re : Regex) (tmpl : List TItem) : ∀ (T : List Nat) (bol am : Bool),
    findFrom re bol T = false → replaceFrom re tmpl bol 0 am T = T := by
  intro T
  induction T with
  | nil =>
    intro bol am h
    rw [findFrom] at h
    cases hm : matchAt re bol [] with
    | none => simp only [replaceFrom, hm]
    | some m => rw [hm] at h; simp at h
  | cons c r ih =>
    intro bol am h
    rw [findFrom, Bool.or_eq_false_iff] at h
    cases hm : matchAt re bol (c :: r) with
    | none =>
      simp only [replaceFrom, hm]
      rw [ih (c == 10) false h.2]
    | some m => rw [hm] at h; simp at h

/-- The test before `ReplaceAll` changes nothing. -/
theorem guarded_replace (re : Regex) (tmpl : List TItem) (b : List Nat) :
    (if Find re b then ReplaceAll re b tmpl else b) = ReplaceAll re b tmpl := by
  cases h : Find re b with
  | true => rfl
  | false =>
    simp only [Bool.false_eq_true, if_false]
    exact (replaceFrom_noFind re tmpl b true false h).symm

theorem applyRule_eq (b : List Nat) (re : Regex) : applyRule b re = ReplaceAll re b [] :=
  guarded_replace re [] b

theorem getLast_of_endsLF (X : List Nat) (h : endsLF X = true) (hne : X ≠ []) :
    X.getLast? = some 10 := by
  unfold endsLF at h
  cases X with
  | nil => exact absurd rfl hne
  | cons a l => simpa using h

/-- A rule whose matches take one line each rewrites a run of chunks chunk by chunk. -/
theorem ReplaceAll_chunks (re : Regex) (tmpl : List TItem) (hE : matchAt re true [] = none) :
    ∀ (chunks : List (List Nat)), (∀ c ∈ chunks, endsLF c = true) →
      lineMatches re tmpl true chunks.flatten = true →
      ReplaceAll re chunks.flatten tmpl = (chunks.map (fun c => ReplaceAll re c tmpl)).flatten ∧
        ∀ c ∈ chunks, endsLF (ReplaceAll re c tmpl) = true := by
  intro chunks
  induction chunks with
  | nil =>
    intro _ _
    refine ⟨?_, fun c hc => absurd hc (List.not_mem_nil c)⟩
    simp only [List.flatten_nil, List.map_nil, ReplaceAll, replaceFrom, hE]
  | cons X rest ih =>
    intro hch hl
    rw [List.flatten_cons] at hl
    obtain ⟨d1, d2, _, d4⟩ := replaceFrom_split re tmpl hE rest.flatten X true 0 false
      (fun _ => ⟨rfl, rfl⟩)
      (fun hne => getLast_of_endsLF X (hch X (List.mem_cons_self _ _)) hne) (Nat.zero_le _) hl
    obtain ⟨i1, i2⟩ := ih (fun c hc => hch c (List.mem_cons_of_mem _ hc)) d4
    refine ⟨?_, ?_⟩
    · rw [List.flatten_cons, List.map_cons, List.flatten_cons, ← i1]
      exact d1
    · intro c hc
      rcases List.mem_cons.mp hc with h | h
      · rw [h]; exact d2
      · exact i2 c h

/-- The omit rules, each matching line by line, rewrite a run of chunks chunk by chunk. -/
theorem rules_chunks : ∀ (rs : List Regex) (chunks : List (List Nat)),
    (∀ c ∈ chunks, endsLF c = true) → rulesLocal rs chunks.flatten = true →
    rs.foldl applyRule chunks.flatten = (chunks.map (fun c => rs.foldl applyRule c)).flatten := by
  intro rs
  induction rs with
  | nil =>
    intro chunks _ _
    simp only [List.foldl_nil, List.map_id']
  | cons re rs ih =>
    intro chunks hch hl
    rw [rulesLocal, Bool.and_eq_true, ruleLocal, Bool.and_eq_true,
      Option.isNone_iff_eq_none] at hl
    obtain ⟨⟨hE, hlm⟩, hrest⟩ := hl
    obtain ⟨d1, d2⟩ := ReplaceAll_chunks re [] hE chunks hch hlm
    have e1 : applyRule chunks.flatten re =
        (chunks.map (fun c => applyRule c re)).flatten := by
      rw [applyRule_eq, d1]
      congr 1
      apply List.map_congr_left
      intro c _
      exact (applyRule_eq c re).symm
    rw [List.foldl_cons, e1]
    rw [e1] at hrest
    rw [ih (chunks.map (fun c => applyRule c re)) ?_ hrest, List.map_map]
    · rfl
    · intro c hc
      obtain ⟨c0, hc0, rfl⟩ := List.mem_map.mp hc
      rw [applyRule_eq]
      exact d2 c0 hc0

/-- The rewriting of `DoWriteReplace`, where no match of a rule extends over more than one
line, rewrites a run of chunks chunk by chunk. -/
theorem filter_chunks (ic : ImapConnection) (chunks : List (List Nat))
    (hch : ∀ c ∈ chunks, endsLF c = true) (hloc : Local ic chunks.flatten = true) :
    (chunks.map (filter ic)).flatten = filter ic chunks.flatten := by
  rw [Local, Bool.and_eq_true, ruleLocal, Bool.and_eq_true, Option.isNone_iff_eq_none] at hloc
  obtain ⟨⟨hE, hlm⟩, hrest⟩ := hloc
  obtain ⟨d1, d2⟩ := ReplaceAll_chunks ic.capRe capTemplate hE chunks hch hlm
  rw [guarded_replace, d1] at hrest
  have hf : ∀ b, filter ic b = ic.res.foldl applyRule (ReplaceAll ic.capRe b capTemplate) := by
    intro b
    rw [filter]
    simp only [guarded_replace]
  rw [hf, d1, rules_chunks ic.res _ ?_ hrest, List.map_map]
  · congr 1
    apply List.map_congr_left
    intro c _
    exact hf c
  · intro c hc
    obtain ⟨c0, hc0, rfl⟩ := List.mem_map.mp hc
    exact d2 c0 hc0


theorem stream_cons (r : ReadResult) (rs : List ReadResult) :
    stream (r :: rs) = r.data ++ stream rs := by
  simp [stream]

/-- Reads that together return no more than the buffer holds all fit the slice offered. -/
theorem listFits_of_small (ic : ImapConnection) : ∀ (reads : List ReadResult) (v : CopyState)
    (S : List Nat), Traced S v → WellFormed v → S.length + (stream reads).length ≤ bufSize →
    listFits ic v reads = true := by
  intro reads
  induction reads with
  | nil => intro v S _ _ _; rfl
  | cons r rs ih =>
    intro v S hT hW hlen
    rw [stream_cons, List.length_append] at hlen
    rw [listFits, Bool.and_eq_true]
    constructor
    · cases hst : v.status with
      | returned e => rfl
      | panicked => rfl
      | running =>
        have h1 := (hT.2 hst).1
        have h2 := congrArg List.length h1
        rw [List.length_append] at h2
        have h3 := hW.1
        simp only [bne_self_eq_false, Bool.false_or, decide_eq_true_eq]
        omega
    · exact ih (listStep ic v r) (S ++ r.data) (traced_listStep ic v r S hT hW)
        (wellFormed_listStep ic v r hW) (by rw [List.length_append]; omega)

theorem endsLF_of_rn (b : List Nat) (h : rn <:+ b) : endsLF b = true := by
  obtain ⟨t, rfl⟩ := h
  simp [endsLF, rn]

theorem flatten_snoc (l : List (List Nat)) (t : List Nat) :
    (l ++ [t]).flatten = l.flatten ++ t := by
  simp

/-- What arrives downstream of a stream of at most 65534 bytes, in which no match of a rule
extends over more than one line: the complete lines rewritten as one chunk, then the tail. -/
theorem delivered_small (ic : ImapConnection) (hw : ic.localConn = fullWrite)
    (frags : List (List Nat)) (hlen : frags.flatten.length ≤ bufSize - 2)
    (hloc : Local ic (lines frags.flatten).flatten = true) :
    delivered (listLoop ic listInit (script frags)) =
      filter ic (lines frags.flatten).flatten ++ tail frags.flatten ∧
    (listLoop ic listInit (script frags)).status = .returned none := by
  have hfit : listFits ic listInit (script frags) = true := by
    apply listFits_of_small ic (script frags) listInit [] traced_listInit wellFormed_listInit
    rw [stream_script, List.length_nil, bufSize_eq] at *
    omega
  obtain ⟨hst, ⟨hout, _⟩, hlog, hh, l, t, hsplit, hnf, htn⟩ := listLoop_script ic hw frags hfit
  refine ⟨?_, hst⟩
  have hS : (lines frags.flatten).flatten ++ tail frags.flatten = frags.flatten := by
    rw [lines, tail, splitLines_flatten, List.nil_append]
  by_cases ht : (tail frags.flatten).length ≤ bufSize - 3
  · have hl : ∀ x ∈ lines frags.flatten, x.length ≤ bufSize - 2 := by
      intro x hx
      have h1 : x.length ≤ (lines frags.flatten).flatten.length := by
        obtain ⟨a, b, hab⟩ := List.append_of_mem hx
        rw [hab]
        simp only [List.flatten_append, List.flatten_cons, List.length_append]
        omega
      have h2 := congrArg List.length hS
      rw [List.length_append] at h2
      omega
    obtain ⟨_, hX, hO, _⟩ := listLoop_lines ic hw frags hfit hl ht
    have hends : ∀ c ∈ ((listLoop ic listInit (script frags)).log.filter
        (fun e => e.kind = .filtered)).map Chunk.bytes, endsLF c = true := by
      intro c hc
      obtain ⟨e, he, rfl⟩ := List.mem_map.mp hc
      obtain ⟨he1, he2⟩ := List.mem_filter.mp he
      have hk : e.kind = .filtered := of_decide_eq_true he2
      obtain ⟨pre, post, hp⟩ := mem_split_log _ e he1
      obtain ⟨_, _, _, h4⟩ := hlog pre e post hp
      rw [hk] at h4
      exact endsLF_of_rn _ h4.2.1
    rw [← hX] at hloc ⊢
    rw [delivered, hO, flatten_snoc, filter_chunks ic _ hends hloc]
  · have h2 := congrArg List.length hS
    rw [List.length_append] at h2
    have hl0 : (lines frags.flatten).flatten = [] := by
      apply List.length_eq_zero.mp
      rw [bufSize_eq] at hlen ht
      omega
    rw [hl0, List.nil_append] at hS
    have hno : LastIndex frags.flatten rn = none := by
      rw [LastIndex_eq_none_iff, ← hS]
      exact splitLines_tail _ [] (by simp [rn])
    have hnofil := no_filtered_of_no_rn _ _ hlog hno
    rw [hl0] at hloc ⊢
    have hf0 : filter ic [] = [] := by
      have := filter_chunks ic [] (fun c hc => absurd hc (List.not_mem_nil c)) hloc
      simpa using this.symm
    rw [hf0, List.nil_append, hS, delivered, hout,
      sent_eq_handed ic _ (fun e he hk => absurd hk (hnofil e he)), hh]


theorem LastIndex_append_rn (body : List Nat) (h : ∀ x ∈ body, x ≠ 10) :
    LastIndex (body ++ rn) rn = some body.length := by
  induction body with
  | nil => rfl
  | cons c r ih =>
    rw [List.cons_append, LastIndex, ih (fun x hx => h x (List.mem_cons_of_mem _ hx))]
    rfl

/-- A line of 65536 bytes arriving in one read is handed to the filter whole; arriving as
65534 bytes and then its CRLF, it is written by the overflow branch. -/
theorem long_line_runs (ic : ImapConnection) (hw : ic.localConn = fullWrite) (body : List Nat)
    (hbl : body.length = 65534) (hb10 : ∀ x ∈ body, x ≠ 10) (hrn : filter ic rn = rn) :
    delivered (listLoop ic listInit (script [body ++ rn])) = filter ic (body ++ rn) ∧
    delivered (listLoop ic listInit (script [body, rn])) = body ++ rn := by
  have hbn : body ≠ [] := by
    intro h; rw [h] at hbl; simp at hbl
  constructor
  · have hL : LastIndex ([] ++ (body ++ rn)) rn = some body.length := by
      rw [List.nil_append]
      exact LastIndex_append_rn body hb10
    have htake : ([] ++ (body ++ rn)).take (body.length + 2) = body ++ rn := by
      rw [List.nil_append]
      apply List.take_of_length_le
      simp [rn]
    have hdrop : ([] ++ (body ++ rn)).drop (body.length + 2) = [] := by
      rw [List.nil_append]
      apply List.drop_of_length_le
      simp [rn]
    simp only [script, List.map_cons, List.map_nil, List.cons_append, List.nil_append, listLoop,
      List.foldl_cons, List.foldl_nil]
    rw [listInit_eq]
    rw [listStep_nil ic hw _ (body ++ rn) rfl (by simp [rn])
      (by simp only [List.length_append, hbl, rn, bufSize_eq]
          exact Nat.le_of_ble_eq_true rfl)]
    simp only [hL]
    rw [listStep_eof ic hw _ rfl]
    rw [List.nil_append] at htake hdrop
    simp only [delivered, List.nil_append, List.flatten_append,
      List.flatten_cons, List.flatten_nil, List.append_nil, htake, hdrop]
  · have hL1 : LastIndex ([] ++ body) rn = none := LastIndex_of_no_lf _ hb10
    have hL2 : LastIndex ([] ++ rn) rn = some 0 := rfl
    have htake : ([] ++ rn).take (0 + 2) = rn := rfl
    have hdrop : ([] ++ rn).drop (0 + 2) = [] := rfl
    simp only [script, List.map_cons, List.map_nil, List.cons_append, List.nil_append, listLoop,
      List.foldl_cons, List.foldl_nil]
    rw [listInit_eq]
    rw [listStep_nil ic hw _ body rfl hbn (by rw [hbl, bufSize_eq]; exact Nat.le_of_ble_eq_true rfl)]
    simp only [hL1]
    rw [if_neg (by rw [hbl, bufSize_eq]; decide)]
    rw [listStep_nil ic hw _ rn rfl (by simp [rn])
      (by rw [bufSize_eq]; exact Nat.le_of_ble_eq_true rfl)]
    simp only [hL2]
    rw [listStep_eof ic hw _ rfl]
    have htake2 : rn.take (0 + 2) = rn := rfl
    have hdrop2 : rn.drop (0 + 2) = [] := rfl
    simp only [delivered, List.nil_append, List.flatten_append,
      List.flatten_cons, List.flatten_nil, List.append_nil, htake2, hdrop2, hrn]


theorem delivered_CopyProxy (ic : ImapConnection) (reads : List ReadResult) :
    delivered (CopyProxy ic reads) = delivered (listLoop ic listInit reads) := by
  unfold delivered
  rw [(CopyProxy_fields ic reads).2.1]

/-! ## The claims -/

/-- C1: lossless forwarding.  The reads deliver the fragments `frags` (of any sizes that fit
the slice offered) and then report end-of-stream; every write completes.  If no rule matches
in any chunk handed to `DoWriteReplace`, the bytes written downstream are exactly the bytes
read, `CopyProxy` returns no error and `written` is the number of bytes read.  For a stream
without any CRLF no chunk is handed to the filter at all, so this holds for every rule set. -/
theorem C1_lossless_forwarding (ic : ImapConnection) (frags : List (List Nat))
    (hw : ic.localConn = fullWrite) (hfit : readsFit ic initState (script frags) = true) :
    ((∀ c ∈ chunks (CopyProxy ic (script frags)), NoRuleMatches ic c) →
      delivered (CopyProxy ic (script frags)) = frags.flatten ∧
      (CopyProxy ic (script frags)).status = .returned none ∧
      (CopyProxy ic (script frags)).sock.written = frags.flatten.length) ∧
    (LastIndex frags.flatten rn = none →
      chunks (CopyProxy ic (script frags)) = [] ∧
      delivered (CopyProxy ic (script frags)) = frags.flatten ∧
      (CopyProxy ic (script frags)).status = .returned none) := by
  obtain ⟨e1, e2, e3, _⟩ := CopyProxy_fields ic (script frags)
  rw [readsFit_init] at hfit
  obtain ⟨hst, ⟨hout, hwr⟩, hlog, hh, _⟩ := listLoop_script ic hw frags hfit
  have main : (∀ c ∈ chunks (CopyProxy ic (script frags)), NoRuleMatches ic c) →
      delivered (CopyProxy ic (script frags)) = frags.flatten ∧
      (CopyProxy ic (script frags)).status = .returned none ∧
      (CopyProxy ic (script frags)).sock.written = frags.flatten.length := by
    intro hno
    have hd : delivered (CopyProxy ic (script frags)) = frags.flatten := by
      unfold delivered
      rw [e2, hout, sent_eq_handed, hh]
      intro e he hk
      apply filter_of_noMatch
      apply hno
      unfold chunks
      rw [e1]
      exact List.mem_map_of_mem _ (List.mem_filter.mpr ⟨he, by simp [hk]⟩)
    refine ⟨hd, by rw [e3, hst], ?_⟩
    rw [e2, hwr, ← e2]
    exact congrArg List.length hd
  refine ⟨main, fun hcr => ?_⟩
  have hnf := no_filtered_of_no_rn _ _ hlog hcr
  have hc : chunks (CopyProxy ic (script frags)) = [] := by
    unfold chunks
    rw [e1, List.map_eq_nil_iff, List.filter_eq_nil_iff]
    intro e he
    simpa using hnf e he
  have := main (by rw [hc]; simp)
  exact ⟨hc, this.1, this.2.1⟩

set_option maxRecDepth 100000 in
/-- C1 at a concrete run: two fragments that split a line, then end-of-stream. -/
theorem C1_lossless_forwarding_witness :
    (Listener [Regex.lit (ascii "archive")] fullWrite).localConn = fullWrite ∧
    readsFit (Listener [Regex.lit (ascii "archive")] fullWrite) initState
      (script [ascii "a OK x\r", ascii "\nb"]) = true ∧
    delivered (CopyProxy (Listener [Regex.lit (ascii "archive")] fullWrite)
      (script [ascii "a OK x\r", ascii "\nb"])) = [ascii "a OK x\r", ascii "\nb"].flatten :=
  ⟨rfl, by decide,
    ((C1_lossless_forwarding (Listener [Regex.lit (ascii "archive")] fullWrite)
      [ascii "a OK x\r", ascii "\nb"] rfl (by decide)).1 (by decide)).1⟩

/-- C7: the working-buffer bound.  In a run in which every read returns at most as many bytes
as the slice it was offered, after any number `k` of iterations the array still has its 65536
cells, `wpos` is at most 65536, no slice expression was out of range, and a loop that is about
to read has `wpos` at most 65534, so that the slice offered has at least two bytes.  When an
iteration hands over a chunk and goes on, the bytes then buffered are the bytes that stood
behind the chunk, in their order, and all indices used lie within the array. -/
theorem C7_buffer_bound (ic : ImapConnection) (reads : List ReadResult)
    (hfit : readsFit ic initState reads = true) (k : Nat) :
    (CopyProxy ic (reads.take k)).buf.length = 65536 ∧
    (CopyProxy ic (reads.take k)).wpos ≤ 65536 ∧
    (CopyProxy ic (reads.take k)).status ≠ .panicked ∧
    ((CopyProxy ic (reads.take k)).status = .running →
      (CopyProxy ic (reads.take k)).wpos ≤ 65534) ∧
    ∀ (r : ReadResult) (idx : Nat), (CopyProxy ic (reads.take k)).status = .running →
      LastIndex (live (CopyProxy ic (reads.take k)) ++ r.data) rn = some idx →
      (iteration ic (CopyProxy ic (reads.take k)) r).status = .running →
      live (iteration ic (CopyProxy ic (reads.take k)) r) =
        (live (CopyProxy ic (reads.take k)) ++ r.data).drop (idx + 2) ∧
      (iteration ic (CopyProxy ic (reads.take k)) r).wpos =
        (CopyProxy ic (reads.take k)).wpos + r.data.length - (idx + 2) ∧
      idx + 2 ≤ (CopyProxy ic (reads.take k)).wpos + r.data.length ∧
      (CopyProxy ic (reads.take k)).wpos + r.data.length ≤ 65536 := by
  obtain ⟨hl, hwb⟩ := CopyProxy_bounds ic (reads.take k)
  obtain ⟨_, _, e3, e4⟩ := CopyProxy_fields ic (reads.take k)
  rw [readsFit_init] at hfit
  have hfk := listFits_take ic reads listInit k hfit
  have hW := wellFormed_listLoop ic (reads.take k) listInit wellFormed_listInit
  have hnp := listLoop_status ic (reads.take k) listInit wellFormed_listInit
    (by show Status.running ≠ Status.panicked; simp) hfk
  rw [← bufSize_eq]
  refine ⟨hl, hwb, by rw [e3]; exact hnp, ?_, ?_⟩
  · intro hrun
    rw [e3] at hrun
    have := (hW.2.2 hrun).1
    rw [← hW.1, ← e4] at this
    rw [bufSize_eq] at this
    exact this
  · intro r idx hrun hidx hrun'
    obtain ⟨h1, _, _⟩ := view_iteration ic (CopyProxy ic (reads.take k)) r hl hwb
    rw [live_eq_view, view_CopyProxy] at hidx
    have hs : (iteration ic (CopyProxy ic (reads.take k)) r).status
        = (view (iteration ic (CopyProxy ic (reads.take k)) r)).status := rfl
    have hwp : (iteration ic (CopyProxy ic (reads.take k)) r).wpos
        = (view (iteration ic (CopyProxy ic (reads.take k)) r)).wpos := rfl
    rw [hs, h1, view_CopyProxy] at hrun'
    rw [e3] at hrun
    have := listStep_compact ic _ r idx hW hrun hidx hrun'
    rw [live_eq_view, live_eq_view, h1, hwp, h1, view_CopyProxy, e4]
    exact this

set_option maxRecDepth 100000 in
/-- C7 at a concrete run: after the second read of three, a line has been handed over and
one byte is buffered. -/
theorem C7_buffer_bound_witness :
    readsFit (Listener [] fullWrite) initState
      [⟨ascii "a\r", .nil⟩, ⟨ascii "\nb", .nil⟩, ⟨[], .eof⟩] = true ∧
    (CopyProxy (Listener [] fullWrite)
      ([⟨ascii "a\r", .nil⟩, ⟨ascii "\nb", .nil⟩, ⟨[], .eof⟩].take 2)).wpos ≤ 65536 :=
  ⟨by decide,
    (C7_buffer_bound (Listener [] fullWrite)
      [⟨ascii "a\r", .nil⟩, ⟨ascii "\nb", .nil⟩, ⟨[], .eof⟩] (by decide) 2).2.1⟩

/-- C6, as amended: every chunk passed to `DoWriteReplace` is non-empty, ends with CRLF, is
the front of the bytes buffered at that moment up to and including their last CRLF, lies in
the stream right behind the bytes handed over before it, and begins at the first byte of the
stream, or right after a CRLF of the stream, or right after a write of the overflow branch. -/
theorem C6_filter_sees_complete_lines (ic : ImapConnection) (reads : List ReadResult)
    (pre : List Chunk) (e : Chunk) (post : List Chunk)
    (hlog : (CopyProxy ic reads).log = pre ++ e :: post) (hk : e.kind = .filtered) :
    e.bytes ≠ [] ∧ rn <:+ e.bytes ∧ e.bytes <+: e.held ∧
    LastIndex (e.held.drop e.bytes.length) rn = none ∧
    (handed pre ++ e.held) <+: stream reads ∧
    (handed pre = [] ∨ rn <:+ handed pre ∨ ∃ p o, pre = p ++ [o] ∧ o.kind = .overflow) := by
  have hT := traced_listLoop ic reads listInit [] traced_listInit wellFormed_listInit
  rw [List.nil_append] at hT
  rw [(CopyProxy_fields ic reads).1] at hlog
  obtain ⟨h1, h2, h3, h4⟩ := hT.1 pre e post hlog
  rw [hk] at h4
  exact ⟨h4.1, h4.2.1, h3, h4.2.2, h1, h2⟩

set_option maxRecDepth 100000 in
/-- C6 at a concrete run: a read of a line and a half hands over the line. -/
theorem C6_filter_sees_complete_lines_witness :
    (CopyProxy (Listener [] fullWrite) [⟨ascii "a\r\nb", .nil⟩]).log =
      [] ++ Chunk.mk .filtered (ascii "a\r\nb") (ascii "a\r\n") :: [] ∧
    (Chunk.mk .filtered (ascii "a\r\nb") (ascii "a\r\n")).kind = .filtered ∧
    rn <:+ (Chunk.mk .filtered (ascii "a\r\nb") (ascii "a\r\n")).bytes :=
  ⟨by decide, rfl,
    (C6_filter_sees_complete_lines (Listener [] fullWrite) [⟨ascii "a\r\nb", .nil⟩] []
      (Chunk.mk .filtered (ascii "a\r\nb") (ascii "a\r\n")) [] (by decide) rfl).2.1⟩

/-- C6, counterexample: one read of 65534 bytes `a` takes the overflow branch; the next read
`b\r\n` is then handed to the filter as a chunk that begins at offset 65534 of the stream,
which is neither its first byte nor preceded by CRLF. -/
theorem C6_counterexample :
    ¬ (∀ pre e post,
        (CopyProxy (Listener [] fullWrite)
          [⟨List.replicate 65534 97, .nil⟩, ⟨ascii "b\r\n", .nil⟩]).log = pre ++ e :: post →
        e.kind = .filtered → handed pre = [] ∨ rn <:+ handed pre) := by
  intro h
  have hlog := overflow_run (List.replicate 65534 97) (List.length_replicate _ _)
    (replicate_no_lf _)
  rw [← (CopyProxy_fields _ _).1] at hlog
  have := h [Chunk.mk .overflow (List.replicate 65534 97) (List.replicate 65534 97)]
    (Chunk.mk .filtered (ascii "b\r\n") (ascii "b\r\n")) [] hlog rfl
  rw [handed_single] at this
  rcases this with h0 | h1
  · have := congrArg List.length h0
    rw [List.length_replicate] at this
    exact absurd this (by decide)
  · exact not_suffix_of_no_lf _ (replicate_no_lf _) h1

/-- C10: lines that fit are always filtered.  When every complete line of the stream has at
most 65534 bytes with its CRLF and the tail behind the last CRLF at most 65533 bytes, then for
every fragmentation into reads that fit, with all writes completing, the overflow branch is
never taken, the chunks handed to the filter are together the complete lines of the stream,
the writes are the rewritten chunks followed by one unfiltered write of the tail, and
`CopyProxy` returns no error. -/
theorem C10_lines_that_fit (ic : ImapConnection) (frags : List (List Nat))
    (hw : ic.localConn = fullWrite) (hfit : readsFit ic initState (script frags) = true)
    (hl : ∀ l ∈ lines frags.flatten, l.length ≤ 65534)
    (ht : (tail frags.flatten).length ≤ 65533) :
    (∀ e ∈ (CopyProxy ic (script frags)).log, e.kind ≠ .overflow) ∧
    (chunks (CopyProxy ic (script frags))).flatten = (lines frags.flatten).flatten ∧
    (lines frags.flatten).flatten ++ tail frags.flatten = frags.flatten ∧
    (CopyProxy ic (script frags)).sock.out =
      (chunks (CopyProxy ic (script frags))).map (filter ic) ++ [tail frags.flatten] ∧
    (CopyProxy ic (script frags)).status = .returned none := by
  obtain ⟨e1, e2, e3, _⟩ := CopyProxy_fields ic (script frags)
  rw [readsFit_init] at hfit
  have := listLoop_lines ic hw frags hfit (by rw [bufSize_eq]; exact hl)
    (by rw [bufSize_eq]; exact ht)
  unfold chunks
  rw [e1, e2, e3]
  refine ⟨this.1, this.2.1, ?_, this.2.2.1, this.2.2.2⟩
  rw [lines, tail, splitLines_flatten, List.nil_append]

set_option maxRecDepth 100000 in
/-- C10 at a concrete run: two lines and a tail arriving in three fragments. -/
theorem C10_lines_that_fit_witness :
    (Listener [] fullWrite).localConn = fullWrite ∧
    readsFit (Listener [] fullWrite) initState
      (script [ascii "a\r", ascii "\nbc\r\nd", ascii "e"]) = true ∧
    (∀ l ∈ lines [ascii "a\r", ascii "\nbc\r\nd", ascii "e"].flatten, l.length ≤ 65534) ∧
    (tail [ascii "a\r", ascii "\nbc\r\nd", ascii "e"].flatten).length ≤ 65533 ∧
    (chunks (CopyProxy (Listener [] fullWrite)
      (script [ascii "a\r", ascii "\nbc\r\nd", ascii "e"]))).flatten =
      (lines [ascii "a\r", ascii "\nbc\r\nd", ascii "e"].flatten).flatten :=
  ⟨rfl, by decide, by decide, by decide,
    (C10_lines_that_fit (Listener [] fullWrite) [ascii "a\r", ascii "\nbc\r\nd", ascii "e"]
      rfl (by decide) (by decide) (by decide)).2.1⟩

/-- C9, counterexample: two timeouts in a row make the monitor close each socket twice. -/
theorem C9_counterexample :
    ¬ ((idleMonitor 0 [MonEvent.timeout, MonEvent.timeout]).localCloses ≤ 1 ∧
       (idleMonitor 0 [MonEvent.timeout, MonEvent.timeout]).remoteCloses ≤ 1) := by
  decide

/-- C9, as amended: the monitor closes both sockets at every timeout that elapses before the
pulse channel is closed, the first one included; a pulse closes nothing; once the channel is
closed the monitor has returned and closes nothing.  So on each socket it issues as many
close operations as timeouts elapse before the channel is closed. -/
theorem C9_idle_monitor_closes (start : Int) (evs : List MonEvent) :
    (idleMonitor start evs).localCloses = timeoutsBeforeClose evs ∧
    (idleMonitor start evs).remoteCloses = timeoutsBeforeClose evs ∧
    (∀ later, (idleMonitor start (evs ++ MonEvent.closed :: later)).localCloses =
      timeoutsBeforeClose evs) ∧
    (∀ rx now, (idleMonitor start (evs ++ [MonEvent.pulse rx now])).localCloses =
      (idleMonitor start evs).localCloses) := by
  have h := monitor_closes
    { exited := false, last := start, localCloses := 0, remoteCloses := 0, sentLines := 0 }
  have hpre : ∀ (xs ys : List MonEvent), timeoutsBeforeClose (xs ++ MonEvent.closed :: ys) =
      timeoutsBeforeClose xs := by
    intro xs ys
    induction xs with
    | nil => rfl
    | cons x xs ih => cases x <;> simp [timeoutsBeforeClose, ih]
  have hpulse : ∀ (xs : List MonEvent) rx now,
      timeoutsBeforeClose (xs ++ [MonEvent.pulse rx now]) = timeoutsBeforeClose xs := by
    intro xs rx now
    induction xs with
    | nil => rfl
    | cons x xs ih => cases x <;> simp [timeoutsBeforeClose, ih]
  unfold idleMonitor
  refine ⟨?_, ?_, fun later => ?_, fun rx now => ?_⟩
  · rw [(h evs rfl).1]; simp
  · rw [(h evs rfl).2]; simp
  · rw [(h _ rfl).1, hpre]; simp
  · rw [(h _ rfl).1, (h evs rfl).1, hpulse]

set_option maxRecDepth 100000 in
/-- C8, at the failing input: a read that returns the bytes `abc` together with an error
leaves the loop running, so that it calls `Read` again with nothing forwarded; when that next
read reports end-of-stream, `CopyProxy` returns no error at all.  The same happens when the
bytes come together with end-of-stream. -/
theorem C8_terminal_read_with_data :
    (CopyProxy (Listener [] fullWrite) [⟨ascii "abc", .other⟩]).status = .running ∧
    (CopyProxy (Listener [] fullWrite) [⟨ascii "abc", .other⟩]).sock.out = [] ∧
    (CopyProxy (Listener [] fullWrite) [⟨ascii "abc", .other⟩, ⟨[], .eof⟩]).status =
      .returned none ∧
    (CopyProxy (Listener [] fullWrite) [⟨ascii "abc", .eof⟩]).status = .running ∧
    (CopyProxy (Listener [] fullWrite) [⟨[], .other⟩]).status = .returned (some Err.read) := by
  decide


set_option maxRecDepth 100000 in
/-- C3, the claim as it stands, fails at its own example: with the single omit pattern
`archive` the three LIST lines naming INBOX, INBOX.archive.2020 and Sent leave the filter
unchanged, so the output is not the INBOX line followed by the Sent line.  The expression
built in `Listener` puts the pattern directly behind the opening quote of the mailbox name. -/
theorem C3_counterexample :
    filter (Listener [Regex.lit (ascii "archive")] fullWrite)
        (ascii "* LIST (\\HasNoChildren) \".\" \"INBOX\"\r\n* LIST (\\HasNoChildren) \".\" \"INBOX.archive.2020\"\r\n* LIST (\\HasNoChildren) \".\" \"Sent\"\r\n") =
      ascii "* LIST (\\HasNoChildren) \".\" \"INBOX\"\r\n* LIST (\\HasNoChildren) \".\" \"INBOX.archive.2020\"\r\n* LIST (\\HasNoChildren) \".\" \"Sent\"\r\n" ∧
    filter (Listener [Regex.lit (ascii "archive")] fullWrite)
        (ascii "* LIST (\\HasNoChildren) \".\" \"INBOX\"\r\n* LIST (\\HasNoChildren) \".\" \"INBOX.archive.2020\"\r\n* LIST (\\HasNoChildren) \".\" \"Sent\"\r\n") ≠
      ascii "* LIST (\\HasNoChildren) \".\" \"INBOX\"\r\n* LIST (\\HasNoChildren) \".\" \"Sent\"\r\n" := by
  decide

set_option maxRecDepth 100000 in
/-- C3, amended: the omit rule deletes the lines whose mailbox name begins with the pattern.
With the single omit pattern `archive`, the three LIST lines naming INBOX, archive.2020 and
Sent yield exactly the INBOX line followed by the Sent line; and for every pattern text `v`
without metacharacters (which `Listener` compiles to the literal), every complete line
`* LIST (<flags>) "<delim>" "<name>"CRLF` or `* LSUB ...` whose name begins with `v` (the
name free of CR and LF, the flags free of `)` and LF, the delimiter one byte that is neither
`"` nor LF) is deleted whole, terminator included. -/
theorem C3_omit_rule_deletes_prefixed (w : Nat → List Nat → WriteResult) :
    (ListenerOfText [ascii "archive"] w).map (fun ic => filter ic
        (ascii "* LIST (\\HasNoChildren) \".\" \"INBOX\"\r\n* LIST (\\HasNoChildren) \".\" \"archive.2020\"\r\n* LIST (\\HasNoChildren) \".\" \"Sent\"\r\n")) =
      some (ascii "* LIST (\\HasNoChildren) \".\" \"INBOX\"\r\n* LIST (\\HasNoChildren) \".\" \"Sent\"\r\n") ∧
    ∀ (v kw flags rest : List Nat) (d : Nat), plain v = true →
      (kw = ascii "LIST" ∨ kw = ascii "LSUB") →
      (∀ x ∈ flags, x ≠ 41 ∧ x ≠ 10) → (d ≠ 34 ∧ d ≠ 10) →
      (∀ x ∈ rest, x ≠ 13 ∧ x ≠ 10) →
      (ListenerOfText [v] w).map (fun ic => filter ic
        (ascii "* " ++ kw ++ ascii " (" ++ flags ++ ascii ") \"" ++ [d] ++ ascii "\" \"" ++
          (v ++ rest) ++ ascii "\"\r\n")) = some [] := by
  constructor
  · rw [ListenerOfText_plain w (ascii "archive") (by decide), Option.map_some',
      filter_conn _ w fullWrite]
    exact congrArg some (by decide)
  · intro v kw flags rest d hv hkw hflags hd hrest
    rw [ListenerOfText_plain w v hv, Option.map_some']
    exact congrArg some (filter_listLine w v kw flags rest d hkw hflags hd (plain_ne_lf v hv)
      (fun x hx => by simp [notCRLF, (hrest x hx).1, (hrest x hx).2]))

/-- C3 at a concrete line: `* LSUB () "/" "archive/2020"` is deleted by the pattern
`archive`. -/
theorem C3_omit_rule_deletes_prefixed_witness :
    plain (ascii "archive") = true ∧
    (ListenerOfText [ascii "archive"] fullWrite).map (fun ic => filter ic
      (ascii "* " ++ ascii "LSUB" ++ ascii " (" ++ [] ++ ascii ") \"" ++ [47] ++ ascii "\" \"" ++
        (ascii "archive" ++ ascii "/2020") ++ ascii "\"\r\n")) = some [] :=
  ⟨by decide,
    (C3_omit_rule_deletes_prefixed fullWrite).2 (ascii "archive") (ascii "LSUB") []
      (ascii "/2020") 47 (by decide) (Or.inr rfl) (by decide) (by decide) (by decide)⟩

set_option maxRecDepth 100000 in
/-- C5, the claim as it stands, fails: a capability line with the tag `a001` leaves the
filter unchanged, token included, because the expression admits only tags made of `*`,
digits and `.`; a line with nothing between `IMAP4` and the token is left unchanged as
well; of two tokens only the last is removed; and where the single token is followed by
bytes of the token, cutting it can put a new token together. -/
theorem C5_counterexample :
    filter (Listener [] fullWrite)
        (ascii "a001 OK [CAPABILITY IMAP4rev1 COMPRESS=DEFLATE IDLE] done\r\n") =
      ascii "a001 OK [CAPABILITY IMAP4rev1 COMPRESS=DEFLATE IDLE] done\r\n" ∧
    occurrences capToken (filter (Listener [] fullWrite)
        (ascii "a001 OK [CAPABILITY IMAP4rev1 COMPRESS=DEFLATE IDLE] done\r\n")) = 1 ∧
    filter (Listener [] fullWrite)
        (ascii "* OK [CAPABILITY IMAP4 COMPRESS=DEFLATE IDLE] done\r\n") =
      ascii "* OK [CAPABILITY IMAP4 COMPRESS=DEFLATE IDLE] done\r\n" ∧
    filter (Listener [] fullWrite)
        (ascii "* OK [CAPABILITY IMAP4rev1 COMPRESS=DEFLATE COMPRESS=DEFLATE] done\r\n") =
      ascii "* OK [CAPABILITY IMAP4rev1 COMPRESS=DEFLATE] done\r\n" ∧
    occurrences capToken
      (ascii "* OK [CAPABILITY IMAP4rev1 COMP COMPRESS=DEFLATERESS=DEFLATE] done\r\n") = 1 ∧
    filter (Listener [] fullWrite)
        (ascii "* OK [CAPABILITY IMAP4rev1 COMP COMPRESS=DEFLATERESS=DEFLATE] done\r\n") =
      ascii "* OK [CAPABILITY IMAP4rev1 COMPRESS=DEFLATE] done\r\n" := by
  decide

/-- C5, amended: the capability rule on every line of the shape its expression admits.  For
every non-empty tag made of `*`, digits and `.`, and every line
`<tag> OK [CAPABILITY IMAP4<mid> COMPRESS=DEFLATE<rest>CRLF` with `<mid>` non-empty, `<mid>`
and `<rest>` free of CR and LF, in which the token occurs exactly once and is followed by a
byte that is not one of the token (a space, `]`, the CR), the output is the line without the
17 bytes ` COMPRESS=DEFLATE`, every other byte and the terminator kept in order, and the
output holds no occurrence of the token; this for every connection `Listener` builds from
omit patterns made of literal bytes, escaped punctuation and `.*`, the default patterns and
the empty list among them. -/
theorem C5_capability_rewrite_tags (texts : List (List Nat))
    (w : Nat → List Nat → WriteResult) (ic : ImapConnection)
    (hcfg : ListenerOfText texts w = some ic)
    (tag mid rest : List Nat) (htag : tag ≠ []) (htagb : ∀ x ∈ tag, tagByte x = true)
    (hmid : mid ≠ []) (hmidb : ∀ x ∈ mid, x ≠ 13 ∧ x ≠ 10)
    (hrestb : ∀ x ∈ rest, x ≠ 13 ∧ x ≠ 10)
    (hone : occurrences capToken (tag ++ capOK ++ mid ++ capCut ++ rest ++ rn) = 1)
    (hsep : ∀ x ∈ (rest ++ rn).head?, x ∉ capToken) :
    filter ic (tag ++ capOK ++ mid ++ capCut ++ rest ++ rn) =
      tag ++ capOK ++ mid ++ rest ++ rn ∧
    occurrences capToken (tag ++ capOK ++ mid ++ rest ++ rn) = 0 := by
  obtain ⟨omits, _, rfl⟩ := ListenerOfText_some texts w ic hcfg
  refine ⟨filter_capLine_once omits w tag mid rest htag htagb hmid hmidb hrestb hone, ?_⟩
  have e1 : tag ++ capOK ++ mid ++ capCut ++ rest ++ rn =
      (tag ++ capOK ++ mid) ++ (capCut ++ (rest ++ rn)) := by
    simp only [List.append_assoc]
  have e2 : tag ++ capOK ++ mid ++ rest ++ rn = (tag ++ capOK ++ mid) ++ (rest ++ rn) := by
    simp only [List.append_assoc]
  rw [e1] at hone
  rw [e2]
  cases hR : rest ++ rn with
  | nil =>
    have := congrArg List.length hR
    simp [rn] at this
  | cons x R1 =>
    rw [hR] at hone
    exact occ_removed _ _ x R1 rfl (hsep x (by rw [hR]; rfl)) hone

set_option maxRecDepth 100000 in
/-- C5 at a concrete line: a numeric tag, the token in the middle of the list, the default
omit patterns configured. -/
theorem C5_capability_rewrite_tags_witness :
    ListenerOfText defaultOmits fullWrite =
      some (Listener [Regex.seqs ((ascii "INBOX.archive").map Regex.byte ++
        [Regex.star (.cls (fun x => !(x == 10)))]), Regex.lit (ascii "archive")] fullWrite) ∧
    filter (Listener [Regex.seqs ((ascii "INBOX.archive").map Regex.byte ++
        [Regex.star (.cls (fun x => !(x == 10)))]), Regex.lit (ascii "archive")] fullWrite)
        (ascii "17" ++ capOK ++ ascii "rev1 IDLE" ++ capCut ++ ascii " NAMESPACE] ok" ++ rn) =
      ascii "17" ++ capOK ++ ascii "rev1 IDLE" ++ ascii " NAMESPACE] ok" ++ rn ∧
    occurrences capToken
      (ascii "17" ++ capOK ++ ascii "rev1 IDLE" ++ ascii " NAMESPACE] ok" ++ rn) = 0 :=
  ⟨rfl, C5_capability_rewrite_tags defaultOmits fullWrite _ rfl (ascii "17")
    (ascii "rev1 IDLE") (ascii " NAMESPACE] ok") (by decide) (by decide) (by decide)
    (by decide) (by decide) (by decide) (by decide)⟩

set_option maxRecDepth 100000 in
/-- C2, the claim as it stands, fails in two ways.  A match may extend over a line
terminator: `[^)]*` of the omit expression takes the CRLF in `* LIST (CRLF) "." "archive"CRLF`,
so the stream is deleted when it arrives in one read and passes unchanged when it arrives in
two reads split behind the first CRLF.  And a line of 65536 bytes is deleted when it arrives
in one read, but written unfiltered by the overflow branch when its first 65534 bytes arrive
before its CRLF. -/
theorem C2_counterexample :
    delivered (CopyProxy (Listener [Regex.lit (ascii "archive")] fullWrite)
      (script [ascii "* LIST (\r\n) \".\" \"archive\"\r\n"])) = [] ∧
    delivered (CopyProxy (Listener [Regex.lit (ascii "archive")] fullWrite)
      (script [ascii "* LIST (\r\n", ascii ") \".\" \"archive\"\r\n"])) =
      ascii "* LIST (\r\n) \".\" \"archive\"\r\n" ∧
    delivered (CopyProxy (Listener [Regex.lit (ascii "archive")] fullWrite)
      (script [(ascii "* LIST () \".\" \"archive" ++ List.replicate 65511 97 ++ [34]) ++ rn])) =
      [] ∧
    delivered (CopyProxy (Listener [Regex.lit (ascii "archive")] fullWrite)
      (script [ascii "* LIST () \".\" \"archive" ++ List.replicate 65511 97 ++ [34], rn])) =
      (ascii "* LIST () \".\" \"archive" ++ List.replicate 65511 97 ++ [34]) ++ rn := by
  have hbl : (ascii "* LIST () \".\" \"archive" ++ List.replicate 65511 97 ++ [34]).length =
      65534 := by
    rw [List.length_append, List.length_append, List.length_replicate]
    rfl
  have hb10 : ∀ x ∈ ascii "* LIST () \".\" \"archive" ++ List.replicate 65511 97 ++ [34],
      x ≠ 10 := by
    intro x hx
    have h0 : ∀ y ∈ ascii "* LIST () \".\" \"archive", y ≠ 10 := by decide
    rcases List.mem_append.mp hx with h | h
    · rcases List.mem_append.mp h with h | h
      · exact h0 x h
      · exact replicate_no_lf _ x h
    · rw [List.mem_singleton.mp h]; decide
  have hfil : filter (Listener [Regex.lit (ascii "archive")] fullWrite)
      ((ascii "* LIST () \".\" \"archive" ++ List.replicate 65511 97 ++ [34]) ++ rn) = [] := by
    have h := filter_listLine fullWrite (ascii "archive") (ascii "LIST") []
      (List.replicate 65511 97) 46 (Or.inl rfl) (by simp) (by decide) (by decide)
      (fun x hx => by rw [List.eq_of_mem_replicate hx]; rfl)
    have e : ascii "* " ++ ascii "LIST" ++ ascii " (" ++ [] ++ ascii ") \"" ++ [46] ++
        ascii "\" \"" ++ (ascii "archive" ++ List.replicate 65511 97) ++ ascii "\"\r\n" =
        (ascii "* LIST () \".\" \"archive" ++ List.replicate 65511 97 ++ [34]) ++ rn := by
      have e1 : ascii "* " ++ ascii "LIST" ++ ascii " (" ++ [] ++ ascii ") \"" ++ [46] ++
          ascii "\" \"" ++ ascii "archive" = ascii "* LIST () \".\" \"archive" := rfl
      have e2 : ascii "\"\r\n" = [34] ++ rn := rfl
      rw [← e1, e2]
      simp only [List.append_assoc]
    rw [← e]
    exact h
  obtain ⟨r1, r2⟩ := long_line_runs (Listener [Regex.lit (ascii "archive")] fullWrite) rfl
    (ascii "* LIST () \".\" \"archive" ++ List.replicate 65511 97 ++ [34]) hbl hb10
    (by decide)
  rw [hfil] at r1
  refine ⟨?_, ?_, ?_, ?_⟩
  · rw [delivered_CopyProxy]
    decide
  · rw [delivered_CopyProxy]
    decide
  · rw [delivered_CopyProxy]
    exact r1
  · rw [delivered_CopyProxy]
    exact r2

/-- C2, amended: chunking independence for streams of at most 65534 bytes in which no match
of a rule extends over more than one line.  For every rule set, on a client socket that
accepts every write, and every stream of at most 65534 bytes such that, when its complete
lines are rewritten as one chunk, every match of a rule starts at a line start and takes
exactly one line: however the stream is split into fragments, `CopyProxy` fed the fragments
one per read and then end-of-stream writes downstream the same bytes as `CopyProxy` fed the
stream in one read and then end-of-stream, namely the complete lines rewritten, followed by
the unterminated tail; and it returns no error. -/
theorem C2_chunking_independence (ic : ImapConnection) (frags : List (List Nat))
    (hw : ic.localConn = fullWrite) (hlen : frags.flatten.length ≤ 65534)
    (hloc : Local ic (lines frags.flatten).flatten = true) :
    delivered (CopyProxy ic (script frags)) =
      delivered (CopyProxy ic (script [frags.flatten])) ∧
    delivered (CopyProxy ic (script frags)) =
      filter ic (lines frags.flatten).flatten ++ tail frags.flatten ∧
    (CopyProxy ic (script frags)).status = .returned none := by
  have e1 : [frags.flatten].flatten = frags.flatten := by simp
  have h1 := delivered_small ic hw frags (by rw [bufSize_eq]; exact hlen) hloc
  have h2 := delivered_small ic hw [frags.flatten] (by rw [e1, bufSize_eq]; exact hlen)
    (by rw [e1]; exact hloc)
  rw [e1] at h2
  rw [delivered_CopyProxy, delivered_CopyProxy, (CopyProxy_fields ic (script frags)).2.2.1]
  exact ⟨h1.1.trans h2.1.symm, h1.1, h1.2⟩

set_option maxRecDepth 100000 in
/-- C2 at a concrete stream: two LIST lines, one of them omitted, and a tail, arriving in
four fragments that cut through a line and through a CRLF. -/
theorem C2_chunking_independence_witness :
    (Listener [Regex.lit (ascii "archive")] fullWrite).localConn = fullWrite ∧
    [ascii "* LIST () \".\" \"arch", ascii "ive\"\r\n* LIST () \".\" \"INBOX\"\r",
      ascii "\nA1 ", ascii "x"].flatten.length ≤ 65534 ∧
    Local (Listener [Regex.lit (ascii "archive")] fullWrite)
      (lines [ascii "* LIST () \".\" \"arch", ascii "ive\"\r\n* LIST () \".\" \"INBOX\"\r",
        ascii "\nA1 ", ascii "x"].flatten).flatten = true ∧
    delivered (CopyProxy (Listener [Regex.lit (ascii "archive")] fullWrite)
      (script [ascii "* LIST () \".\" \"arch", ascii "ive\"\r\n* LIST () \".\" \"INBOX\"\r",
        ascii "\nA1 ", ascii "x"])) =
      delivered (CopyProxy (Listener [Regex.lit (ascii "archive")] fullWrite)
        (script [[ascii "* LIST () \".\" \"arch", ascii "ive\"\r\n* LIST () \".\" \"INBOX\"\r",
          ascii "\nA1 ", ascii "x"].flatten])) :=
  ⟨rfl, by decide, by decide,
    (C2_chunking_independence (Listener [Regex.lit (ascii "archive")] fullWrite)
      [ascii "* LIST () \".\" \"arch", ascii "ive\"\r\n* LIST () \".\" \"INBOX\"\r",
        ascii "\nA1 ", ascii "x"] rfl (by decide) (by decide)).1⟩


end ImapFilter
